import Mathlib

/-!
Verification of the metacells divide-and-conquer clustering core.

This file shallowly embeds the relevant parts of
`metacells/pipeline/divide_and_conquer.py` and `metacells/tools/candidates.py`
and proves (or refutes) the frozen specification claims about them.

Machine integers are modelled as `Nat`/`Int` (the Python code uses unbounded
Python ints and `int32` numpy vectors whose values stay far below the bounds in
every use considered here); numpy vectors are modelled as Lean lists, and
vectorized numpy writes as element-wise list operations.
-/

namespace Metacells

/-! ## Basic list helpers (numpy-style operations) -/

/-- `np.max` of a list of naturals (callers only use it on nonempty lists;
totalized with 0 for `[]`). -/
def list_max (l : List Nat) : Nat := l.foldl max 0

/-- `np.max` of a list of integers (callers only use it on nonempty lists;
totalized with `-1` for `[]` which makes `max + 1 = 0`, matching the use of
the result as a count). -/
def int_list_max : List Int → Int
  | [] => -1
  | x :: xs => xs.foldl max x

/-- `pile_metacells[pile_metacells >= 0] += count`: offset the non-negative
entries of an integer vector, leaving negative sentinels unchanged.
From `_collect_pile_results` / `_collect_outliers_results`. -/
def offset_nonneg (l : List Int) (count : Int) : List Int :=
  l.map (fun v => if 0 ≤ v then v + count else v)

/-- `acc[cell_indices] = vals`: numpy fancy-index write, modelled as sequential
single-element writes (the index vectors used are duplicate-free). -/
def scatter (acc : List Int) : List Nat → List Int → List Int
  | [], _ => acc
  | _ :: _, [] => acc
  | i :: is', v :: vs => scatter (acc.set i v) is' vs

/-! ## `_collect_pile_results` / `_collect_piles_results` (metacell vector part)

From `metacells/pipeline/divide_and_conquer.py`.  Only the `metacell`
annotation flow is modelled: a pile's partial result is a pair
`(cell_indices, metacell)` (the saved `complete_cell_index` vector and the
pile-local metacell id per cell, `-1` meaning unassigned). -/

/-- One pile's partial result: the saved original cell indices and the
pile-local metacell id of each of those cells. -/
structure PileResult where
  cell_indices : List Nat
  metacell : List Int

/-- The metacell-vector part of `_collect_pile_results`: offset non-negative
local ids by `metacells_count`, recompute the count as `np.max(...) + 1`, and
write the values into the accumulator at the saved indices.  Returns the
updated accumulator and the updated count (the Python function returns the
updated count as its `int` result). -/
def collect_pile_results (acc : List Int) (r : PileResult) (metacells_count : Int) :
    List Int × Int :=
  let pile_metacells := offset_nonneg r.metacell metacells_count
  let metacells_count := int_list_max pile_metacells + 1
  (scatter acc r.cell_indices pile_metacells, metacells_count)

/-- The loop body of `_collect_piles_results`: the Python code calls
`_collect_pile_results(..., metacells_count, ...)` for each pile in pile-index
order but never assigns its return value, so the `metacells_count` local
stays `0` for every pile. -/
def collect_piles_go (acc : List Int) : List PileResult → List Int
  | [] => acc
  | r :: rs => collect_piles_go (collect_pile_results acc r 0).1 rs

/-- `_collect_piles_results` (metacell part): iterate over the pile results in
pile-index order with `metacells_count = 0`, returning the accumulator and the
final value of `metacells_count` (which the code leaves at `0`). -/
def collect_piles_results (acc : List Int) (results : List PileResult) :
    List Int × Int :=
  (collect_piles_go acc results, 0)

/-- The metacell-vector part of `_collect_outliers_results`: offset the
non-negative entries of the outlier run's metacell vector by
`metacells_count` and write them back at the saved indices. -/
def collect_outliers_results (acc : List Int) (r : PileResult) (metacells_count : Int) :
    List Int :=
  scatter acc r.cell_indices (offset_nonneg r.metacell metacells_count)

/-! ## `_compute_pile_metacells` (seed derivation, C9)

From `metacells/pipeline/divide_and_conquer.py`, `_compute_piled_metacells`:
the nested `_compute_pile_metacells(pile_index)` closure calls
`compute_direct_metacells(..., must_complete_cover=False, ...,
random_seed=random_seed)`. -/

/-- The arguments relevant to C9 that `_compute_pile_metacells` passes to the
per-pile `compute_direct_metacells` invocation. -/
structure DirectCallArgs where
  pile_index : Nat
  must_complete_cover : Bool
  random_seed : Nat

/-- `_compute_pile_metacells pile_index`: the per-pile direct clustering call
receives `must_complete_cover=False` and the run's `random_seed` unchanged. -/
def compute_pile_direct_args (random_seed : Nat) (pile_index : Nat) : DirectCallArgs :=
  { pile_index := pile_index
    must_complete_cover := false
    random_seed := random_seed }

/-- Modelled from the spec: "each pile derives a sub-seed as `seed + pile_index`"
(§5).  This is the specification's stated derivation, kept separate so it can be
compared with the code's behaviour. -/
def spec_pile_sub_seed (seed : Nat) (pile_index : Nat) : Nat := seed + pile_index

/-! ## The `Improver` of `metacells/tools/candidates.py`

The partition method (`ut.leiden_bounded_surprise` etc., whose code lives in
the `metacells.utilities.partition` module that is not part of the sources at
hand) is abstracted as an oracle: a function from the invocation counter and
the number of nodes of the subproblem to a membership vector.  Edge weights,
node sizes of the subproblem and the random seed are all determined by the
state and the invocation counter, so quantifying over all oracles covers every
possible behaviour of a deterministic partition method. -/

/-- A partition-method oracle: invocation counter and node count of the
subproblem to partition, yielding one community id per node. -/
def Oracle : Type := Nat → Nat → List Nat

/-- Modelled from the spec: the BasePartitioner contract (§6) — the code of the
partition methods (`metacells.utilities.partition`) is not among the sources —
"returns `membership`: n-vector of community ids in `[0, k)`".  The result has
one entry per node and its values form a downward-closed (hence contiguous,
zero-based) set. -/
def PartOK (k : Nat) (l : List Nat) : Prop :=
  l.length = k ∧ ∀ i v, v ∈ l → i ≤ v → i ∈ l

/-- An oracle every invocation of which satisfies the BasePartitioner
contract. -/
def OracleOK (oracle : Oracle) : Prop :=
  ∀ c k, PartOK k (oracle c k)

/-- `membership == index` (numpy boolean mask). -/
def mask_of (membership : List Nat) (index : Nat) : List Bool :=
  membership.map (fun v => v == index)

/-- `np.sum(mask)` for a boolean mask. -/
def count_true (mask : List Bool) : Nat := mask.count true

/-- `np.sum(node_sizes[mask])`. -/
def masked_sum (mask : List Bool) (sizes : List Nat) : Nat :=
  ((mask.zip sizes).filter (fun p => p.1)).foldl (fun a p => a + p.2) 0

/-- `membership[mask] = v` for a scalar value. -/
def set_masked (membership : List Nat) (mask : List Bool) (v : Nat) : List Nat :=
  membership.zipWith (fun m b => if b then v else m) mask

/-- `membership[mask] = vals` where `vals` has one entry per masked position
(in node order).  A missing value keeps the old entry (unreachable when the
value vector has exactly as many entries as the mask has set bits, which numpy
enforces). -/
def assign_masked : List Nat → List Bool → List Nat → List Nat
  | m :: ms, b :: bs, vs =>
    if b then (vs.headD m) :: assign_masked ms bs vs.tail
    else m :: assign_masked ms bs vs
  | ms, _, _ => ms

/-- `membership[membership == old] = v`. -/
def relabel_one (membership : List Nat) (old v : Nat) : List Nat :=
  membership.map (fun m => if m == old then v else m)

/-- Python tuple comparison `(a, b) < (c, d)` on pairs of naturals
(lexicographic). -/
def pair_lt (p q : Nat × Nat) : Bool :=
  p.1 < q.1 || (p.1 == q.1 && p.2 < q.2)

/-- Metadata about a community (the `Community` dataclass). -/
structure Community where
  index : Nat
  nodes : Nat
  size : Nat
  mask : List Bool
  too_few : Nat
  too_small : Nat
  too_large : Nat
  monolithic : Bool
deriving Repr, DecidableEq

/-- A split attempt recorded for analysis: the oracle invocation counter, the
index of the community passed to the partition method by `split_large`, and
its node count.  This is a ghost record of the partition-method invocations
`split_large` performs; it influences nothing. -/
structure SplitAttempt where
  call : Nat
  index : Nat
  nodes : Nat
deriving Repr, DecidableEq

/-- The `Improver` state (`Improver.__init__`).  The `partition_method`,
`edge_weights` and `random_seed` attributes are absorbed into the oracle
abstraction; `oracle_calls` counts the partition-method invocations made so
far, and `split_attempts` is the ghost log of `split_large` invocations. -/
structure Improver where
  membership : List Nat
  node_sizes : Option (List Nat)
  target_comm_size : Nat
  max_comm_size : Option Nat
  min_comm_size : Option Nat
  min_comm_nodes : Option Nat
  communities : List Community
  too_few : Nat
  too_small : Nat
  too_large : Nat
  next_community_index : Nat
  must_complete_cover : Bool
  oracle_calls : Nat
  split_attempts : List SplitAttempt
deriving Repr

/-- `min_comm_nodes`/`min_comm_size` deficit: by how much `value` falls short
of the bound (0 when no bound is configured or the bound is met). -/
def deficit (bound : Option Nat) (value : Nat) : Nat :=
  match bound with
  | some b => if value < b then b - value else 0
  | none => 0

/-- `max_comm_size` excess: by how much `value` exceeds the bound (0 when no
bound is configured or the bound is met). -/
def excess (bound : Option Nat) (value : Nat) : Nat :=
  match bound with
  | some b => if b < value then value - b else 0
  | none => 0

/-- The total size of a community given its mask (`np.sum(mask)` when node
sizes are absent, `np.sum(node_sizes[mask])` otherwise). -/
def Improver.community_size (s : Improver) (mask : List Bool) : Nat :=
  match s.node_sizes with
  | none => count_true mask
  | some sizes => masked_sum mask sizes

/-- The body of the `for` loop of `Improver.add`: build the community with the
next unused index from the membership vector and append it, updating the
penalty totals. -/
def Improver.add_one (s : Improver) : Improver :=
  let index := s.next_community_index
  let mask := mask_of s.membership index
  let total_nodes := count_true mask
  let few := deficit s.min_comm_nodes total_nodes
  let total_size := s.community_size mask
  let small := deficit s.min_comm_size total_size
  let large := excess s.max_comm_size total_size
  { s with
    next_community_index := index + 1
    too_few := s.too_few + few
    too_small := s.too_small + small
    too_large := s.too_large + large
    communities := s.communities ++
      [{ index := index, nodes := total_nodes, size := total_size, mask := mask,
         too_few := few, too_small := small, too_large := large,
         monolithic := false }] }

/-- `Improver.add(count)`: add `count` new communities from the membership
vector. -/
def Improver.add_many (s : Improver) : Nat → Improver
  | 0 => s
  | n + 1 => (s.add_one).add_many n

/-- `Improver.remove(position)`: drop the community at `position` and subtract
its penalties from the running totals (no-op on an out-of-range position,
which the callers never produce). -/
def Improver.remove_at (s : Improver) (position : Nat) : Improver :=
  match s.communities.get? position with
  | none => s
  | some community =>
    { s with
      communities := s.communities.eraseIdx position
      too_few := s.too_few - community.too_few
      too_small := s.too_small - community.too_small
      too_large := s.too_large - community.too_large }

/-- Whether a community is selected by `merge_few_or_small` and `pack`
(the loops skip a community iff `too_few == 0 and too_small == 0`). -/
def few_or_small (c : Community) : Bool :=
  !(c.too_few == 0 && c.too_small == 0)

/-- `membership[c.mask] = a + base` for each merged community `c` paired with
its condensed-graph community id `a` (Python `zip` truncates at the shorter
list). -/
def write_merged (membership : List Nat) : List Community → List Nat → Nat → List Nat
  | c :: cs, a :: as', base =>
    write_merged (set_masked membership c.mask (a + base)) cs as' base
  | _, _, _ => membership

/-- `Improver.merge_few_or_small`: condense the currently too-few/too-small
communities into single nodes, re-partition them (the oracle call — edge
weight condensation does not affect any state modelled here), relabel the
members, replace the merged community records, and report improvement iff the
new `(too_few, too_small)` pair is less than the old one in Python tuple
order. -/
def Improver.merge_few_or_small (oracle : Oracle) (s : Improver) : Bool × Improver :=
  let merged := s.communities.enum.filter (fun p => few_or_small p.2)
  if merged.length < 2 then (false, s)
  else
    let assign := oracle s.oracle_calls merged.length
    let s0 : Improver := { s with oracle_calls := s.oracle_calls + 1 }
    let membership1 :=
      write_merged s0.membership (merged.map (fun p => p.2)) assign s0.next_community_index
    let before_too_few := s0.too_few
    let before_too_small := s0.too_small
    let s1 := (merged.map (fun p => p.1)).reverse.foldl
      (fun t position => t.remove_at position) { s0 with membership := membership1 }
    let merged_count := list_max assign + 1
    let s2 := s1.add_many merged_count
    (pair_lt (s2.too_few, s2.too_small) (before_too_few, before_too_small), s2)

/-- The `while position < len(self.communities)` loop of
`Improver.split_large`, with explicit fuel (each step either advances the
position or replaces a too-large community by at least two smaller ones;
termination is proved separately).  Returns `did_split` and the final state,
or `none` when the fuel runs out. -/
def Improver.split_large_go (oracle : Oracle) :
    Nat → Improver → Nat → Bool → Option (Bool × Improver)
  | 0, _, _, _ => none
  | fuel + 1, s, position, did_split =>
    match s.communities.get? position with
    | none => some (did_split, s)
    | some split_community =>
      if split_community.too_large == 0 || split_community.monolithic then
        Improver.split_large_go oracle fuel s (position + 1) did_split
      else
        let assign := oracle s.oracle_calls split_community.nodes
        let s0 : Improver :=
          { s with
            oracle_calls := s.oracle_calls + 1
            split_attempts := s.split_attempts ++
              [{ call := s.oracle_calls, index := split_community.index,
                 nodes := split_community.nodes }] }
        let split_count := list_max assign + 1
        if split_count == 1 then
          let s1 : Improver :=
            { s0 with communities :=
                s0.communities.set position { split_community with monolithic := true } }
          Improver.split_large_go oracle fuel s1 (position + 1) did_split
        else
          let s1 := s0.remove_at position
          let membership1 :=
            assign_masked s1.membership split_community.mask
              (assign.map (fun a => a + s1.next_community_index))
          let s2 := Improver.add_many { s1 with membership := membership1 } split_count
          Improver.split_large_go oracle fuel s2 position true

/-- `Improver.split_large`: one pass over the community list splitting each
too-large, non-monolithic community. -/
def Improver.split_large (oracle : Oracle) (fuel : Nat) (s : Improver) :
    Option (Bool × Improver) :=
  Improver.split_large_go oracle fuel s 0 false

/-- `while self.too_few > 0 or self.too_small > 0: if not
self.merge_few_or_small(): break` with explicit fuel. -/
def Improver.merge_loop (oracle : Oracle) : Nat → Improver → Option Improver
  | 0, _ => none
  | fuel + 1, s =>
    if s.too_few > 0 || s.too_small > 0 then
      let r := Improver.merge_few_or_small oracle s
      if r.1 then Improver.merge_loop oracle fuel r.2 else some r.2
    else some s

/-- `while self.too_large > 0: if not self.split_large(): break` (tracking
`did_split`) with explicit fuel. -/
def Improver.split_loop (oracle : Oracle) : Nat → Improver → Bool → Option (Bool × Improver)
  | 0, _, _ => none
  | fuel + 1, s, did_split =>
    if s.too_large > 0 then
      (Improver.split_large oracle fuel s).bind fun r =>
        if r.1 then Improver.split_loop oracle fuel r.2 true
        else some (did_split, r.2)
    else some (did_split, s)

/-- The body of one outer iteration of `Improver.improve`: the split loop, and
when any split occurred and a minimum size is configured, the merge loop. -/
def Improver.improve_body (oracle : Oracle) (fuel : Nat) (s : Improver) : Option Improver :=
  match s.max_comm_size with
  | none => some s
  | some _ =>
    (Improver.split_loop oracle fuel s false).bind fun r =>
      if r.1 && s.min_comm_size.isSome then Improver.merge_loop oracle fuel r.2
      else some r.2

/-- The outer `while (self.too_few, self.too_small + self.too_large) <
penalty` loop of `Improver.improve` with explicit fuel. -/
def Improver.improve_outer (oracle : Oracle) : Nat → Improver → Nat × Nat → Option Improver
  | 0, _, _ => none
  | fuel + 1, s, penalty =>
    if pair_lt (s.too_few, s.too_small + s.too_large) penalty then
      (Improver.improve_body oracle fuel s).bind fun s1 =>
        Improver.improve_outer oracle fuel s1 (s.too_few, s.too_small + s.too_large)
    else some s

/-- `Improver.improve`: the initial merge loop (when a minimum size is
configured) followed by the outer penalty loop. -/
def Improver.improve (oracle : Oracle) (fuel : Nat) (s : Improver) : Option Improver :=
  (if s.min_comm_size.isSome then Improver.merge_loop oracle fuel s else some s).bind
    fun s1 =>
      Improver.improve_outer oracle fuel s1 (s1.too_few, s1.too_small + s1.too_large + 1)

/-! ## `pack` and `fill` -/

/-- The collection loop shared by `pack` (selector `few_or_small`) and `fill`
(selector `too_few ≠ 0`): walk the community list, removing every selected
community and keeping the rest, returning the removed communities in list
order and the surviving list.  (The Python loop advances `position` past kept
communities and calls `self.remove(position)` on selected ones, which is
exactly an ordered split of the list.) -/
def collect_selected (sel : Community → Bool) : List Community → List Community × List Community
  | [] => ([], [])
  | c :: cs =>
    let r := collect_selected sel cs
    if sel c then (c :: r.1, r.2) else (r.1, c :: r.2)

/-- First-fit placement of one element of weight `size` into the first bin
whose load stays within `target`, opening a new bin at the end otherwise.
Returns the chosen bin id and the updated loads. -/
def ff_place (loads : List Nat) (size target : Nat) : Nat × List Nat :=
  match loads with
  | [] => (0, [size])
  | x :: xs =>
    if x + size ≤ target then (0, (x + size) :: xs)
    else
      let r := ff_place xs size target
      (r.1 + 1, x :: r.2)

/-- First-fit over a list of (original position, size) pairs, threading the
bin loads; returns (original position, bin id) pairs. -/
def bin_pack_go (target : Nat) : List Nat → List (Nat × Nat) → List (Nat × Nat)
  | _, [] => []
  | loads, (p, sz) :: rest =>
    let r := ff_place loads sz target
    (p, r.1) :: bin_pack_go target r.2 rest

/-- Modelled from the spec: `ut.bin_pack` — whose code
(`metacells.utilities.computation`) is not among the sources at hand — is a
"deterministic **size-based bin-packing** heuristic (greedy largest-first into
bins capped at target size)" (§4.3).  Implemented as first-fit decreasing:
elements are taken largest-first (stably) and each is placed into the first
bin it fits in without the bin exceeding `target` (an element that fits
nowhere, including one larger than `target`, opens a new bin).  Returns one
bin id per input element, in input order. -/
def bin_pack (sizes : List Nat) (target : Nat) : List Nat :=
  let items := sizes.enum
  let sorted := List.insertionSort (fun a b : Nat × Nat => b.2 ≤ a.2) items
  let assigned := bin_pack_go target [] sorted
  items.map (fun p => ((assigned.lookup p.1).getD 0))

/-- `membership[membership == index] = base + bin` for each removed community
index paired with its bin id. -/
def relabel_by_bins (membership : List Nat) : List Nat → List Nat → Nat → List Nat
  | i :: is', b :: bs, base => relabel_by_bins (relabel_one membership i (base + b)) is' bs base
  | _, _, _ => membership

/-- `Improver.pack`: remove every too-small/too-few community, bin-pack their
sizes against the target size, relabel their members by bin, and add the bins
as fresh communities. -/
def Improver.pack (s : Improver) : Improver :=
  let r := collect_selected few_or_small s.communities
  let removed := r.1
  if removed.length == 0 then s
  else
    let s1 : Improver :=
      { s with
        communities := r.2
        too_few := s.too_few - (removed.map (fun c => c.too_few)).sum
        too_small := s.too_small - (removed.map (fun c => c.too_small)).sum
        too_large := s.too_large - (removed.map (fun c => c.too_large)).sum }
    let bins := bin_pack (removed.map (fun c => c.size)) s.target_comm_size
    let bins_count := list_max bins + 1
    let membership1 :=
      relabel_by_bins s1.membership (removed.map (fun c => c.index)) bins
        s1.next_community_index
    Improver.add_many { s1 with membership := membership1 } bins_count

/-- Accumulate sorted elements into bins: each bin is filled until its load
reaches `mn`, then the next bin starts.  Returns (original position, bin id)
pairs together with the final bin counter and its (possibly incomplete)
load. -/
def bin_fill_go (mn : Nat) : Nat → Nat → List (Nat × Nat) → List (Nat × Nat) × Nat × Nat
  | bin, load, [] => ([], bin, load)
  | bin, load, (p, v) :: rest =>
    let load1 := load + v
    if mn ≤ load1 then
      let r := bin_fill_go mn (bin + 1) 0 rest
      ((p, bin) :: r.1, r.2)
    else
      let r := bin_fill_go mn bin load1 rest
      ((p, bin) :: r.1, r.2)

/-- Modelled from the spec: `ut.bin_fill` — whose code
(`metacells.utilities.computation`) is not among the sources at hand — is a
"deterministic **node-count bin-filling** heuristic (greedy smallest-first
merge until each bin reaches at least the minimum node count)" (§4.3).
Implemented: elements are taken smallest-first (stably) and accumulated into
the current bin until its total reaches the minimum, whereupon the next bin
starts; a trailing bin left below the minimum is merged into the bin before it
(so every bin meets the minimum whenever the combined total does).  Returns
one bin id per input element, in input order. -/
def bin_fill (vals : List Nat) (mn : Nat) : List Nat :=
  let items := vals.enum
  let sorted := List.insertionSort (fun a b : Nat × Nat => a.2 ≤ b.2) items
  let r := bin_fill_go mn 0 0 sorted
  let assigned :=
    if 0 < r.2.2 && 0 < r.2.1 then
      r.1.map (fun pb => if pb.2 == r.2.1 then (pb.1, r.2.1 - 1) else pb)
    else r.1
  items.map (fun p => ((assigned.lookup p.1).getD 0))

/-- Lexicographic Python tuple order on the `(nodes, size, position, index)`
candidate quadruples sorted by `fill`. -/
def quad_le (a b : Nat × Nat × Nat × Nat) : Bool :=
  a.1 < b.1 || (a.1 == b.1 && (a.2.1 < b.2.1 || (a.2.1 == b.2.1 &&
    (a.2.2.1 < b.2.2.1 || (a.2.2.1 == b.2.2.1 && a.2.2.2 ≤ b.2.2.2)))))

/-- The borrowing prefix of `fill` under `must_complete_cover`: walk the
sorted candidates, taking each in turn, until the accumulated node total
reaches the minimum (each candidate is appended before the check, so the one
that reaches the minimum is included). -/
def borrow_go (mn : Nat) : Nat → List (Nat × Nat × Nat × Nat) → List (Nat × Nat × Nat × Nat)
  | _, [] => []
  | total, c :: cs =>
    if mn ≤ total + c.1 then [c]
    else c :: borrow_go mn (total + c.1) cs

/-- `Improver.fill`: remove every too-few community; under
`must_complete_cover`, when their combined node count is still below the
minimum, borrow additional compliant communities in ascending
`(nodes, size, position, index)` order until it is not; bin-fill the node
counts, relabel members by bin, and add the bins as fresh communities.
(The Python code asserts `min_comm_nodes is not None`; with no bound
configured this is modelled as the identity, the callers never do that.) -/
def Improver.fill (s : Improver) : Improver :=
  match s.min_comm_nodes with
  | none => s
  | some mn =>
    let r := collect_selected (fun c => c.too_few != 0) s.communities
    let removed := r.1
    if removed.length == 0 then s
    else
      let total_nodes := (removed.map (fun c => c.nodes)).sum
      let s1 : Improver :=
        { s with
          communities := r.2
          too_few := s.too_few - (removed.map (fun c => c.too_few)).sum
          too_small := s.too_small - (removed.map (fun c => c.too_small)).sum
          too_large := s.too_large - (removed.map (fun c => c.too_large)).sum }
      let taken :=
        if s1.must_complete_cover && total_nodes < mn then
          let candidates :=
            (s1.communities.enum.filter (fun p => p.2.too_few == 0)).map
              (fun p => (p.2.nodes, p.2.size, p.1, p.2.index))
          borrow_go mn total_nodes (List.insertionSort (fun a b => quad_le a b) candidates)
        else []
      let s2 := (List.insertionSort (fun a b : Nat => a ≤ b)
          (taken.map (fun t => t.2.2.1))).reverse.foldl
        (fun t position => t.remove_at position) s1
      let few_nodes := removed.map (fun c => c.nodes) ++ taken.map (fun t => t.1)
      let few_indices := removed.map (fun c => c.index) ++ taken.map (fun t => t.2.2.2)
      let bins := bin_fill few_nodes mn
      let bins_count := list_max bins + 1
      let membership1 := relabel_by_bins s2.membership few_indices bins s2.next_community_index
      Improver.add_many { s2 with membership := membership1 } bins_count

/-! ## `compute_candidate_metacells` -/

/-- Modelled from the spec: `ut.compress_indices` — whose code
(`metacells.utilities`) is not among the sources at hand — produces the final
membership "by compacting whatever community ids remain into a dense,
zero-based range" (§4.3).  Implemented: each id is mapped to its rank among
the distinct ids present, in ascending order. -/
def compress_indices (membership : List Nat) : List Nat :=
  let distinct := List.insertionSort (fun a b : Nat => a ≤ b) membership.dedup
  membership.map (fun v => distinct.indexOf v)

/-- `Improver.__init__`: store the configuration and run `self.add()` with
`count = np.max(membership) + 1`. -/
def Improver.init (membership : List Nat) (node_sizes : Option (List Nat))
    (target_comm_size : Nat) (must_complete_cover : Bool)
    (max_comm_size min_comm_size min_comm_nodes : Option Nat)
    (oracle_calls : Nat) : Improver :=
  Improver.add_many
    { membership := membership
      node_sizes := node_sizes
      target_comm_size := target_comm_size
      max_comm_size := max_comm_size
      min_comm_size := min_comm_size
      min_comm_nodes := min_comm_nodes
      communities := []
      too_few := 0
      too_small := 0
      too_large := 0
      next_community_index := 0
      must_complete_cover := must_complete_cover
      oracle_calls := oracle_calls
      split_attempts := [] }
    (list_max membership + 1)

/-- The parameters of `compute_candidate_metacells` relevant to the claims.
The size factors are Python floats; they are modelled as rationals (every
comparison and floor/ceiling the code performs on them is exact). -/
structure CcmParams where
  target_metacell_size : Int
  min_split_size_factor : Option ℚ
  max_merge_size_factor : Option ℚ
  min_metacell_cells : Option Nat
  must_complete_cover : Bool

/-- `max_metacell_size = ceil(target_metacell_size * min_split_size_factor) - 1`. -/
def ccm_max_metacell_size (target : Int) (factor : ℚ) : Int :=
  ⌈(target : ℚ) * factor⌉ - 1

/-- `min_metacell_size = floor(target_metacell_size * max_merge_size_factor) + 1`. -/
def ccm_min_metacell_size (target : Int) (factor : ℚ) : Int :=
  ⌊(target : ℚ) * factor⌋ + 1

/-- The `assert` statements `compute_candidate_metacells` runs on its size
parameters before invoking the partition method, in order:
`target_metacell_size > 0`; `min_split_size_factor > 0` (when given);
`max_merge_size_factor > 0` (when given); and when both factors are given,
`max_merge_size_factor < min_split_size_factor` and the derived
`min_metacell_size <= max_metacell_size`. -/
def ccm_checks (p : CcmParams) : Bool :=
  decide (0 < p.target_metacell_size) &&
  (match p.min_split_size_factor with
   | some f => decide (0 < f)
   | none => true) &&
  (match p.max_merge_size_factor with
   | some f => decide (0 < f)
   | none => true) &&
  (match p.min_split_size_factor, p.max_merge_size_factor with
   | some fs, some fm =>
     decide (fm < fs) &&
     decide (ccm_min_metacell_size p.target_metacell_size fm ≤
       ccm_max_metacell_size p.target_metacell_size fs)
   | _, _ => true)

/-- `compute_candidate_metacells` (tools/candidates.py): validate the
parameters (an `assert` failure is modelled as `none`), run the partition
method on the whole graph, and when a split or merge bound is configured run
the `Improver` (`improve`, then `pack` when a minimum size is configured, then
`fill` when a minimum cell count is configured) and compact the resulting
membership; otherwise return the raw partition result. -/
def compute_candidate_metacells (oracle : Oracle) (fuel : Nat) (p : CcmParams)
    (n : Nat) (node_sizes : Option (List Nat)) : Option (List Nat) :=
  if ccm_checks p then
    let max_metacell_size := p.min_split_size_factor.map
      (fun f => (ccm_max_metacell_size p.target_metacell_size f).toNat)
    let min_metacell_size := p.max_merge_size_factor.map
      (fun f => (ccm_min_metacell_size p.target_metacell_size f).toNat)
    let community_of_cells := oracle 0 n
    if max_metacell_size.isSome || min_metacell_size.isSome then
      let s0 := Improver.init community_of_cells node_sizes
        p.target_metacell_size.toNat p.must_complete_cover
        max_metacell_size min_metacell_size p.min_metacell_cells 1
      (Improver.improve oracle fuel s0).bind fun s1 =>
        let s2 := if min_metacell_size.isSome then s1.pack else s1
        let s3 := if p.min_metacell_cells.isSome then s2.fill else s2
        some (compress_indices s3.membership)
    else some community_of_cells
  else none

/-! ## The pipeline entry (empty input, C8) -/

/-- Modelled from the spec: `extract_clean_data` (pipeline/clean, not among
the sources at hand) returns the cleaned subset of the input, and `None` when
nothing remains; a zero-size input set yields no clean data.  Only the cell
count is modelled; `clean_of` is the (unknown) number of cells surviving
cleaning, which cannot exceed the input count. -/
def extract_clean_data (clean_of : Nat → Nat) (n_obs : Nat) : Option Nat :=
  if clean_of n_obs = 0 ∨ n_obs = 0 then none else some (min (clean_of n_obs) n_obs)

/-- The entry guard of `divide_and_conquer_pipeline`:
`if cdata is None: raise ValueError("Empty clean data, giving up")`. -/
def divide_and_conquer_entry (clean_of : Nat → Nat) (n_obs : Nat) : Except String Nat :=
  match extract_clean_data clean_of n_obs with
  | none => Except.error "Empty clean data, giving up"
  | some clean_obs => Except.ok clean_obs

/-! ## List-level lemmas for the `Improver` theory -/

/-- The weighted count of nodes with membership value `j`: the sum of the
sizes at the positions where `mem` holds `j`. -/
def wsum (mem sizes : List Nat) (j : Nat) : Nat :=
  (((mem.zip sizes).filter (fun p => p.1 == j)).map (fun p => p.2)).sum

/-- The community size computed by `add_one` from a membership value. -/
def node_weight (node_sizes : Option (List Nat)) (mem : List Nat) (j : Nat) : Nat :=
  match node_sizes with
  | none => mem.count j
  | some sizes => wsum mem sizes j

theorem list_max_le_of_mem (l : List Nat) (v : Nat) (h : v ∈ l) : v ≤ list_max l := by
  have aux : ∀ (l : List Nat) (a : Nat), a ≤ l.foldl max a ∧
      ∀ v ∈ l, v ≤ l.foldl max a := by
    intro l
    induction l with
    | nil => exact fun a => ⟨le_refl a, by simp⟩
    | cons x xs ih =>
      intro a
      refine ⟨le_trans (le_max_left a x) (ih (max a x)).1, ?_⟩
      intro v hv
      rcases List.mem_cons.mp hv with rfl | hv
      · exact le_trans (le_max_right a v) (ih (max a v)).1
      · exact (ih (max a x)).2 v hv
  exact (aux l 0).2 v h

theorem list_max_mem (l : List Nat) (h : l ≠ []) : list_max l ∈ l := by
  have aux : ∀ (l : List Nat) (a : Nat), l.foldl max a = a ∨ l.foldl max a ∈ l := by
    intro l
    induction l with
    | nil => exact fun a => Or.inl rfl
    | cons x xs ih =>
      intro a
      rcases ih (max a x) with h1 | h1
      · rcases max_choice a x with h2 | h2
        · exact Or.inl (by rw [List.foldl_cons, h1, h2])
        · exact Or.inr (by rw [List.foldl_cons, h1, h2]; exact List.mem_cons_self _ _)
      · exact Or.inr (List.mem_cons_of_mem _ h1)
  rcases aux l 0 with h1 | h1
  · cases l with
    | nil => exact absurd rfl h
    | cons x xs =>
      rw [list_max, h1]
      rw [List.foldl_cons] at h1
      have := (by
        have aux2 : ∀ (l : List Nat) (a : Nat), a ≤ l.foldl max a := by
          intro l
          induction l with
          | nil => exact fun a => le_refl a
          | cons y ys ih => exact fun a => le_trans (le_max_left a y) (ih (max a y))
        exact aux2 xs (max 0 x) : max 0 x ≤ xs.foldl max (max 0 x))
      have hx0 : x = 0 := by omega
      exact hx0 ▸ List.mem_cons_self _ _
  · exact h1

/-- `deficit` is antitone in the value. -/
theorem deficit_anti (bound : Option Nat) (a b : Nat) (h : a ≤ b) :
    deficit bound b ≤ deficit bound a := by
  cases bound with
  | none => simp [deficit]
  | some m =>
    simp only [deficit]
    split_ifs <;> omega

/-- A value meets the bound iff its deficit is zero. -/
theorem deficit_eq_zero (bound : Option Nat) (a : Nat) :
    deficit bound a = 0 ↔ ∀ m, bound = some m → m ≤ a := by
  cases bound with
  | none => simp [deficit]
  | some m =>
    simp only [deficit]
    constructor
    · intro h m' hm'
      rw [Option.some.injEq] at hm'
      subst hm'
      split_ifs at h <;> omega
    · intro h
      have := h m rfl
      split_ifs <;> omega

/-! ### Counts and weighted sums under the membership rewrites -/

theorem set_masked_self (mem : List Nat) (j v : Nat) :
    set_masked mem (mask_of mem j) v = relabel_one mem j v := by
  induction mem with
  | nil => rfl
  | cons m ms ih =>
    simp only [set_masked, mask_of, relabel_one, List.map_cons, List.zipWith_cons_cons] at *
    rw [ih]

theorem relabel_one_length (mem : List Nat) (j v : Nat) :
    (relabel_one mem j v).length = mem.length := by
  simp [relabel_one]

theorem relabel_one_count_of_ne (mem : List Nat) (j v w : Nat) (hj : w ≠ j) (hv : w ≠ v) :
    (relabel_one mem j v).count w = mem.count w := by
  induction mem with
  | nil => rfl
  | cons m ms ih =>
    rw [relabel_one, List.map_cons, List.count_cons, List.count_cons, ← relabel_one, ih]
    simp only [beq_iff_eq]
    split_ifs <;> omega

theorem relabel_one_count_new (mem : List Nat) (j v : Nat) (hvj : v ≠ j) :
    (relabel_one mem j v).count v = mem.count v + mem.count j := by
  induction mem with
  | nil => rfl
  | cons m ms ih =>
    rw [relabel_one, List.map_cons, List.count_cons, List.count_cons, List.count_cons,
      ← relabel_one, ih]
    simp only [beq_iff_eq]
    split_ifs <;> omega

theorem relabel_one_count_old (mem : List Nat) (j v : Nat) (hvj : v ≠ j) :
    (relabel_one mem j v).count j = 0 := by
  induction mem with
  | nil => rfl
  | cons m ms ih =>
    rw [relabel_one, List.map_cons, List.count_cons, ← relabel_one, ih]
    simp only [beq_iff_eq]
    split_ifs <;> omega

theorem relabel_one_mem (mem : List Nat) (j v w : Nat) (hw : w ∈ relabel_one mem j v) :
    w = v ∨ (w ∈ mem ∧ w ≠ j) := by
  rw [relabel_one, List.mem_map] at hw
  obtain ⟨m, hm, hmw⟩ := hw
  by_cases hmj : m = j
  · simp [hmj] at hmw
    exact Or.inl hmw.symm
  · simp [beq_iff_eq, hmj] at hmw
    exact Or.inr ⟨hmw ▸ hm, hmw ▸ hmj⟩

theorem mask_of_relabel_one (mem : List Nat) (j v w : Nat) (hj : w ≠ j) (hv : w ≠ v) :
    mask_of (relabel_one mem j v) w = mask_of mem w := by
  induction mem with
  | nil => rfl
  | cons m ms ih =>
    simp only [relabel_one, mask_of, List.map_cons] at ih ⊢
    rw [ih]
    congr 1
    by_cases hm : m = j
    · subst hm
      simp [beq_iff_eq, Ne.symm hv, Ne.symm hj]
    · simp [beq_iff_eq, hm]

theorem wsum_nil_right (mem : List Nat) (j : Nat) : wsum mem [] j = 0 := by
  cases mem <;> rfl

theorem wsum_relabel_one_of_ne (mem sizes : List Nat) (j v w : Nat)
    (hj : w ≠ j) (hv : w ≠ v) :
    wsum (relabel_one mem j v) sizes w = wsum mem sizes w := by
  induction mem generalizing sizes with
  | nil => rfl
  | cons m ms ih =>
    cases sizes with
    | nil => rw [wsum_nil_right, wsum_nil_right]
    | cons sz szs =>
      rw [relabel_one, List.map_cons, ← relabel_one]
      simp only [wsum, List.zip_cons_cons, List.filter_cons]
      have := ih szs
      simp only [wsum] at this
      simp only [beq_iff_eq]
      split_ifs <;> first
        | omega
        | (simp only [List.map_cons, List.sum_cons]; omega)

theorem wsum_relabel_one_new (mem sizes : List Nat) (j v : Nat) (hvj : v ≠ j) :
    wsum (relabel_one mem j v) sizes v = wsum mem sizes v + wsum mem sizes j := by
  induction mem generalizing sizes with
  | nil => rfl
  | cons m ms ih =>
    cases sizes with
    | nil => rw [wsum_nil_right, wsum_nil_right, wsum_nil_right]
    | cons sz szs =>
      rw [relabel_one, List.map_cons, ← relabel_one]
      simp only [wsum, List.zip_cons_cons, List.filter_cons]
      have := ih szs
      simp only [wsum] at this
      simp only [beq_iff_eq]
      split_ifs <;> first
        | omega
        | (simp only [List.map_cons, List.sum_cons]; omega)

/-! ### Grouped sums over key-value pairs -/

def keysum (L : List (Nat × Nat)) (j : Nat) : Nat :=
  ((L.filter (fun p => p.1 == j)).map (fun p => p.2)).sum

theorem keysum_cons (p : Nat × Nat) (L : List (Nat × Nat)) (j : Nat) :
    keysum (p :: L) j = (if p.1 = j then p.2 else 0) + keysum L j := by
  simp only [keysum, List.filter_cons, beq_iff_eq]
  split_ifs <;> simp

theorem sum_ite_single (J : List Nat) (a c : Nat) (hJ : J.Nodup) (ha : a ∈ J) :
    (J.map (fun j => if a = j then c else 0)).sum = c := by
  induction J with
  | nil => cases ha
  | cons j js ih =>
    rw [List.map_cons, List.sum_cons]
    rcases List.mem_cons.mp ha with rfl | ha'
    · rw [if_pos rfl]
      have : ∀ x ∈ js, (fun j => if a = j then c else 0) x = 0 := by
        intro x hx
        have : a ≠ x := fun h => (List.nodup_cons.mp hJ).1 (h ▸ hx)
        simp [this]
      rw [List.sum_eq_zero (by simpa using fun x hx => this x hx)]
      omega
    · have : a ≠ j := fun h => (List.nodup_cons.mp hJ).1 (h ▸ ha')
      rw [if_neg this, ih (List.nodup_cons.mp hJ).2 ha']
      omega

theorem sum_map_add (J : List Nat) (f g : Nat → Nat) :
    (J.map (fun j => f j + g j)).sum = (J.map f).sum + (J.map g).sum := by
  induction J with
  | nil => rfl
  | cons j js ih => simp [List.map_cons, List.sum_cons, ih]; omega

theorem sum_keysum (J : List Nat) (L : List (Nat × Nat)) (hJ : J.Nodup)
    (hcov : ∀ p ∈ L, p.1 ∈ J) :
    (J.map (fun j => keysum L j)).sum = (L.map (fun p => p.2)).sum := by
  induction L with
  | nil => simp [keysum]
  | cons p L' ih =>
    have hm : J.map (fun j => keysum (p :: L') j) =
        J.map (fun j => (if p.1 = j then p.2 else 0) + keysum L' j) :=
      List.map_congr_left (fun j _ => keysum_cons p L' j)
    rw [hm, sum_map_add, sum_ite_single J p.1 p.2 hJ (hcov p (List.mem_cons_self _ _)),
      ih (fun q hq => hcov q (List.mem_cons_of_mem _ hq))]
    simp

theorem le_keysum (L : List (Nat × Nat)) (p : Nat × Nat) (hp : p ∈ L) :
    p.2 ≤ keysum L p.1 := by
  induction L with
  | nil => cases hp
  | cons q L' ih =>
    rw [keysum_cons]
    rcases List.mem_cons.mp hp with rfl | hp'
    · simp
    · have := ih hp'
      split_ifs <;> omega

theorem sum_deficit_keysum_le (J : List Nat) (L : List (Nat × Nat)) (bound : Option Nat)
    (hJ : J.Nodup) (hcov : ∀ p ∈ L, p.1 ∈ J) (hused : ∀ j ∈ J, ∃ p ∈ L, p.1 = j) :
    (J.map (fun j => deficit bound (keysum L j))).sum ≤
      (L.map (fun p => deficit bound p.2)).sum := by
  have step : ∀ j ∈ J, deficit bound (keysum L j) ≤
      keysum (L.map (fun p => (p.1, deficit bound p.2))) j := by
    intro j hj
    obtain ⟨p, hp, hpj⟩ := hused j hj
    have h1 : p.2 ≤ keysum L j := hpj ▸ le_keysum L p hp
    have h2 : deficit bound (keysum L j) ≤ deficit bound p.2 := by
      have : ∀ a b : Nat, a ≤ b → deficit bound b ≤ deficit bound a := by
        intro a b h
        cases bound with
        | none => simp [deficit]
        | some m => simp only [deficit]; split_ifs <;> omega
      exact this _ _ h1
    refine le_trans h2 ?_
    have : (p.1, deficit bound p.2) ∈ L.map (fun p => (p.1, deficit bound p.2)) :=
      List.mem_map.mpr ⟨p, hp, rfl⟩
    have := le_keysum _ _ this
    simpa [hpj] using this
  calc (J.map (fun j => deficit bound (keysum L j))).sum
      ≤ (J.map (fun j => keysum (L.map (fun p => (p.1, deficit bound p.2))) j)).sum := by
        apply List.sum_le_sum
        intro j hj
        exact step _ (by simpa using hj)
    _ = ((L.map (fun p => (p.1, deficit bound p.2))).map (fun p => p.2)).sum := by
        apply sum_keysum _ _ hJ
        intro q hq
        obtain ⟨p, hp, rfl⟩ := List.mem_map.mp hq
        exact hcov p hp
    _ = (L.map (fun p => deficit bound p.2)).sum := by
        rw [List.map_map]
        rfl

/-! ### Masks, counts and the split-write `assign_masked` -/

theorem mask_of_cons (m : Nat) (ms : List Nat) (j : Nat) :
    mask_of (m :: ms) j = (m == j) :: mask_of ms j := rfl

theorem count_true_mask_of (mem : List Nat) (j : Nat) :
    count_true (mask_of mem j) = mem.count j := by
  induction mem with
  | nil => rfl
  | cons m ms ih =>
    rw [mask_of_cons, count_true, List.count_cons, ← count_true, ih, List.count_cons]
    by_cases hm : m = j <;> simp [beq_iff_eq, hm]

theorem foldl_add_snd (L : List (Bool × Nat)) (a : Nat) :
    L.foldl (fun a p => a + p.2) a = a + (L.map (fun p => p.2)).sum := by
  induction L generalizing a with
  | nil => simp
  | cons p L' ih => simp [List.foldl_cons, ih]; omega

theorem masked_sum_eq_sum (mask : List Bool) (sizes : List Nat) :
    masked_sum mask sizes =
      (((mask.zip sizes).filter (fun p => p.1)).map (fun p => p.2)).sum := by
  rw [masked_sum, foldl_add_snd]
  omega

theorem masked_sum_mask_of (mem sizes : List Nat) (j : Nat) :
    masked_sum (mask_of mem j) sizes = wsum mem sizes j := by
  induction mem generalizing sizes with
  | nil => rfl
  | cons m ms ih =>
    cases sizes with
    | nil => cases h : (m == j) <;> simp [masked_sum, mask_of, wsum, h]
    | cons sz szs =>
      rw [mask_of_cons]
      simp only [masked_sum_eq_sum, wsum, List.zip_cons_cons, List.filter_cons]
      have := ih szs
      simp only [masked_sum_eq_sum, wsum] at this
      cases hmj : (m == j) <;>
        simp only [hmj, Bool.false_eq_true, eq_self_iff_true, if_true, if_false,
          List.map_cons, List.sum_cons] <;> omega

theorem assign_masked_length (mem : List Nat) (mask : List Bool) (vals : List Nat) :
    (assign_masked mem mask vals).length = mem.length := by
  induction mem generalizing mask vals with
  | nil => cases mask <;> rfl
  | cons m ms ih =>
    cases mask with
    | nil => rfl
    | cons b bs =>
      rw [assign_masked]
      split_ifs <;> simp [ih]

theorem assign_masked_count (mem : List Nat) (t : Nat) (vals : List Nat)
    (hlen : vals.length = mem.count t) (w : Nat) :
    (assign_masked mem (mask_of mem t) vals).count w =
      (if w = t then 0 else mem.count w) + vals.count w := by
  induction mem generalizing vals with
  | nil =>
    have : vals = [] := List.length_eq_zero.mp (by simpa using hlen)
    subst this
    simp [assign_masked, mask_of]
  | cons m ms ih =>
    rw [mask_of_cons]
    by_cases hm : m = t
    · subst hm
      rw [List.count_cons] at hlen
      simp only [if_pos rfl, beq_self_eq_true] at hlen
      obtain ⟨v, vs, rfl⟩ : ∃ v vs, vals = v :: vs := by
        cases vals with
        | nil => simp at hlen
        | cons v vs => exact ⟨v, vs, rfl⟩
      rw [assign_masked]
      simp only [beq_self_eq_true, if_pos, List.headD_cons, List.tail_cons]
      rw [List.count_cons, ih vs (by simpa using hlen), List.count_cons, List.count_cons]
      simp only [beq_iff_eq]
      split_ifs <;> omega
    · rw [assign_masked]
      have hb : (m == t) = false := by simp [beq_iff_eq, hm]
      rw [hb]
      simp only [Bool.false_eq_true, if_neg, if_false]
      rw [List.count_cons, ih vals (by
        rw [List.count_cons] at hlen
        simpa [hb] using hlen), List.count_cons]
      simp only [beq_iff_eq]
      split_ifs <;> omega

theorem assign_masked_mem (mem : List Nat) (t : Nat) (vals : List Nat)
    (hlen : vals.length = mem.count t) (v : Nat)
    (hv : v ∈ assign_masked mem (mask_of mem t) vals) :
    v ∈ vals ∨ (v ∈ mem ∧ v ≠ t) := by
  induction mem generalizing vals with
  | nil =>
    simp [assign_masked, mask_of] at hv
  | cons m ms ih =>
    rw [mask_of_cons] at hv
    by_cases hm : m = t
    · subst hm
      rw [List.count_cons] at hlen
      simp only [beq_self_eq_true, if_pos] at hlen
      obtain ⟨w, ws, rfl⟩ : ∃ w ws, vals = w :: ws := by
        cases vals with
        | nil => simp at hlen
        | cons w ws => exact ⟨w, ws, rfl⟩
      rw [assign_masked] at hv
      simp only [beq_self_eq_true, if_pos, List.headD_cons, List.tail_cons] at hv
      rcases List.mem_cons.mp hv with rfl | hv'
      · exact Or.inl (List.mem_cons_self _ _)
      · rcases ih ws (by simpa using hlen) hv' with h | h
        · exact Or.inl (List.mem_cons_of_mem _ h)
        · exact Or.inr ⟨List.mem_cons_of_mem _ h.1, h.2⟩
    · rw [assign_masked] at hv
      have hb : (m == t) = false := by simp [beq_iff_eq, hm]
      rw [hb] at hv
      simp only [Bool.false_eq_true, if_neg, if_false] at hv
      rcases List.mem_cons.mp hv with rfl | hv'
      · exact Or.inr ⟨List.mem_cons_self _ _, hm⟩
      · rcases ih vals (by
          rw [List.count_cons] at hlen
          simpa [hb] using hlen) hv' with h | h
        · exact Or.inl h
        · exact Or.inr ⟨List.mem_cons_of_mem _ h.1, h.2⟩

theorem mask_of_assign_masked (mem : List Nat) (t : Nat) (vals : List Nat)
    (hlen : vals.length = mem.count t) (w : Nat) (hwt : w ≠ t) (hwv : w ∉ vals) :
    mask_of (assign_masked mem (mask_of mem t) vals) w = mask_of mem w := by
  induction mem generalizing vals with
  | nil =>
    cases vals <;> rfl
  | cons m ms ih =>
    rw [mask_of_cons]
    by_cases hm : m = t
    · subst hm
      rw [List.count_cons] at hlen
      simp only [beq_self_eq_true, if_pos] at hlen
      obtain ⟨v, vs, rfl⟩ : ∃ v vs, vals = v :: vs := by
        cases vals with
        | nil => simp at hlen
        | cons v vs => exact ⟨v, vs, rfl⟩
      rw [assign_masked]
      simp only [beq_self_eq_true, if_pos, List.headD_cons, List.tail_cons]
      rw [mask_of_cons, mask_of_cons, ih vs (by simpa using hlen)
        (fun h => hwv (List.mem_cons_of_mem _ h))]
      congr 1
      have h1 : v ≠ w := fun h => hwv (h ▸ List.mem_cons_self _ _)
      have h2 : ¬ m = w := fun h => hwt h.symm
      simp [beq_iff_eq, h1, h2]
    · rw [assign_masked]
      have hb : (m == t) = false := by simp [beq_iff_eq, hm]
      rw [hb]
      simp only [Bool.false_eq_true, if_neg, if_false]
      rw [mask_of_cons, mask_of_cons, ih vals (by
        rw [List.count_cons] at hlen
        simpa [hb] using hlen) hwv]

/-! ### The `Improver` invariant -/

/-- When node sizes are configured they have one entry per node. -/
def sizes_len_ok (s : Improver) : Prop :=
  match s.node_sizes with
  | none => True
  | some l => l.length = s.membership.length

/-- The representation invariant of the `Improver` that the code maintains:
every community record caches exactly the data `add` recomputes from the
membership vector (mask, node count, size and the three penalties), community
indices are distinct and below the allocation counter, every membership value
is the index of a live community, the penalty totals are the sums of the
per-community penalties (the code asserts them non-negative in `remove`), and
a community index recorded in the split-attempt log either is dead or belongs
to a monolithic community. -/
structure Inv (s : Improver) : Prop where
  sizes_len : sizes_len_ok s
  mask_eq : ∀ c ∈ s.communities, c.mask = mask_of s.membership c.index
  nodes_eq : ∀ c ∈ s.communities, c.nodes = count_true c.mask
  size_eq : ∀ c ∈ s.communities, c.size = s.community_size c.mask
  few_eq : ∀ c ∈ s.communities, c.too_few = deficit s.min_comm_nodes c.nodes
  small_eq : ∀ c ∈ s.communities, c.too_small = deficit s.min_comm_size c.size
  large_eq : ∀ c ∈ s.communities, c.too_large = excess s.max_comm_size c.size
  index_lt : ∀ c ∈ s.communities, c.index < s.next_community_index
  index_nodup : (s.communities.map (fun c => c.index)).Nodup
  cover : ∀ v ∈ s.membership, v ∈ s.communities.map (fun c => c.index)
  few_total : s.too_few = (s.communities.map (fun c => c.too_few)).sum
  small_total : s.too_small = (s.communities.map (fun c => c.too_small)).sum
  large_total : s.too_large = (s.communities.map (fun c => c.too_large)).sum
  attempts_lt : ∀ a ∈ s.split_attempts, a.index < s.next_community_index
  attempts_mono : ∀ a ∈ s.split_attempts, ∀ c ∈ s.communities,
    c.index = a.index → c.monolithic = true

/-- During the improvement phase (`improve`) every community has at least one
node; the BasePartitioner contract guarantees this (its ids are contiguous).
The bin-packing fallbacks do not need and do not maintain it. -/
def NonemptyComms (s : Improver) : Prop :=
  ∀ c ∈ s.communities, 0 < c.nodes

/-- The community record `add_one` builds for index `j` from the current
membership vector. -/
def Improver.fresh_community (s : Improver) (j : Nat) : Community :=
  let mask := mask_of s.membership j
  let nodes := count_true mask
  let size := s.community_size mask
  { index := j, nodes := nodes, size := size, mask := mask,
    too_few := deficit s.min_comm_nodes nodes,
    too_small := deficit s.min_comm_size size,
    too_large := excess s.max_comm_size size,
    monolithic := false }

theorem add_one_eq (s : Improver) :
    s.add_one =
      { s with
        next_community_index := s.next_community_index + 1
        too_few := s.too_few + (s.fresh_community s.next_community_index).too_few
        too_small := s.too_small + (s.fresh_community s.next_community_index).too_small
        too_large := s.too_large + (s.fresh_community s.next_community_index).too_large
        communities := s.communities ++ [s.fresh_community s.next_community_index] } :=
  rfl

/-- Key fields not touched by `add_many`. -/
theorem add_many_fixed (s : Improver) (count : Nat) :
    (s.add_many count).membership = s.membership ∧
    (s.add_many count).node_sizes = s.node_sizes ∧
    (s.add_many count).target_comm_size = s.target_comm_size ∧
    (s.add_many count).max_comm_size = s.max_comm_size ∧
    (s.add_many count).min_comm_size = s.min_comm_size ∧
    (s.add_many count).min_comm_nodes = s.min_comm_nodes ∧
    (s.add_many count).must_complete_cover = s.must_complete_cover ∧
    (s.add_many count).oracle_calls = s.oracle_calls ∧
    (s.add_many count).split_attempts = s.split_attempts := by
  induction count generalizing s with
  | zero => exact ⟨rfl, rfl, rfl, rfl, rfl, rfl, rfl, rfl, rfl⟩
  | succ n ih => exact ih s.add_one

theorem fresh_congr (s t : Improver) (hmem : t.membership = s.membership)
    (hns : t.node_sizes = s.node_sizes) (hmin : t.min_comm_size = s.min_comm_size)
    (hmax : t.max_comm_size = s.max_comm_size)
    (hmn : t.min_comm_nodes = s.min_comm_nodes) :
    t.fresh_community = s.fresh_community := by
  funext j
  simp [Improver.fresh_community, Improver.community_size, hmem, hns, hmin, hmax, hmn]

theorem range_shift_map {A : Type} (F : Nat → A) (a n : Nat) :
    (List.range n).map ((fun i => F (a + i)) ∘ Nat.succ) =
      (List.range n).map (fun i => F (a + 1 + i)) := by
  apply List.map_congr_left
  intro i _
  simp only [Function.comp, Nat.succ_eq_add_one]
  congr 1
  omega

theorem add_many_spec (count : Nat) (s : Improver) :
    (s.add_many count).communities = s.communities ++
      (List.range count).map (fun i => s.fresh_community (s.next_community_index + i)) ∧
    (s.add_many count).next_community_index = s.next_community_index + count ∧
    (s.add_many count).too_few = s.too_few +
      ((List.range count).map
        (fun i => (s.fresh_community (s.next_community_index + i)).too_few)).sum ∧
    (s.add_many count).too_small = s.too_small +
      ((List.range count).map
        (fun i => (s.fresh_community (s.next_community_index + i)).too_small)).sum ∧
    (s.add_many count).too_large = s.too_large +
      ((List.range count).map
        (fun i => (s.fresh_community (s.next_community_index + i)).too_large)).sum := by
  induction count generalizing s with
  | zero => simp [Improver.add_many]
  | succ n ih =>
    have hfr : s.add_one.fresh_community = s.fresh_community :=
      fresh_congr s s.add_one rfl rfl rfl rfl rfl
    obtain ⟨h1, h2, h3, h4, h5⟩ := ih s.add_one
    rw [hfr] at h1 h3 h4 h5
    have hnext : s.add_one.next_community_index = s.next_community_index + 1 := rfl
    rw [hnext] at h1 h2 h3 h4 h5
    have hc : s.add_one.communities =
        s.communities ++ [s.fresh_community s.next_community_index] := rfl
    have hf : s.add_one.too_few =
        s.too_few + (s.fresh_community s.next_community_index).too_few := rfl
    have hsm : s.add_one.too_small =
        s.too_small + (s.fresh_community s.next_community_index).too_small := rfl
    have hl : s.add_one.too_large =
        s.too_large + (s.fresh_community s.next_community_index).too_large := rfl
    have hrc : ∀ {A : Type} (F : Nat → A),
        (List.range (n + 1)).map (fun i => F (s.next_community_index + i)) =
          F s.next_community_index ::
            (List.range n).map (fun i => F (s.next_community_index + 1 + i)) := by
      intro A F
      rw [List.range_succ_eq_map, List.map_cons, List.map_map, Nat.add_zero]
      congr 1
      apply List.map_congr_left
      intro i _
      simp only [Function.comp, Nat.succ_eq_add_one]
      congr 1
      omega
    rw [Improver.add_many]
    refine ⟨?_, ?_, ?_, ?_, ?_⟩
    · rw [h1, hc, hrc]
      simp [List.append_assoc]
    · rw [h2]
      omega
    · rw [h3, hf, hrc (fun j => (s.fresh_community j).too_few), List.sum_cons]
      omega
    · rw [h4, hsm, hrc (fun j => (s.fresh_community j).too_small), List.sum_cons]
      omega
    · rw [h5, hl, hrc (fun j => (s.fresh_community j).too_large), List.sum_cons]
      omega

/-- All the fields of `Inv` except `cover`, as a hypothesis bundle for the
states that are about to run `add_many`. -/
structure PreInv (s : Improver) : Prop where
  sizes_len : sizes_len_ok s
  mask_eq : ∀ c ∈ s.communities, c.mask = mask_of s.membership c.index
  nodes_eq : ∀ c ∈ s.communities, c.nodes = count_true c.mask
  size_eq : ∀ c ∈ s.communities, c.size = s.community_size c.mask
  few_eq : ∀ c ∈ s.communities, c.too_few = deficit s.min_comm_nodes c.nodes
  small_eq : ∀ c ∈ s.communities, c.too_small = deficit s.min_comm_size c.size
  large_eq : ∀ c ∈ s.communities, c.too_large = excess s.max_comm_size c.size
  index_lt : ∀ c ∈ s.communities, c.index < s.next_community_index
  index_nodup : (s.communities.map (fun c => c.index)).Nodup
  few_total : s.too_few = (s.communities.map (fun c => c.too_few)).sum
  small_total : s.too_small = (s.communities.map (fun c => c.too_small)).sum
  large_total : s.too_large = (s.communities.map (fun c => c.too_large)).sum
  attempts_lt : ∀ a ∈ s.split_attempts, a.index < s.next_community_index
  attempts_mono : ∀ a ∈ s.split_attempts, ∀ c ∈ s.communities,
    c.index = a.index → c.monolithic = true

theorem Inv.toPreInv {s : Improver} (h : Inv s) : PreInv s :=
  ⟨h.sizes_len, h.mask_eq, h.nodes_eq, h.size_eq, h.few_eq, h.small_eq, h.large_eq,
   h.index_lt, h.index_nodup, h.few_total, h.small_total, h.large_total,
   h.attempts_lt, h.attempts_mono⟩

/-- `add_many` restores the full invariant as soon as every membership value
is either the index of a surviving community or one of the `count` indices
about to be allocated. -/
theorem Inv_add_many (s : Improver) (count : Nat) (h : PreInv s)
    (h_cover : ∀ v ∈ s.membership, v ∈ s.communities.map (fun c => c.index) ∨
      (s.next_community_index ≤ v ∧ v < s.next_community_index + count)) :
    Inv (s.add_many count) := by
  obtain ⟨hcomm, hnext, hfew, hsmall, hlarge⟩ := add_many_spec count s
  obtain ⟨hmem, hns, htgt, hmax, hmin, hmn, hmcc, hoc, hsa⟩ := add_many_fixed s count
  have hfreshmem : ∀ c ∈ (List.range count).map
      (fun i => s.fresh_community (s.next_community_index + i)),
      ∃ i, i < count ∧ c = s.fresh_community (s.next_community_index + i) := by
    intro c hc
    obtain ⟨i, hi, rfl⟩ := List.mem_map.mp hc
    exact ⟨i, List.mem_range.mp hi, rfl⟩
  have hsplit : ∀ c ∈ (s.add_many count).communities,
      c ∈ s.communities ∨ ∃ i, i < count ∧
        c = s.fresh_community (s.next_community_index + i) := by
    intro c hc
    rw [hcomm] at hc
    rcases List.mem_append.mp hc with h1 | h1
    · exact Or.inl h1
    · exact Or.inr (hfreshmem c h1)
  have hcsz : ∀ j, (s.fresh_community j).mask = mask_of s.membership j ∧
      (s.fresh_community j).nodes = count_true (s.fresh_community j).mask ∧
      (s.fresh_community j).size = s.community_size (s.fresh_community j).mask ∧
      (s.fresh_community j).too_few =
        deficit s.min_comm_nodes (s.fresh_community j).nodes ∧
      (s.fresh_community j).too_small =
        deficit s.min_comm_size (s.fresh_community j).size ∧
      (s.fresh_community j).too_large =
        excess s.max_comm_size (s.fresh_community j).size ∧
      (s.fresh_community j).index = j ∧
      (s.fresh_community j).monolithic = false := by
    intro j
    exact ⟨rfl, rfl, rfl, rfl, rfl, rfl, rfl, rfl⟩
  have hsize_congr : ∀ m, (s.add_many count).community_size m = s.community_size m := by
    intro m
    rw [Improver.community_size, Improver.community_size, hns]
  refine ⟨?_, ?_, ?_, ?_, ?_, ?_, ?_, ?_, ?_, ?_, ?_, ?_, ?_, ?_, ?_⟩
  · rw [sizes_len_ok, hns, hmem]
    exact h.sizes_len
  · intro c hc
    rw [hmem]
    rcases hsplit c hc with h1 | ⟨i, hi, rfl⟩
    · exact h.mask_eq c h1
    · exact (hcsz _).1
  · intro c hc
    rcases hsplit c hc with h1 | ⟨i, hi, rfl⟩
    · exact h.nodes_eq c h1
    · exact (hcsz _).2.1
  · intro c hc
    rw [hsize_congr]
    rcases hsplit c hc with h1 | ⟨i, hi, rfl⟩
    · exact h.size_eq c h1
    · exact (hcsz _).2.2.1
  · intro c hc
    rw [hmn]
    rcases hsplit c hc with h1 | ⟨i, hi, rfl⟩
    · exact h.few_eq c h1
    · exact (hcsz _).2.2.2.1
  · intro c hc
    rw [hmin]
    rcases hsplit c hc with h1 | ⟨i, hi, rfl⟩
    · exact h.small_eq c h1
    · exact (hcsz _).2.2.2.2.1
  · intro c hc
    rw [hmax]
    rcases hsplit c hc with h1 | ⟨i, hi, rfl⟩
    · exact h.large_eq c h1
    · exact (hcsz _).2.2.2.2.2.1
  · intro c hc
    rw [hnext]
    rcases hsplit c hc with h1 | ⟨i, hi, rfl⟩
    · exact lt_of_lt_of_le (h.index_lt c h1) (Nat.le_add_right _ _)
    · rw [(hcsz _).2.2.2.2.2.2.1]
      omega
  · rw [hcomm, List.map_append]
    rw [List.nodup_append]
    refine ⟨h.index_nodup, ?_, ?_⟩
    · rw [List.map_map]
      have : (fun c => c.index) ∘
          (fun i => s.fresh_community (s.next_community_index + i)) =
          (fun i => s.next_community_index + i) := by
        funext i
        rfl
      rw [this]
      exact List.Nodup.map (fun a b hab => by omega) (List.nodup_range count)
    · intro a ha hb
      obtain ⟨c, hc, rfl⟩ := List.mem_map.mp ha
      obtain ⟨d, hd, hde⟩ := List.mem_map.mp hb
      obtain ⟨j, hj, rfl⟩ := hfreshmem _ hd
      rw [(hcsz _).2.2.2.2.2.2.1] at hde
      have := h.index_lt c hc
      omega
  · intro v hv
    rw [hmem] at hv
    rw [hcomm, List.map_append]
    rcases h_cover v hv with h1 | ⟨h1, h2⟩
    · exact List.mem_append.mpr (Or.inl h1)
    · refine List.mem_append.mpr (Or.inr ?_)
      rw [List.map_map]
      refine List.mem_map.mpr ⟨v - s.next_community_index, ?_, ?_⟩
      · rw [List.mem_range]
        omega
      · simp only [Function.comp]
        rw [(hcsz _).2.2.2.2.2.2.1]
        omega
  · rw [hfew, hcomm, List.map_append, List.sum_append, h.few_total, List.map_map]
    rfl
  · rw [hsmall, hcomm, List.map_append, List.sum_append, h.small_total, List.map_map]
    rfl
  · rw [hlarge, hcomm, List.map_append, List.sum_append, h.large_total, List.map_map]
    rfl
  · intro a ha
    rw [hsa] at ha
    rw [hnext]
    exact lt_of_lt_of_le (h.attempts_lt a ha) (Nat.le_add_right _ _)
  · intro a ha c hc hidx
    rw [hsa] at ha
    rcases hsplit c hc with h1 | ⟨i, hi, rfl⟩
    · exact h.attempts_mono a ha c h1 hidx
    · exfalso
      rw [(hcsz _).2.2.2.2.2.2.1] at hidx
      have := h.attempts_lt a ha
      omega

/-- `add_many` yields only nonempty communities when each of the `count`
allocated indices occurs in the membership vector. -/
theorem Nonempty_add_many (s : Improver) (count : Nat) (h : NonemptyComms s)
    (h_used : ∀ i, i < count → (s.next_community_index + i) ∈ s.membership) :
    NonemptyComms (s.add_many count) := by
  obtain ⟨hcomm, _, _, _, _⟩ := add_many_spec count s
  intro c hc
  rw [hcomm] at hc
  rcases List.mem_append.mp hc with h1 | h1
  · exact h c h1
  · obtain ⟨i, hi, rfl⟩ := List.mem_map.mp h1
    rw [List.mem_range] at hi
    show 0 < count_true (mask_of s.membership (s.next_community_index + i))
    rw [count_true_mask_of]
    exact List.count_pos_iff.mpr (h_used i hi)

/-! ### Size conservation -/

/-- The total node size of the problem: the number of nodes when node sizes
are absent, their sum otherwise. -/
def total_node_size (s : Improver) : Nat :=
  match s.node_sizes with
  | none => s.membership.length
  | some l => l.sum

theorem count_eq_keysum (mem : List Nat) (j : Nat) :
    mem.count j = keysum (mem.map (fun v => (v, 1))) j := by
  induction mem with
  | nil => rfl
  | cons m ms ih =>
    rw [List.count_cons, List.map_cons, keysum_cons, ih]
    simp only [beq_iff_eq]
    split_ifs <;> omega

theorem ones_snd_sum (mem : List Nat) :
    ((mem.map (fun v => (v, 1))).map (fun p => p.2)).sum = mem.length := by
  induction mem with
  | nil => rfl
  | cons m ms ih =>
    simp only [List.map_cons, List.sum_cons, List.map_map, List.length_cons] at *
    omega

theorem zip_map_snd_sum (mem sizes : List Nat) (h : sizes.length = mem.length) :
    ((mem.zip sizes).map (fun p => p.2)).sum = sizes.sum := by
  induction mem generalizing sizes with
  | nil =>
    have : sizes = [] := List.length_eq_zero.mp (by simpa using h)
    subst this
    rfl
  | cons m ms ih =>
    cases sizes with
    | nil => simp at h
    | cons sz szs =>
      rw [List.zip_cons_cons, List.map_cons, List.sum_cons, List.sum_cons,
        ih szs (by simpa using h)]

theorem node_weight_none (mem : List Nat) (j : Nat) :
    node_weight none mem j = mem.count j := rfl

theorem node_weight_some (sizes mem : List Nat) (j : Nat) :
    node_weight (some sizes) mem j = wsum mem sizes j := rfl

theorem community_size_mask_of (s : Improver) (j : Nat) :
    s.community_size (mask_of s.membership j) =
      node_weight s.node_sizes s.membership j := by
  rw [Improver.community_size, node_weight.eq_def]
  cases s.node_sizes with
  | none => exact count_true_mask_of _ _
  | some sizes => exact masked_sum_mask_of _ _ _

/-- Size conservation: under the invariant, the sum of the cached community
sizes equals the total node size of the problem. -/
theorem Inv_sum_sizes (s : Improver) (h : Inv s) :
    (s.communities.map (fun c => c.size)).sum = total_node_size s := by
  have h1 : s.communities.map (fun c => c.size) =
      (s.communities.map (fun c => c.index)).map
        (fun j => node_weight s.node_sizes s.membership j) := by
    rw [List.map_map]
    apply List.map_congr_left
    intro c hc
    simp only [Function.comp]
    rw [h.size_eq c hc, h.mask_eq c hc, community_size_mask_of]
  rw [h1, total_node_size.eq_def]
  cases hns : s.node_sizes with
  | none =>
    have h2 : (s.communities.map (fun c => c.index)).map
        (fun j => node_weight none s.membership j) =
        (s.communities.map (fun c => c.index)).map
          (fun j => keysum (s.membership.map (fun v => (v, 1))) j) := by
      apply List.map_congr_left
      intro j _
      rw [node_weight_none, count_eq_keysum]
    rw [h2, sum_keysum _ _ h.index_nodup, ones_snd_sum]
    intro p hp
    obtain ⟨v, hv, rfl⟩ := List.mem_map.mp hp
    exact h.cover v hv
  | some sizes =>
    have h2 : (s.communities.map (fun c => c.index)).map
        (fun j => node_weight (some sizes) s.membership j) =
        (s.communities.map (fun c => c.index)).map
          (fun j => keysum (s.membership.zip sizes) j) := by
      apply List.map_congr_left
      intro j _
      rw [node_weight_some]
      rfl
    have hlen : sizes.length = s.membership.length := by
      have := h.sizes_len
      rw [sizes_len_ok.eq_def, hns] at this
      exact this
    rw [h2, sum_keysum _ _ h.index_nodup, zip_map_snd_sum _ _ hlen]
    intro p hp
    exact h.cover p.1 (List.of_mem_zip hp).1

/-! ### Removing communities at descending positions -/

theorem perm_cons_eraseIdx {A : Type} (l : List A) (i : Nat) (c : A)
    (h : l[i]? = some c) : List.Perm l (c :: l.eraseIdx i) := by
  have hi : i < l.length := by
    by_contra hcon
    rw [List.getElem?_eq_none (by omega)] at h
    cases h
  have hc : l[i] = c := by
    rw [List.getElem?_eq_getElem hi] at h
    injection h
  have h2 : l.drop i = c :: l.drop (i + 1) := by
    rw [List.drop_eq_getElem_cons hi, hc]
  have h1 : l = l.take i ++ (c :: l.drop (i + 1)) := by
    conv_lhs => rw [← List.take_append_drop i l]
    rw [h2]
  rw [List.eraseIdx_eq_take_drop_succ]
  conv_lhs => rw [h1]
  exact List.perm_middle

/-- The configuration fields no `Improver` operation between two partition
calls changes. -/
def SameConfig (s t : Improver) : Prop :=
  t.membership = s.membership ∧ t.node_sizes = s.node_sizes ∧
  t.target_comm_size = s.target_comm_size ∧ t.max_comm_size = s.max_comm_size ∧
  t.min_comm_size = s.min_comm_size ∧ t.min_comm_nodes = s.min_comm_nodes ∧
  t.must_complete_cover = s.must_complete_cover ∧
  t.next_community_index = s.next_community_index ∧
  t.oracle_calls = s.oracle_calls ∧ t.split_attempts = s.split_attempts

theorem SameConfig_rfl (s : Improver) : SameConfig s s :=
  ⟨rfl, rfl, rfl, rfl, rfl, rfl, rfl, rfl, rfl, rfl⟩

theorem SameConfig_trans {s t u : Improver} (h1 : SameConfig s t)
    (h2 : SameConfig t u) : SameConfig s u := by
  obtain ⟨a1, a2, a3, a4, a5, a6, a7, a8, a9, a10⟩ := h1
  obtain ⟨b1, b2, b3, b4, b5, b6, b7, b8, b9, b10⟩ := h2
  exact ⟨b1.trans a1, b2.trans a2, b3.trans a3, b4.trans a4, b5.trans a5,
    b6.trans a6, b7.trans a7, b8.trans a8, b9.trans a9, b10.trans a10⟩

theorem remove_at_spec (s : Improver) (p : Nat) (c : Community)
    (h : s.communities.get? p = some c) :
    (s.remove_at p).communities = s.communities.eraseIdx p ∧
    (s.remove_at p).too_few = s.too_few - c.too_few ∧
    (s.remove_at p).too_small = s.too_small - c.too_small ∧
    (s.remove_at p).too_large = s.too_large - c.too_large ∧
    SameConfig s (s.remove_at p) := by
  rw [Improver.remove_at, h]
  exact ⟨rfl, rfl, rfl, rfl, SameConfig_rfl _⟩

/-- The communities grabbed from `cs` at the positions `P`. -/
def grab (cs : List Community) (P : List Nat) : List Community :=
  P.filterMap (fun p => cs.get? p)

/-- Folding `remove_at` over a strictly descending list of valid positions:
the surviving list is a sublist; the original community list is (as a
multiset) the grabbed communities plus the survivors; the penalty totals drop
by the grabbed penalties; everything else is unchanged. -/
theorem remove_desc_spec (P : List Nat) (s : Improver)
    (hdesc : P.Pairwise (fun a b => b < a))
    (hvalid : ∀ p ∈ P, p < s.communities.length) :
    (P.foldl (fun t p => t.remove_at p) s).communities.Sublist s.communities ∧
    s.communities.Perm
      (grab s.communities P ++ (P.foldl (fun t p => t.remove_at p) s).communities) ∧
    (P.foldl (fun t p => t.remove_at p) s).too_few =
      s.too_few - ((grab s.communities P).map (fun c => c.too_few)).sum ∧
    (P.foldl (fun t p => t.remove_at p) s).too_small =
      s.too_small - ((grab s.communities P).map (fun c => c.too_small)).sum ∧
    (P.foldl (fun t p => t.remove_at p) s).too_large =
      s.too_large - ((grab s.communities P).map (fun c => c.too_large)).sum ∧
    SameConfig s (P.foldl (fun t p => t.remove_at p) s) := by
  induction P generalizing s with
  | nil =>
    refine ⟨List.Sublist.refl _, by simp [grab], by simp [grab], by simp [grab],
      by simp [grab], SameConfig_rfl _⟩
  | cons p P' ih =>
    have hp : p < s.communities.length := hvalid p (List.mem_cons_self _ _)
    obtain ⟨c, hc⟩ : ∃ c, s.communities.get? p = some c := by
      rw [List.get?_eq_getElem?]
      exact ⟨s.communities[p], List.getElem?_eq_getElem hp⟩
    obtain ⟨r1, r2, r3, r4, r5⟩ := remove_at_spec s p c hc
    have hlt : ∀ q ∈ P', q < p := fun q hq => (List.pairwise_cons.mp hdesc).1 q hq
    have hvalid' : ∀ q ∈ P', q < (s.remove_at p).communities.length := by
      intro q hq
      rw [r1, List.length_eraseIdx_of_lt hp]
      have := hlt q hq
      omega
    have hgrab' : grab (s.remove_at p).communities P' = grab s.communities P' := by
      rw [grab, grab]
      apply List.filterMap_congr
      intro q hq
      rw [r1, List.get?_eq_getElem?, List.get?_eq_getElem?,
        List.getElem?_eraseIdx_of_lt _ _ _ (hlt q hq)]
    obtain ⟨i1, i2, i3, i4, i5, i6⟩ := ih (s.remove_at p)
      ((List.pairwise_cons.mp hdesc).2) hvalid'
    rw [hgrab'] at i2 i3 i4 i5
    have hgrabc : grab s.communities (p :: P') = c :: grab s.communities P' := by
      rw [grab, List.filterMap_cons, hc]
      rfl
    have hfold : (p :: P').foldl (fun t q => t.remove_at q) s =
        P'.foldl (fun t q => t.remove_at q) (s.remove_at p) := rfl
    refine ⟨?_, ?_, ?_, ?_, ?_, ?_⟩
    · rw [hfold]
      exact i1.trans (r1 ▸ List.eraseIdx_sublist _ _)
    · rw [hfold, hgrabc]
      have hperm1 : List.Perm s.communities (c :: (s.remove_at p).communities) := by
        rw [r1]
        exact perm_cons_eraseIdx _ _ _ (by rw [← List.get?_eq_getElem?]; exact hc)
      exact hperm1.trans ((i2.cons c).trans (List.Perm.refl _))
    · rw [hfold, i3, r2, hgrabc, List.map_cons, List.sum_cons]
      omega
    · rw [hfold, i4, r3, hgrabc, List.map_cons, List.sum_cons]
      omega
    · rw [hfold, i5, r4, hgrabc, List.map_cons, List.sum_cons]
      omega
    · rw [hfold]
      exact SameConfig_trans r5 i6

/-! ### The membership rewrite performed by `merge_few_or_small` -/

theorem write_merged_spec (cs : List Community) (as : List Nat) (mem : List Nat)
    (base : Nat)
    (hmask : ∀ c ∈ cs, c.mask = mask_of mem c.index)
    (hidx : ∀ c ∈ cs, c.index < base)
    (hnodup : (cs.map (fun c => c.index)).Nodup)
    (hlen : as.length = cs.length) :
    (write_merged mem cs as base).length = mem.length ∧
    (∀ w, w < base → w ∉ cs.map (fun c => c.index) →
      (write_merged mem cs as base).count w = mem.count w ∧
      mask_of (write_merged mem cs as base) w = mask_of mem w ∧
      (∀ sizes, wsum (write_merged mem cs as base) sizes w = wsum mem sizes w)) ∧
    (∀ c ∈ cs, (write_merged mem cs as base).count c.index = 0) ∧
    (∀ j, (write_merged mem cs as base).count (base + j) = mem.count (base + j) +
      keysum (as.zip (cs.map (fun c => mem.count c.index))) j) ∧
    (∀ sizes j, wsum (write_merged mem cs as base) sizes (base + j) =
      wsum mem sizes (base + j) +
      keysum (as.zip (cs.map (fun c => wsum mem sizes c.index))) j) ∧
    (∀ v ∈ write_merged mem cs as base, v ∈ mem ∨ ∃ a ∈ as, v = base + a) := by
  induction cs generalizing as mem with
  | nil =>
    cases as with
    | nil =>
      refine ⟨rfl, fun w _ _ => ⟨rfl, rfl, fun _ => rfl⟩, by simp, ?_, ?_, ?_⟩
      · intro j
        simp [write_merged, keysum]
      · intro sizes j
        simp [write_merged, keysum]
      · intro v hv
        exact Or.inl hv
    | cons a as' => simp at hlen
  | cons c cs' ih =>
    cases as with
    | nil => simp at hlen
    | cons a as' =>
      have hwm : write_merged mem (c :: cs') (a :: as') base =
          write_merged (relabel_one mem c.index (a + base)) cs' as' base := by
        rw [write_merged, hmask c (List.mem_cons_self _ _), set_masked_self]
      have hcib : c.index < base := hidx c (List.mem_cons_self _ _)
      have hanb : a + base ≠ c.index := by omega
      have hcnotin : c.index ∉ cs'.map (fun c => c.index) :=
        (List.nodup_cons.mp (by simpa using hnodup)).1
      -- the hypotheses for the tail
      have hmask' : ∀ d ∈ cs', d.mask = mask_of (relabel_one mem c.index (a + base)) d.index := by
        intro d hd
        have hdne : d.index ≠ c.index := by
          intro hcon
          exact hcnotin (hcon ▸ List.mem_map.mpr ⟨d, hd, rfl⟩)
        have hdnb : d.index ≠ a + base := by
          have := hidx d (List.mem_cons_of_mem _ hd)
          omega
        rw [hmask d (List.mem_cons_of_mem _ hd),
          mask_of_relabel_one mem c.index (a + base) d.index hdne hdnb]
      obtain ⟨j1, j2, j3, j4, j5, j6⟩ := ih as' (relabel_one mem c.index (a + base)) hmask'
        (fun d hd => hidx d (List.mem_cons_of_mem _ hd))
        (by simpa using (List.nodup_cons.mp (by simpa using hnodup)).2)
        (by simpa using hlen)
      rw [hwm]
      refine ⟨?_, ?_, ?_, ?_, ?_, ?_⟩
      · rw [j1, relabel_one_length]
      · intro w hwb hwn
        have hwnc : w ≠ c.index := by
          intro hcon
          exact hwn (hcon ▸ List.mem_map.mpr ⟨c, List.mem_cons_self _ _, rfl⟩)
        have hwnb : w ≠ a + base := by omega
        have hwn' : w ∉ cs'.map (fun c => c.index) := by
          intro hcon
          obtain ⟨d, hd, hde⟩ := List.mem_map.mp hcon
          exact hwn (List.mem_map.mpr ⟨d, List.mem_cons_of_mem _ hd, hde⟩)
        obtain ⟨k1, k2, k3⟩ := j2 w hwb hwn'
        refine ⟨?_, ?_, ?_⟩
        · rw [k1, relabel_one_count_of_ne mem c.index (a + base) w hwnc hwnb]
        · rw [k2, mask_of_relabel_one mem c.index (a + base) w hwnc hwnb]
        · intro sizes
          rw [k3 sizes, wsum_relabel_one_of_ne mem sizes c.index (a + base) w hwnc hwnb]
      · intro d hd
        rcases List.mem_cons.mp hd with rfl | hd'
        · obtain ⟨k1, _, _⟩ := j2 d.index hcib hcnotin
          rw [k1, relabel_one_count_old mem d.index (a + base) (by omega)]
        · exact j3 d hd'
      · intro j
        rw [j4 j, List.map_cons, List.zip_cons_cons, keysum_cons]
        have hrw : (cs'.map fun d => (relabel_one mem c.index (a + base)).count d.index) =
            cs'.map (fun d => mem.count d.index) := by
          apply List.map_congr_left
          intro d hd
          have hdne : d.index ≠ c.index := by
            intro hcon
            exact hcnotin (hcon ▸ List.mem_map.mpr ⟨d, hd, rfl⟩)
          have hdnb : d.index ≠ a + base := by
            have := hidx d (List.mem_cons_of_mem _ hd)
            omega
          exact relabel_one_count_of_ne mem c.index (a + base) d.index hdne hdnb
        rw [hrw]
        by_cases haj : a = j
        · subst haj
          rw [show base + a = a + base from Nat.add_comm _ _,
            relabel_one_count_new mem c.index (a + base) (by omega)]
          split_ifs with hx
          · omega
          · exact absurd (by trivial) hx
        · rw [relabel_one_count_of_ne mem c.index (a + base) (base + j)
            (by omega) (by omega)]
          simp only [if_neg haj]
          omega
      · intro sizes j
        rw [j5 sizes j, List.map_cons, List.zip_cons_cons, keysum_cons]
        have hrw : (cs'.map fun d => wsum (relabel_one mem c.index (a + base)) sizes d.index) =
            cs'.map (fun d => wsum mem sizes d.index) := by
          apply List.map_congr_left
          intro d hd
          have hdne : d.index ≠ c.index := by
            intro hcon
            exact hcnotin (hcon ▸ List.mem_map.mpr ⟨d, hd, rfl⟩)
          have hdnb : d.index ≠ a + base := by
            have := hidx d (List.mem_cons_of_mem _ hd)
            omega
          exact wsum_relabel_one_of_ne mem sizes c.index (a + base) d.index hdne hdnb
        rw [hrw]
        by_cases haj : a = j
        · subst haj
          rw [show base + a = a + base from Nat.add_comm _ _,
            wsum_relabel_one_new mem sizes c.index (a + base) (by omega)]
          split_ifs with hx
          · omega
          · exact absurd (by trivial) hx
        · rw [wsum_relabel_one_of_ne mem sizes c.index (a + base) (base + j)
            (by omega) (by omega)]
          simp only [if_neg haj]
          omega
      · intro v hv
        rcases j6 v hv with h1 | ⟨b, hb, rfl⟩
        · rcases relabel_one_mem mem c.index (a + base) v h1 with h2 | h2
          · exact Or.inr ⟨a, List.mem_cons_self _ _, by omega⟩
          · exact Or.inl h2.1
        · exact Or.inr ⟨b, List.mem_cons_of_mem _ hb, by omega⟩

/-! ### Enum-filter selections -/

theorem grab_of_pairs (l : List Community) (ps : List (Nat × Community))
    (h : ∀ pc ∈ ps, l.get? pc.1 = some pc.2) :
    grab l (ps.map (fun p => p.1)) = ps.map (fun p => p.2) := by
  induction ps with
  | nil => rfl
  | cons pc ps' ih =>
    rw [List.map_cons, List.map_cons, grab, List.filterMap_cons,
      h pc (List.mem_cons_self _ _)]
    rw [grab] at ih
    rw [ih (fun q hq => h q (List.mem_cons_of_mem _ hq))]

theorem enum_filter_get (l : List Community) (pred : Community → Bool)
    (pc : Nat × Community) (h : pc ∈ l.enum.filter (fun p => pred p.2)) :
    l.get? pc.1 = some pc.2 := by
  have := List.mem_of_mem_filter h
  rw [List.get?_eq_getElem?]
  obtain ⟨i, c⟩ := pc
  exact List.mk_mem_enum_iff_getElem?.mp this

theorem enum_filter_snd (l : List Community) (pred : Community → Bool) :
    (l.enum.filter (fun p => pred p.2)).map (fun p => p.2) = l.filter pred := by
  have h1 : l.filter pred = List.filter pred (List.map Prod.snd l.enum) := by
    rw [List.enum_map_snd]
  rw [h1, List.filter_map]
  rfl

theorem enum_filter_fst_pairwise (l : List Community) (pred : Community → Bool) :
    ((l.enum.filter (fun p => pred p.2)).map (fun p => p.1)).Pairwise
      (fun a b => a < b) := by
  have h1 : ((l.enum.filter (fun p => pred p.2)).map (fun p => p.1)).Sublist
      (l.enum.map (fun p => p.1)) :=
    (List.filter_sublist _).map _
  have h2 : (l.enum.map (fun p => p.1)).Pairwise (fun a b => a < b) := by
    have := List.enum_map_fst l
    have h3 : l.enum.map (fun p : Nat × Community => p.1) =
        List.map Prod.fst l.enum := rfl
    rw [h3, this]
    exact List.pairwise_lt_range _
  exact h2.sublist h1

/-! ### Small consequences of the invariant -/

theorem Inv_bump_calls (s : Improver) (k : Nat) (h : Inv s) :
    Inv { s with oracle_calls := k } :=
  ⟨h.sizes_len, h.mask_eq, h.nodes_eq, h.size_eq, h.few_eq, h.small_eq, h.large_eq,
   h.index_lt, h.index_nodup, h.cover, h.few_total, h.small_total, h.large_total,
   h.attempts_lt, h.attempts_mono⟩

theorem comm_count_eq (s : Improver) (h : Inv s) (c : Community)
    (hc : c ∈ s.communities) : s.membership.count c.index = c.nodes := by
  rw [h.nodes_eq c hc, h.mask_eq c hc, count_true_mask_of]

theorem comm_wsum_eq (s : Improver) (h : Inv s) (c : Community)
    (hc : c ∈ s.communities) (sizes : List Nat) (hns : s.node_sizes = some sizes) :
    wsum s.membership sizes c.index = c.size := by
  rw [h.size_eq c hc, h.mask_eq c hc, ← masked_sum_mask_of]
  rw [Improver.community_size, hns]

theorem mem_values_lt (s : Improver) (h : Inv s) (v : Nat) (hv : v ∈ s.membership) :
    v < s.next_community_index := by
  obtain ⟨c, hc, rfl⟩ := List.mem_map.mp (h.cover v hv)
  exact h.index_lt c hc

theorem count_eq_zero_of_ge (s : Improver) (h : Inv s) (j : Nat)
    (hj : s.next_community_index ≤ j) : s.membership.count j = 0 := by
  rw [List.count_eq_zero]
  intro hmem
  have := mem_values_lt s h j hmem
  omega

theorem wsum_eq_zero_of_not_mem (mem sizes : List Nat) (j : Nat) (h : j ∉ mem) :
    wsum mem sizes j = 0 := by
  induction mem generalizing sizes with
  | nil => rfl
  | cons m ms ih =>
    cases sizes with
    | nil => exact wsum_nil_right _ _
    | cons sz szs =>
      rw [wsum, List.zip_cons_cons, List.filter_cons]
      have hmj : (m == j) = false := by
        rw [beq_eq_false_iff_ne]
        rintro rfl
        exact h (List.mem_cons_self _ _)
      simp only [hmj]
      exact ih szs (fun hc => h (List.mem_cons_of_mem _ hc))

/-- The bound/configuration fields relevant to the penalties, preserved by all
operations. -/
def SameBounds (s t : Improver) : Prop :=
  t.node_sizes = s.node_sizes ∧ t.target_comm_size = s.target_comm_size ∧
  t.max_comm_size = s.max_comm_size ∧ t.min_comm_size = s.min_comm_size ∧
  t.min_comm_nodes = s.min_comm_nodes ∧
  t.must_complete_cover = s.must_complete_cover ∧
  t.membership.length = s.membership.length

theorem SameBounds_rfl (s : Improver) : SameBounds s s :=
  ⟨rfl, rfl, rfl, rfl, rfl, rfl, rfl⟩

theorem SameBounds_trans {s t u : Improver} (h1 : SameBounds s t)
    (h2 : SameBounds t u) : SameBounds s u := by
  obtain ⟨a1, a2, a3, a4, a5, a6, a7⟩ := h1
  obtain ⟨b1, b2, b3, b4, b5, b6, b7⟩ := h2
  exact ⟨b1.trans a1, b2.trans a2, b3.trans a3, b4.trans a4, b5.trans a5,
    b6.trans a6, b7.trans a7⟩

theorem pair_lt_iff (p q : Nat × Nat) :
    pair_lt p q = true ↔ (p.1 < q.1 ∨ (p.1 = q.1 ∧ p.2 < q.2)) := by
  rw [pair_lt]
  simp [Bool.or_eq_true, decide_eq_true_eq, Bool.and_eq_true, beq_iff_eq]

theorem zip_pair_of_mem_left (A B : List Nat) (hlen : B.length = A.length) (i : Nat)
    (hmem : i ∈ A) : ∃ b ∈ B, (i, b) ∈ A.zip B := by
  obtain ⟨t, ht, hA⟩ := List.mem_iff_getElem.mp hmem
  have htb : t < B.length := by omega
  have htz : t < (A.zip B).length := by
    rw [List.length_zip]
    omega
  refine ⟨B[t], List.getElem_mem htb, ?_⟩
  have : (A.zip B)[t] = (A[t], B[t]) := List.getElem_zip
  rw [hA] at this
  rw [← this]
  exact List.getElem_mem htz

theorem zip_map_f_snd_sum (A B : List Nat) (f : Nat → Nat) (hlen : B.length = A.length) :
    ((A.zip B).map (fun p => f p.2)).sum = (B.map f).sum := by
  have h1 : (A.zip B).map (fun p => f p.2) = ((A.zip B).map Prod.snd).map f := by
    rw [List.map_map]
    rfl
  rw [h1, List.map_snd_zip A B (le_of_eq hlen)]

/-! ### The master lemma for `merge_few_or_small` -/

/-- The state produced by the else-branch of `merge_few_or_small` (the same
let-chain as in the definition, factored out for reasoning). -/
def Improver.merge_result (oracle : Oracle) (s : Improver) : Improver :=
  let merged := s.communities.enum.filter (fun p => few_or_small p.2)
  let assign := oracle s.oracle_calls merged.length
  let s0 : Improver := { s with oracle_calls := s.oracle_calls + 1 }
  let membership1 :=
    write_merged s0.membership (merged.map (fun p => p.2)) assign s0.next_community_index
  let s1 := (merged.map (fun p => p.1)).reverse.foldl
    (fun t position => t.remove_at position) { s0 with membership := membership1 }
  s1.add_many (list_max assign + 1)

theorem merge_few_or_small_eq (oracle : Oracle) (s : Improver) :
    Improver.merge_few_or_small oracle s =
      if (s.communities.enum.filter (fun p => few_or_small p.2)).length < 2 then
        (false, s)
      else
        (pair_lt
          ((Improver.merge_result oracle s).too_few,
            (Improver.merge_result oracle s).too_small)
          (s.too_few, s.too_small),
         Improver.merge_result oracle s) := rfl

theorem community_size_mask_of_mem (s : Improver) (mem : List Nat) (j : Nat) :
    s.community_size (mask_of mem j) = node_weight s.node_sizes mem j := by
  rw [Improver.community_size, node_weight.eq_def]
  cases s.node_sizes with
  | none => exact count_true_mask_of _ _
  | some sizes => exact masked_sum_mask_of _ _ _

theorem community_size_congr (s t : Improver) (h : t.node_sizes = s.node_sizes)
    (m : List Bool) : t.community_size m = s.community_size m := by
  rw [Improver.community_size, Improver.community_size, h]

theorem comm_size_none (s : Improver) (hI : Inv s) (hns : s.node_sizes = none)
    (c : Community) (hc : c ∈ s.communities) : c.size = c.nodes := by
  rw [hI.size_eq c hc, hI.nodes_eq c hc, Improver.community_size, hns]

theorem merge_result_spec (oracle : Oracle) (s : Improver)
    (hI : Inv s) (hN : NonemptyComms s) (hO : OracleOK oracle)
    (hm2 : ¬ (s.communities.enum.filter (fun p => few_or_small p.2)).length < 2) :
    Inv (Improver.merge_result oracle s) ∧
    NonemptyComms (Improver.merge_result oracle s) ∧
    (Improver.merge_result oracle s).too_few ≤ s.too_few ∧
    (Improver.merge_result oracle s).too_small ≤ s.too_small ∧
    SameBounds s (Improver.merge_result oracle s) ∧
    (Improver.merge_result oracle s).split_attempts = s.split_attempts := by
  rw [Improver.merge_result]
  set M := s.communities.enum.filter (fun p => few_or_small p.2) with hM
  set A := oracle s.oracle_calls M.length with hA
  set cs := M.map (fun p => p.2) with hcs
  set P := M.map (fun p => p.1) with hP
  set mem1 := write_merged s.membership cs A s.next_community_index with hmem1
  dsimp only
  set tmid : Improver :=
    { s with oracle_calls := s.oracle_calls + 1, membership := mem1 } with htmid
  set T1 := P.reverse.foldl (fun t position => t.remove_at position) tmid with hT1
  set count := list_max A + 1 with hcount
  -- basic facts about the selection
  have hAlen : A.length = M.length := (hO s.oracle_calls M.length).1
  have hAdc : ∀ i v, v ∈ A → i ≤ v → i ∈ A := (hO s.oracle_calls M.length).2
  have hcslen : cs.length = M.length := by rw [hcs, List.length_map]
  have hcsfil : cs = s.communities.filter few_or_small := by
    rw [hcs, hM]
    exact enum_filter_snd _ _
  have hcssub : cs.Sublist s.communities := by
    rw [hcsfil]
    exact List.filter_sublist _
  have hcsmem : ∀ c ∈ cs, c ∈ s.communities := fun c hc => hcssub.subset hc
  have hcsnodup : (cs.map (fun c => c.index)).Nodup :=
    hI.index_nodup.sublist (hcssub.map _)
  have hmask : ∀ c ∈ cs, c.mask = mask_of s.membership c.index :=
    fun c hc => hI.mask_eq c (hcsmem c hc)
  have hidxb : ∀ c ∈ cs, c.index < s.next_community_index :=
    fun c hc => hI.index_lt c (hcsmem c hc)
  have hlenAcs : A.length = cs.length := by rw [hAlen, hcslen]
  obtain ⟨w1, w2, w3, w4, w5, w6⟩ :=
    write_merged_spec cs A s.membership s.next_community_index hmask hidxb hcsnodup hlenAcs
  rw [← hmem1] at w1 w2 w3 w4 w5 w6
  have hAne : A ≠ [] := by
    intro hcon
    rw [hcon] at hAlen
    simp at hAlen
    omega
  have hAin : ∀ i, i < count → i ∈ A := by
    intro i hi
    exact hAdc i (list_max A) (list_max_mem A hAne) (by omega)
  -- facts about the removal positions
  have hMget : ∀ pc ∈ M, s.communities.get? pc.1 = some pc.2 :=
    fun pc hpc => enum_filter_get _ _ pc (hM ▸ hpc)
  have hPdesc : P.reverse.Pairwise (fun a b => b < a) := by
    rw [List.pairwise_reverse]
    rw [hP, hM]
    exact enum_filter_fst_pairwise _ _
  have hPvalid : ∀ p ∈ P, p < s.communities.length := by
    intro p hp
    obtain ⟨pc, hpc, rfl⟩ := List.mem_map.mp (hP ▸ hp)
    obtain ⟨hlt, _⟩ := List.get?_eq_some.mp (hMget pc hpc)
    exact hlt
  have hgrabP : grab s.communities P = cs := by
    rw [hP, hcs]
    exact grab_of_pairs _ _ hMget
  obtain ⟨r1, r2, r3, r4, r5, r6⟩ := remove_desc_spec P.reverse tmid hPdesc
    (fun p hp => hPvalid p (List.mem_reverse.mp hp))
  rw [← hT1] at r1 r2 r3 r4 r5 r6
  obtain ⟨q1, q2, q3, q4, q5, q6, q7, q8, q9, q10⟩ := r6
  have hT1mem : T1.membership = mem1 := q1
  have hT1ns : T1.node_sizes = s.node_sizes := q2
  have hT1max : T1.max_comm_size = s.max_comm_size := q4
  have hT1min : T1.min_comm_size = s.min_comm_size := q5
  have hT1mn : T1.min_comm_nodes = s.min_comm_nodes := q6
  have hT1next : T1.next_community_index = s.next_community_index := q8
  have hT1sa : T1.split_attempts = s.split_attempts := q10
  have hgrabrev : grab tmid.communities P.reverse = cs.reverse := by
    show grab s.communities P.reverse = cs.reverse
    rw [grab, List.filterMap_reverse, ← grab, hgrabP]
  rw [hgrabrev] at r2 r3 r4 r5
  have r2' : s.communities.Perm (cs.reverse ++ T1.communities) := r2
  have hpermsum : ∀ f : Community → Nat,
      (s.communities.map f).sum = (cs.map f).sum + (T1.communities.map f).sum := by
    intro f
    have h1 := (r2'.map f).sum_eq
    rw [List.map_append, List.sum_append, List.map_reverse, List.sum_reverse] at h1
    exact h1
  have hsurv : T1.communities.Sublist s.communities := r1
  have hsurvmem : ∀ c ∈ T1.communities, c ∈ s.communities :=
    fun c hc => hsurv.subset hc
  have hmaprev : ∀ f : Community → Nat,
      ((cs.reverse).map f).sum = (cs.map f).sum := by
    intro f
    rw [List.map_reverse, List.sum_reverse]
  have ht1few : T1.too_few = (T1.communities.map (fun c => c.too_few)).sum := by
    rw [r3, hmaprev]
    have h1 := hpermsum (fun c => c.too_few)
    have h2 := hI.few_total
    have h3 : tmid.too_few = s.too_few := rfl
    rw [h3]
    omega
  have ht1small : T1.too_small = (T1.communities.map (fun c => c.too_small)).sum := by
    rw [r4, hmaprev]
    have h1 := hpermsum (fun c => c.too_small)
    have h2 := hI.small_total
    have h3 : tmid.too_small = s.too_small := rfl
    rw [h3]
    omega
  have ht1large : T1.too_large = (T1.communities.map (fun c => c.too_large)).sum := by
    rw [r5, hmaprev]
    have h1 := hpermsum (fun c => c.too_large)
    have h2 := hI.large_total
    have h3 : tmid.too_large = s.too_large := rfl
    rw [h3]
    omega
  have hdisj : ∀ c ∈ T1.communities, c.index ∉ cs.map (fun c => c.index) := by
    have hnall : ((cs.reverse ++ T1.communities).map (fun c => c.index)).Nodup :=
      ((r2'.map (fun c => c.index)).nodup_iff).mp hI.index_nodup
    rw [List.map_append] at hnall
    obtain ⟨_, _, hdis⟩ := List.nodup_append.mp hnall
    intro c hc hmemcs
    have h1 : c.index ∈ (cs.reverse).map (fun c => c.index) := by
      rw [List.map_reverse, List.mem_reverse]
      exact hmemcs
    exact hdis h1 (List.mem_map.mpr ⟨c, hc, rfl⟩)
  -- the mask/count facts for survivors
  have hsmask : ∀ c ∈ T1.communities, mask_of mem1 c.index = mask_of s.membership c.index := by
    intro c hc
    exact (w2 c.index (hI.index_lt c (hsurvmem c hc)) (hdisj c hc)).2.1
  -- PreInv of T1
  have hpre : PreInv T1 := by
    refine ⟨?_, ?_, ?_, ?_, ?_, ?_, ?_, ?_, ?_, ?_, ?_, ?_, ?_, ?_⟩
    · rw [sizes_len_ok.eq_def, hT1ns, hT1mem]
      split
      · trivial
      · next l heq =>
          have hsl := hI.sizes_len
          rw [sizes_len_ok.eq_def, heq] at hsl
          rw [w1]
          exact hsl
    · intro c hc
      rw [hT1mem, hsmask c hc]
      exact hI.mask_eq c (hsurvmem c hc)
    · intro c hc
      exact hI.nodes_eq c (hsurvmem c hc)
    · intro c hc
      rw [community_size_congr s T1 hT1ns]
      exact hI.size_eq c (hsurvmem c hc)
    · intro c hc
      rw [hT1mn]
      exact hI.few_eq c (hsurvmem c hc)
    · intro c hc
      rw [hT1min]
      exact hI.small_eq c (hsurvmem c hc)
    · intro c hc
      rw [hT1max]
      exact hI.large_eq c (hsurvmem c hc)
    · intro c hc
      rw [hT1next]
      exact hI.index_lt c (hsurvmem c hc)
    · exact hI.index_nodup.sublist (hsurv.map _)
    · exact ht1few
    · exact ht1small
    · exact ht1large
    · intro a ha
      rw [hT1next]
      exact hI.attempts_lt a (hT1sa ▸ ha)
    · intro a ha c hc hidx
      exact hI.attempts_mono a (hT1sa ▸ ha) c (hsurvmem c hc) hidx
  -- cover for the upcoming add_many
  have hcover : ∀ v ∈ T1.membership, v ∈ T1.communities.map (fun c => c.index) ∨
      (T1.next_community_index ≤ v ∧ v < T1.next_community_index + count) := by
    intro v hv
    rw [hT1mem] at hv
    rw [hT1next]
    rcases w6 v hv with h1 | ⟨a, ha, rfl⟩
    · obtain ⟨c0, hc0, rfl⟩ := List.mem_map.mp (hI.cover v h1)
      have hc0' : c0 ∈ cs.reverse ++ T1.communities := (r2'.mem_iff).mp hc0
      rw [List.mem_append] at hc0'
      rcases hc0' with h2 | h2
      · exfalso
        have h3 : c0 ∈ cs := List.mem_reverse.mp h2
        have h4 := w3 c0 h3
        have h5 : 0 < mem1.count c0.index := List.count_pos_iff.mpr hv
        omega
      · exact Or.inl (List.mem_map.mpr ⟨c0, h2, rfl⟩)
    · have h2 : a ≤ list_max A := list_max_le_of_mem A a ha
      omega
  have hInvT : Inv (T1.add_many count) := Inv_add_many T1 count hpre hcover
  -- nonemptiness
  have hused : ∀ i, i < count → (T1.next_community_index + i) ∈ T1.membership := by
    intro i hi
    rw [hT1mem, hT1next]
    obtain ⟨b, hb, hpair⟩ := zip_pair_of_mem_left A
      (cs.map (fun c => s.membership.count c.index))
      (by rw [List.length_map, hlenAcs]) i (hAin i hi)
    obtain ⟨c0, hc0, rfl⟩ := List.mem_map.mp hb
    have h1 : s.membership.count c0.index ≤
        keysum (A.zip (cs.map (fun c => s.membership.count c.index))) i := by
      have := le_keysum _ _ hpair
      exact this
    have h2 : s.membership.count c0.index = c0.nodes := comm_count_eq s hI c0 (hcsmem c0 hc0)
    have h3 : 0 < c0.nodes := hN c0 (hcsmem c0 hc0)
    have h4 := w4 i
    exact List.count_pos_iff.mp (by omega)
  have hNET : NonemptyComms (T1.add_many count) :=
    Nonempty_add_many T1 count (fun c hc => hN c (hsurvmem c hc)) hused
  obtain ⟨ac, an, af, asm, al⟩ := add_many_spec count T1
  obtain ⟨am1, am2, am3, am4, am5, am6, am7, am8, am9⟩ := add_many_fixed T1 count
  -- the new communities' too_few sum
  have hfreshfew : ∀ i, i < count →
      (T1.fresh_community (T1.next_community_index + i)).too_few =
      deficit s.min_comm_nodes
        (keysum (A.zip (cs.map (fun c => s.membership.count c.index))) i) := by
    intro i hi
    show deficit T1.min_comm_nodes (count_true (mask_of T1.membership
      (T1.next_community_index + i))) = _
    rw [hT1mem, hT1mn, hT1next, count_true_mask_of]
    have h1 := w4 i
    have h2 : s.membership.count (s.next_community_index + i) = 0 :=
      count_eq_zero_of_ge s hI _ (by omega)
    rw [h1, h2, Nat.zero_add]
  have hfreshsmall : ∀ i, i < count →
      (T1.fresh_community (T1.next_community_index + i)).too_small =
      deficit s.min_comm_size
        (keysum (A.zip (cs.map (fun c => c.size))) i) := by
    intro i hi
    show deficit T1.min_comm_size (T1.community_size (mask_of T1.membership
      (T1.next_community_index + i))) = _
    rw [hT1mem, hT1min, hT1next, community_size_congr s T1 hT1ns]
    cases hns : s.node_sizes with
    | none =>
      have h1 : s.community_size (mask_of mem1 (s.next_community_index + i)) =
          mem1.count (s.next_community_index + i) := by
        rw [community_size_mask_of_mem, hns, node_weight_none]
      rw [h1, w4 i, count_eq_zero_of_ge s hI _ (by omega), Nat.zero_add]
      have h2 : cs.map (fun c => List.count c.index s.membership) =
          cs.map (fun c => c.size) := by
        apply List.map_congr_left
        intro c hc
        rw [comm_count_eq s hI c (hcsmem c hc), comm_size_none s hI hns c (hcsmem c hc)]
      rw [h2]
    | some sizes =>
      have h1 : s.community_size (mask_of mem1 (s.next_community_index + i)) =
          wsum mem1 sizes (s.next_community_index + i) := by
        rw [community_size_mask_of_mem, hns, node_weight_some]
      have h2 : wsum s.membership sizes (s.next_community_index + i) = 0 := by
        apply wsum_eq_zero_of_not_mem
        intro hcon
        have := mem_values_lt s hI _ hcon
        omega
      rw [h1, w5 sizes i, h2, Nat.zero_add]
      have h3 : cs.map (fun c => wsum s.membership sizes c.index) =
          cs.map (fun c => c.size) := by
        apply List.map_congr_left
        intro c hc
        exact comm_wsum_eq s hI c (hcsmem c hc) sizes hns
      rw [h3]
  -- grouped-deficit bounds
  have hrangecov : ∀ B : List Nat, ∀ p ∈ A.zip B, p.1 ∈ List.range count := by
    intro B p hp
    rw [List.mem_range]
    have h1 := (List.of_mem_zip hp).1
    have := list_max_le_of_mem A p.1 h1
    omega
  have hrangeused : ∀ B : List Nat, B.length = A.length →
      ∀ j ∈ List.range count, ∃ p ∈ A.zip B, p.1 = j := by
    intro B hB j hj
    obtain ⟨b, hb, hpair⟩ := zip_pair_of_mem_left A B hB j (hAin j (List.mem_range.mp hj))
    exact ⟨(j, b), hpair, rfl⟩
  have hfewbound :
      ((List.range count).map (fun i =>
        (T1.fresh_community (T1.next_community_index + i)).too_few)).sum ≤
      (cs.map (fun c => c.too_few)).sum := by
    have h1 : (List.range count).map (fun i =>
        (T1.fresh_community (T1.next_community_index + i)).too_few) =
        (List.range count).map (fun i => deficit s.min_comm_nodes
          (keysum (A.zip (cs.map (fun c => s.membership.count c.index))) i)) := by
      apply List.map_congr_left
      intro i hi
      exact hfreshfew i (List.mem_range.mp hi)
    rw [h1]
    have h2 := sum_deficit_keysum_le (List.range count)
      (A.zip (cs.map (fun c => s.membership.count c.index))) s.min_comm_nodes
      (List.nodup_range count) (hrangecov _)
      (hrangeused _ (by rw [List.length_map, hlenAcs]))
    refine le_trans h2 ?_
    rw [zip_map_f_snd_sum _ _ _ (by rw [List.length_map, hlenAcs]), List.map_map]
    apply le_of_eq
    apply congrArg
    apply List.map_congr_left
    intro c hc
    simp only [Function.comp]
    rw [comm_count_eq s hI c (hcsmem c hc), ← hI.few_eq c (hcsmem c hc)]
  have hsmallbound :
      ((List.range count).map (fun i =>
        (T1.fresh_community (T1.next_community_index + i)).too_small)).sum ≤
      (cs.map (fun c => c.too_small)).sum := by
    have h1 : (List.range count).map (fun i =>
        (T1.fresh_community (T1.next_community_index + i)).too_small) =
        (List.range count).map (fun i => deficit s.min_comm_size
          (keysum (A.zip (cs.map (fun c => c.size))) i)) := by
      apply List.map_congr_left
      intro i hi
      exact hfreshsmall i (List.mem_range.mp hi)
    rw [h1]
    have h2 := sum_deficit_keysum_le (List.range count)
      (A.zip (cs.map (fun c => c.size))) s.min_comm_size
      (List.nodup_range count) (hrangecov _)
      (hrangeused _ (by rw [List.length_map, hlenAcs]))
    refine le_trans h2 ?_
    rw [zip_map_f_snd_sum _ _ _ (by rw [List.length_map, hlenAcs]), List.map_map]
    apply le_of_eq
    apply congrArg
    apply List.map_congr_left
    intro c hc
    simp only [Function.comp]
    rw [← hI.small_eq c (hcsmem c hc)]
  refine ⟨hInvT, hNET, ?_, ?_, ?_, ?_⟩
  · rw [af]
    have h1 := hpermsum (fun c => c.too_few)
    have h2 := hI.few_total
    omega
  · rw [asm]
    have h1 := hpermsum (fun c => c.too_small)
    have h2 := hI.small_total
    omega
  · refine ⟨?_, ?_, ?_, ?_, ?_, ?_, ?_⟩
    · rw [am2, hT1ns]
    · rw [am3]
      exact q3
    · rw [am4, hT1max]
    · rw [am5, hT1min]
    · rw [am6, hT1mn]
    · rw [am7]
      exact q7
    · rw [am1, hT1mem, w1]
  · rw [am9, hT1sa]

/-- Master property of `merge_few_or_small`: the invariant and community
nonemptiness are preserved, the `too_few`/`too_small` totals never increase,
the configuration and membership length are unchanged, the ghost split log is
unchanged, and the returned flag is `true` iff the `(too_few, too_small)`
pair strictly decreased in lexicographic (Python tuple) order. -/
theorem merge_few_or_small_spec (oracle : Oracle) (s : Improver)
    (hI : Inv s) (hN : NonemptyComms s) (hO : OracleOK oracle) :
    Inv (Improver.merge_few_or_small oracle s).2 ∧
    NonemptyComms (Improver.merge_few_or_small oracle s).2 ∧
    (Improver.merge_few_or_small oracle s).2.too_few ≤ s.too_few ∧
    (Improver.merge_few_or_small oracle s).2.too_small ≤ s.too_small ∧
    SameBounds s (Improver.merge_few_or_small oracle s).2 ∧
    (Improver.merge_few_or_small oracle s).2.split_attempts = s.split_attempts ∧
    ((Improver.merge_few_or_small oracle s).1 = true ↔
      ((Improver.merge_few_or_small oracle s).2.too_few < s.too_few ∨
       ((Improver.merge_few_or_small oracle s).2.too_few = s.too_few ∧
        (Improver.merge_few_or_small oracle s).2.too_small < s.too_small))) := by
  rw [merge_few_or_small_eq]
  by_cases hm2 : (s.communities.enum.filter (fun p => few_or_small p.2)).length < 2
  · rw [if_pos hm2]
    refine ⟨hI, hN, le_refl _, le_refl _, SameBounds_rfl s, rfl, ?_⟩
    simp
  · rw [if_neg hm2]
    obtain ⟨a1, a2, a3, a4, a5, a6⟩ := merge_result_spec oracle s hI hN hO hm2
    exact ⟨a1, a2, a3, a4, a5, a6, pair_lt_iff _ _⟩

/-- Unfolding of `merge_loop` at nonzero fuel. -/
theorem merge_loop_succ (oracle : Oracle) (fuel : Nat) (s : Improver) :
    Improver.merge_loop oracle (fuel + 1) s =
      if s.too_few > 0 || s.too_small > 0 then
        (if (Improver.merge_few_or_small oracle s).1 then
          Improver.merge_loop oracle fuel (Improver.merge_few_or_small oracle s).2
        else some (Improver.merge_few_or_small oracle s).2)
      else some s := rfl

/-- The merge loop terminates: some fuel makes it return, and the result keeps
the invariant with non-increasing penalties and unchanged configuration.  The
termination measure is the lexicographic `(too_few, too_small)` pair, which
`merge_few_or_small` strictly decreases whenever it reports improvement. -/
theorem merge_loop_exists (oracle : Oracle) (hO : OracleOK oracle) :
    ∀ a b (s : Improver), s.too_few = a → s.too_small = b → Inv s →
      NonemptyComms s →
      ∃ fuel t, Improver.merge_loop oracle fuel s = some t ∧ Inv t ∧
        NonemptyComms t ∧ t.too_few ≤ s.too_few ∧ t.too_small ≤ s.too_small ∧
        SameBounds s t ∧ t.split_attempts = s.split_attempts := by
  intro a
  induction a using Nat.strong_induction_on with
  | _ a iha =>
  intro b
  induction b using Nat.strong_induction_on with
  | _ b ihb =>
  intro s ha hb hI hN
  obtain ⟨m1, m2, m3, m4, m5, m6, m7⟩ := merge_few_or_small_spec oracle s hI hN hO
  by_cases hcond : (s.too_few > 0 || s.too_small > 0) = true
  · by_cases himp : (Improver.merge_few_or_small oracle s).1 = true
    · rcases m7.mp himp with hlt | ⟨heq, hlt⟩
      · obtain ⟨fuel, t, e1, e2, e3, e4, e5, e6, e7⟩ :=
          iha (Improver.merge_few_or_small oracle s).2.too_few (by omega)
            (Improver.merge_few_or_small oracle s).2.too_small
            (Improver.merge_few_or_small oracle s).2 rfl rfl m1 m2
        exact ⟨fuel + 1, t,
          by rw [merge_loop_succ, if_pos hcond, if_pos himp, e1],
          e2, e3, by omega, by omega, SameBounds_trans m5 e6, e7.trans m6⟩
      · obtain ⟨fuel, t, e1, e2, e3, e4, e5, e6, e7⟩ :=
          ihb (Improver.merge_few_or_small oracle s).2.too_small (by omega)
            (Improver.merge_few_or_small oracle s).2 (by omega) rfl m1 m2
        exact ⟨fuel + 1, t,
          by rw [merge_loop_succ, if_pos hcond, if_pos himp, e1],
          e2, e3, by omega, by omega, SameBounds_trans m5 e6, e7.trans m6⟩
    · exact ⟨1, (Improver.merge_few_or_small oracle s).2,
        by rw [merge_loop_succ, if_pos hcond, if_neg himp], m1, m2, m3, m4, m5, m6⟩
  · exact ⟨1, s, by rw [merge_loop_succ, if_neg hcond], hI, hN, le_refl _,
      le_refl _, SameBounds_rfl s, rfl⟩

/-! ## The termination measure of `split_large` -/

/-- The split termination measure of a community list: the sum of `3 ^ nodes`
over its members. -/
def pow3_sum (cs : List Community) : Nat :=
  (cs.map (fun c => 3 ^ c.nodes)).sum

/-- The measure of the part of the community list the `split_large` scan has
not yet passed. -/
def split_measure (s : Improver) (position : Nat) : Nat :=
  pow3_sum (s.communities.drop position)

/-- The measure of the whole community list; it is decreased by every split
event and untouched by the scan. -/
def total_measure (s : Improver) : Nat :=
  pow3_sum s.communities

theorem pow3_sum_append (a b : List Community) :
    pow3_sum (a ++ b) = pow3_sum a + pow3_sum b := by
  rw [pow3_sum, pow3_sum, pow3_sum, List.map_append, List.sum_append]

theorem pow3_add_pow3_lt (n m : Nat) (hn : 1 ≤ n) (hm : 1 ≤ m) :
    3 ^ n + 3 ^ m < 3 ^ (n + m) := by
  have hx : 3 ^ 1 ≤ 3 ^ n := Nat.pow_le_pow_right (by norm_num) hn
  have hy : 3 ^ 1 ≤ 3 ^ m := Nat.pow_le_pow_right (by norm_num) hm
  have h1 : 3 ^ n * 3 ≤ 3 ^ n * 3 ^ m := Nat.mul_le_mul_left _ (by simpa using hy)
  have h2 : 3 * 3 ^ m ≤ 3 ^ n * 3 ^ m := Nat.mul_le_mul_right _ (by simpa using hx)
  rw [pow_add]
  simp only [pow_one] at hx hy
  omega

theorem pow3_sum_le (cs : List Community) (h1 : ∀ c ∈ cs, 1 ≤ c.nodes)
    (hne : cs ≠ []) :
    pow3_sum cs ≤ 3 ^ ((cs.map (fun c => c.nodes)).sum) ∧
      1 ≤ (cs.map (fun c => c.nodes)).sum := by
  induction cs with
  | nil => exact absurd rfl hne
  | cons c rest ih =>
    cases rest with
    | nil =>
      refine ⟨?_, ?_⟩
      · simp [pow3_sum]
      · have := h1 c (List.mem_cons_self _ _)
        simp only [List.map_cons, List.map_nil, List.sum_cons, List.sum_nil]
        omega
    | cons d ds =>
      obtain ⟨ihle, ihpos⟩ :=
        ih (fun x hx => h1 x (List.mem_cons_of_mem _ hx)) (List.cons_ne_nil _ _)
      have hc : 1 ≤ c.nodes := h1 c (List.mem_cons_self _ _)
      have hstep := pow3_add_pow3_lt c.nodes
        (((d :: ds).map (fun c => c.nodes)).sum) hc ihpos
      have hunf : pow3_sum (c :: d :: ds) = 3 ^ c.nodes + pow3_sum (d :: ds) := by
        rw [pow3_sum, pow3_sum, List.map_cons, List.sum_cons]
      have hsum : ((c :: d :: ds).map (fun c => c.nodes)).sum =
          c.nodes + ((d :: ds).map (fun c => c.nodes)).sum := by
        rw [List.map_cons, List.sum_cons]
      rw [hunf, hsum]
      constructor
      · omega
      · omega

/-- At least two pieces, each with at least one node, have a strictly smaller
measure than a single community holding all their nodes. -/
theorem pow3_sum_lt (cs : List Community) (h1 : ∀ c ∈ cs, 1 ≤ c.nodes)
    (h2 : 2 ≤ cs.length) :
    pow3_sum cs < 3 ^ ((cs.map (fun c => c.nodes)).sum) := by
  cases cs with
  | nil => simp at h2
  | cons c rest =>
    cases rest with
    | nil => simp at h2
    | cons d ds =>
      obtain ⟨ihle, ihpos⟩ :=
        pow3_sum_le (d :: ds) (fun x hx => h1 x (List.mem_cons_of_mem _ hx))
          (List.cons_ne_nil _ _)
      have hc : 1 ≤ c.nodes := h1 c (List.mem_cons_self _ _)
      have hstep := pow3_add_pow3_lt c.nodes
        (((d :: ds).map (fun c => c.nodes)).sum) hc ihpos
      have hunf : pow3_sum (c :: d :: ds) = 3 ^ c.nodes + pow3_sum (d :: ds) := by
        rw [pow3_sum, pow3_sum, List.map_cons, List.sum_cons]
      have hsum : ((c :: d :: ds).map (fun c => c.nodes)).sum =
          c.nodes + ((d :: ds).map (fun c => c.nodes)).sum := by
        rw [List.map_cons, List.sum_cons]
      rw [hunf, hsum]
      omega

/-- A value list all of whose entries lie below `k` has as many entries as the
counts of `0, …, k-1` add up to. -/
theorem sum_counts_eq_length (l : List Nat) (k : Nat) (h : ∀ v ∈ l, v < k) :
    ((List.range k).map (fun i => l.count i)).sum = l.length := by
  induction l with
  | nil => simp
  | cons v vs ih =>
    have hv : v < k := h v (List.mem_cons_self _ _)
    have h1 : (List.range k).map (fun i => (v :: vs).count i) =
        (List.range k).map (fun i => vs.count i + if v = i then 1 else 0) := by
      apply List.map_congr_left
      intro i _
      rw [List.count_cons]
      simp only [beq_iff_eq]
    rw [h1, sum_map_add, ih (fun w hw => h w (List.mem_cons_of_mem _ hw)),
      sum_ite_single (List.range k) v 1 (List.nodup_range k) (List.mem_range.mpr hv),
      List.length_cons]

theorem count_map_add_right (l : List Nat) (n v : Nat) :
    (l.map (fun a => a + n)).count (v + n) = l.count v :=
  List.count_map_of_injective l (fun a => a + n) (fun a b h => by simpa using h) v

/-! ## The membership rewrite performed by the split branch -/

theorem assign_masked_nil (bs : List Bool) (vs : List Nat) :
    assign_masked [] bs vs = [] := rfl

theorem assign_masked_cons_true (m : Nat) (ms : List Nat) (bs : List Bool)
    (v : Nat) (vt : List Nat) :
    assign_masked (m :: ms) (true :: bs) (v :: vt) =
      v :: assign_masked ms bs vt := rfl

theorem assign_masked_cons_false (m : Nat) (ms : List Nat) (bs : List Bool)
    (vs : List Nat) :
    assign_masked (m :: ms) (false :: bs) vs = m :: assign_masked ms bs vs := rfl

/-- The membership rewrite `membership[mask] = values` of the split branch of
`split_large`, applied to the mask of community `j` with exactly one value per
member: the length is kept; the mask of any index that is neither `j` nor a
written value is unchanged; every entry is a written value or an old non-`j`
entry; and an index absent from the old membership occurs exactly as often as
the values list holds it. -/
theorem assign_masked_spec (j : Nat) :
    ∀ (mem vs : List Nat), vs.length = mem.count j →
      (assign_masked mem (mask_of mem j) vs).length = mem.length ∧
      (∀ w, w ≠ j → w ∉ vs →
        mask_of (assign_masked mem (mask_of mem j) vs) w = mask_of mem w) ∧
      (∀ x ∈ assign_masked mem (mask_of mem j) vs, x ∈ vs ∨ (x ∈ mem ∧ x ≠ j)) ∧
      (∀ w, w ∉ mem →
        (assign_masked mem (mask_of mem j) vs).count w = vs.count w) := by
  intro mem
  induction mem with
  | nil =>
    intro vs hlen
    have hvs : vs = [] := List.length_eq_zero.mp (by simpa using hlen)
    subst hvs
    exact ⟨rfl, fun w _ _ => rfl,
      fun x hx => absurd hx (by rw [assign_masked_nil]; simp),
      fun w _ => by rw [assign_masked_nil]⟩
  | cons m ms ih =>
    intro vs hlen
    by_cases hm : m = j
    · have hb : (m == j) = true := beq_iff_eq.mpr hm
      have hcount : (m :: ms).count j = ms.count j + 1 := by
        rw [List.count_cons]
        simp only [beq_iff_eq]
        split_ifs with h <;> omega
      obtain ⟨v, vt, rfl⟩ : ∃ v vt, vs = v :: vt := by
        cases vs with
        | nil => rw [hcount] at hlen; simp at hlen
        | cons v vt => exact ⟨v, vt, rfl⟩
      have hlen' : vt.length = ms.count j := by
        rw [hcount] at hlen
        simpa using hlen
      obtain ⟨i1, i2, i3, i4⟩ := ih vt hlen'
      have hred : assign_masked (m :: ms) (mask_of (m :: ms) j) (v :: vt) =
          v :: assign_masked ms (mask_of ms j) vt := by
        rw [mask_of_cons, hb, assign_masked_cons_true]
      rw [hred]
      refine ⟨?_, ?_, ?_, ?_⟩
      · rw [List.length_cons, i1, List.length_cons]
      · intro w hwj hwv
        have hwv1 : w ≠ v := fun h => hwv (h ▸ List.mem_cons_self _ _)
        have hwvt : w ∉ vt := fun h => hwv (List.mem_cons_of_mem _ h)
        rw [mask_of_cons, mask_of_cons, i2 w hwj hwvt]
        have h1 : (v == w) = false := beq_eq_false_iff_ne.mpr (Ne.symm hwv1)
        have h2 : (m == w) = false := beq_eq_false_iff_ne.mpr (by omega)
        rw [h1, h2]
      · intro x hx
        rcases List.mem_cons.mp hx with rfl | hx'
        · exact Or.inl (List.mem_cons_self _ _)
        · rcases i3 x hx' with h1 | ⟨h1, h2⟩
          · exact Or.inl (List.mem_cons_of_mem _ h1)
          · exact Or.inr ⟨List.mem_cons_of_mem _ h1, h2⟩
      · intro w hw
        have hwms : w ∉ ms := fun h => hw (List.mem_cons_of_mem _ h)
        rw [List.count_cons, List.count_cons, i4 w hwms]
    · have hb : (m == j) = false := beq_eq_false_iff_ne.mpr hm
      have hcount : (m :: ms).count j = ms.count j := by
        rw [List.count_cons]
        simp only [beq_iff_eq]
        split_ifs with h <;> omega
      have hlen' : vs.length = ms.count j := by
        rw [hcount] at hlen
        exact hlen
      obtain ⟨i1, i2, i3, i4⟩ := ih vs hlen'
      have hred : assign_masked (m :: ms) (mask_of (m :: ms) j) vs =
          m :: assign_masked ms (mask_of ms j) vs := by
        rw [mask_of_cons, hb, assign_masked_cons_false]
      rw [hred]
      refine ⟨?_, ?_, ?_, ?_⟩
      · rw [List.length_cons, i1, List.length_cons]
      · intro w hwj hwv
        rw [mask_of_cons, mask_of_cons, i2 w hwj hwv]
      · intro x hx
        rcases List.mem_cons.mp hx with rfl | hx'
        · exact Or.inr ⟨List.mem_cons_self _ _, hm⟩
        · rcases i3 x hx' with h1 | ⟨h1, h2⟩
          · exact Or.inl h1
          · exact Or.inr ⟨List.mem_cons_of_mem _ h1, h2⟩
      · intro w hw
        have hwm : w ≠ m := fun h => hw (h ▸ List.mem_cons_self _ _)
        have hwms : w ∉ ms := fun h => hw (List.mem_cons_of_mem _ h)
        rw [List.count_cons, i4 w hwms]
        simp only [beq_iff_eq]
        split_ifs with h <;> omega

/-! ## The two oracle-calling branches of `split_large` -/

/-- The state the `split_count == 1` branch of `split_large` produces: the
oracle call is logged and the community at the scan position is flagged
monolithic. -/
def Improver.mono_step (s : Improver) (position : Nat) (c : Community) :
    Improver :=
  let s0 : Improver :=
    { s with
      oracle_calls := s.oracle_calls + 1
      split_attempts := s.split_attempts ++
        [{ call := s.oracle_calls, index := c.index, nodes := c.nodes }] }
  { s0 with communities :=
      s0.communities.set position { c with monolithic := true } }

/-- The state the splitting branch of `split_large` produces: the oracle call
is logged, the community at the scan position is removed, its members are
rewritten to the fresh indices the oracle assigned, and the pieces are
added. -/
def Improver.split_step (oracle : Oracle) (s : Improver) (position : Nat)
    (c : Community) : Improver :=
  let assign := oracle s.oracle_calls c.nodes
  let s0 : Improver :=
    { s with
      oracle_calls := s.oracle_calls + 1
      split_attempts := s.split_attempts ++
        [{ call := s.oracle_calls, index := c.index, nodes := c.nodes }] }
  let split_count := list_max assign + 1
  let s1 := s0.remove_at position
  let membership1 := assign_masked s1.membership c.mask
    (assign.map (fun a => a + s1.next_community_index))
  Improver.add_many { s1 with membership := membership1 } split_count

/-- Unfolding of one `split_large` scan step in terms of the two branch
states. -/
theorem split_large_go_succ (oracle : Oracle) (fuel : Nat) (s : Improver)
    (position : Nat) (did_split : Bool) :
    Improver.split_large_go oracle (fuel + 1) s position did_split =
      match s.communities.get? position with
      | none => some (did_split, s)
      | some c =>
        if c.too_large == 0 || c.monolithic then
          Improver.split_large_go oracle fuel s (position + 1) did_split
        else if list_max (oracle s.oracle_calls c.nodes) + 1 == 1 then
          Improver.split_large_go oracle fuel (s.mono_step position c)
            (position + 1) did_split
        else
          Improver.split_large_go oracle fuel
            (s.split_step oracle position c) position true := rfl

theorem map_set_same {A B : Type} (l : List A) (pos : Nat) (a : A) (f : A → B)
    (hget : l.get? pos = some a) (b : A) (hfb : f b = f a) :
    (l.set pos b).map f = l.map f := by
  have hpos : pos < l.length := by
    by_contra hcon
    rw [List.get?_eq_getElem?, List.getElem?_eq_none (by omega)] at hget
    cases hget
  rw [List.map_set]
  apply List.ext_getElem?
  intro n
  by_cases hn : pos = n
  · subst hn
    rw [List.getElem?_set_self (by rw [List.length_map]; exact hpos), hfb,
      List.getElem?_map]
    rw [List.get?_eq_getElem?] at hget
    rw [hget]
    rfl
  · rw [List.getElem?_set_ne hn]

theorem index_nodup_inj (l : List Community)
    (hnodup : (l.map (fun c => c.index)).Nodup) (c d : Community)
    (hc : c ∈ l) (hd : d ∈ l) (hcd : c.index = d.index) : c = d := by
  obtain ⟨i, hi, rfl⟩ := List.mem_iff_getElem.mp hc
  obtain ⟨k, hk, rfl⟩ := List.mem_iff_getElem.mp hd
  have hilen : i < (l.map (fun c => c.index)).length := by
    rw [List.length_map]
    exact hi
  have hklen : k < (l.map (fun c => c.index)).length := by
    rw [List.length_map]
    exact hk
  have heq : (l.map (fun c => c.index))[i] = (l.map (fun c => c.index))[k] := by
    rw [List.getElem_map, List.getElem_map]
    exact hcd
  have hik : i = k := (List.Nodup.getElem_inj_iff hnodup).mp heq
  subst hik
  rfl

/-- A community recorded in the split log is monolithic when live; hence a
live non-monolithic community's index is absent from the log. -/
theorem attempt_index_fresh (s : Improver) (hI : Inv s) (c : Community)
    (hc : c ∈ s.communities) (hmono : c.monolithic = false) :
    c.index ∉ s.split_attempts.map (fun a => a.index) := by
  intro hcon
  obtain ⟨a, ha, hai⟩ := List.mem_map.mp hcon
  have := hI.attempts_mono a ha c hc hai.symm
  rw [hmono] at this
  cases this

theorem mono_step_fixed (s : Improver) (position : Nat) (c : Community) :
    (s.mono_step position c).membership = s.membership ∧
    (s.mono_step position c).next_community_index = s.next_community_index ∧
    (s.mono_step position c).too_few = s.too_few ∧
    (s.mono_step position c).too_small = s.too_small ∧
    (s.mono_step position c).too_large = s.too_large ∧
    (s.mono_step position c).communities =
      s.communities.set position { c with monolithic := true } ∧
    (s.mono_step position c).split_attempts = s.split_attempts ++
      [{ call := s.oracle_calls, index := c.index, nodes := c.nodes }] ∧
    (s.mono_step position c).oracle_calls = s.oracle_calls + 1 :=
  ⟨rfl, rfl, rfl, rfl, rfl, rfl, rfl, rfl⟩

theorem mono_step_spec (s : Improver) (position : Nat) (c : Community)
    (hget : s.communities.get? position = some c) (hmono : c.monolithic = false)
    (hI : Inv s) (hN : NonemptyComms s) :
    Inv (s.mono_step position c) ∧ NonemptyComms (s.mono_step position c) ∧
    SameBounds s (s.mono_step position c) ∧
    total_measure (s.mono_step position c) = total_measure s ∧
    split_measure (s.mono_step position c) (position + 1) =
      split_measure s (position + 1) ∧
    (∀ d ∈ s.communities, d.monolithic = true →
      d ∈ (s.mono_step position c).communities) ∧
    ({ c with monolithic := true } : Community) ∈
      (s.mono_step position c).communities := by
  obtain ⟨hmem, hnext, hfw, hsm, hlg, hcomm, hsa, hoc⟩ := mono_step_fixed s position c
  have hcmem : c ∈ s.communities := List.get?_mem hget
  obtain ⟨hpos, hpg'⟩ := List.get?_eq_some.mp hget
  have hpg : s.communities[position] = c := hpg'
  have hmapidx := map_set_same s.communities position c (fun d => d.index) hget
    { c with monolithic := true } rfl
  have hmapfew := map_set_same s.communities position c (fun d => d.too_few) hget
    { c with monolithic := true } rfl
  have hmapsmall := map_set_same s.communities position c (fun d => d.too_small)
    hget { c with monolithic := true } rfl
  have hmaplarge := map_set_same s.communities position c (fun d => d.too_large)
    hget { c with monolithic := true } rfl
  have hmappow := map_set_same s.communities position c (fun d => 3 ^ d.nodes) hget
    { c with monolithic := true } rfl
  have hcnotin : c ∉ s.communities.set position { c with monolithic := true } := by
    intro hcon
    obtain ⟨i, hi, hie⟩ := List.mem_iff_getElem.mp hcon
    by_cases hip : position = i
    · subst hip
      rw [List.getElem_set_self hi] at hie
      have h2 : ({ c with monolithic := true } : Community).monolithic =
          c.monolithic := congrArg Community.monolithic hie
      rw [hmono] at h2
      cases h2
    · rw [List.getElem_set_ne hip] at hie
      have hi' : i < s.communities.length := by
        rw [List.length_set] at hi
        exact hi
      have hilen : i < (s.communities.map (fun d => d.index)).length := by
        rw [List.length_map]
        exact hi'
      have hplen : position < (s.communities.map (fun d => d.index)).length := by
        rw [List.length_map]
        exact hpos
      have heq : (s.communities.map (fun d => d.index))[i] =
          (s.communities.map (fun d => d.index))[position] := by
        rw [List.getElem_map, List.getElem_map, hie, hpg]
      exact hip ((List.Nodup.getElem_inj_iff hI.index_nodup).mp heq).symm
  refine ⟨?_, ?_, ⟨rfl, rfl, rfl, rfl, rfl, rfl, rfl⟩, ?_, ?_, ?_, ?_⟩
  · refine ⟨hI.sizes_len, ?_, ?_, ?_, ?_, ?_, ?_, ?_, ?_, ?_, ?_, ?_, ?_, ?_, ?_⟩
    · intro d hd
      rw [hcomm] at hd
      rcases List.mem_or_eq_of_mem_set hd with hd' | rfl
      · exact hI.mask_eq d hd'
      · exact hI.mask_eq c hcmem
    · intro d hd
      rw [hcomm] at hd
      rcases List.mem_or_eq_of_mem_set hd with hd' | rfl
      · exact hI.nodes_eq d hd'
      · exact hI.nodes_eq c hcmem
    · intro d hd
      rw [hcomm] at hd
      rcases List.mem_or_eq_of_mem_set hd with hd' | rfl
      · exact hI.size_eq d hd'
      · exact hI.size_eq c hcmem
    · intro d hd
      rw [hcomm] at hd
      rcases List.mem_or_eq_of_mem_set hd with hd' | rfl
      · exact hI.few_eq d hd'
      · exact hI.few_eq c hcmem
    · intro d hd
      rw [hcomm] at hd
      rcases List.mem_or_eq_of_mem_set hd with hd' | rfl
      · exact hI.small_eq d hd'
      · exact hI.small_eq c hcmem
    · intro d hd
      rw [hcomm] at hd
      rcases List.mem_or_eq_of_mem_set hd with hd' | rfl
      · exact hI.large_eq d hd'
      · exact hI.large_eq c hcmem
    · intro d hd
      rw [hcomm] at hd
      rcases List.mem_or_eq_of_mem_set hd with hd' | rfl
      · exact hI.index_lt d hd'
      · exact hI.index_lt c hcmem
    · rw [hcomm, hmapidx]
      exact hI.index_nodup
    · intro v hv
      rw [hcomm, hmapidx]
      exact hI.cover v hv
    · rw [hcomm, hmapfew]
      exact hI.few_total
    · rw [hcomm, hmapsmall]
      exact hI.small_total
    · rw [hcomm, hmaplarge]
      exact hI.large_total
    · intro a ha
      rw [hsa] at ha
      rcases List.mem_append.mp ha with ha' | ha'
      · exact hI.attempts_lt a ha'
      · have : a = { call := s.oracle_calls, index := c.index, nodes := c.nodes } := by
          simpa using ha'
        subst this
        exact hI.index_lt c hcmem
    · intro a ha d hd hdi
      rw [hcomm] at hd
      rcases List.mem_or_eq_of_mem_set hd with hd' | rfl
      · rw [hsa] at ha
        rcases List.mem_append.mp ha with ha' | ha'
        · exact hI.attempts_mono a ha' d hd' hdi
        · have ha2 : a = SplitAttempt.mk s.oracle_calls c.index c.nodes := by
            simpa using ha'
          subst ha2
          have hdc : d = c := index_nodup_inj s.communities hI.index_nodup d c
            hd' hcmem hdi
          subst hdc
          exact absurd hd hcnotin
      · rfl
  · intro d hd
    rw [hcomm] at hd
    rcases List.mem_or_eq_of_mem_set hd with hd' | rfl
    · exact hN d hd'
    · exact hN c hcmem
  · rw [total_measure, total_measure, pow3_sum, pow3_sum, hcomm, hmappow]
  · rw [split_measure, split_measure, hcomm,
      List.drop_set_of_lt _ _ (Nat.lt_succ_self position)]
  · intro d hd hdm
    rw [hcomm]
    obtain ⟨i, hi, rfl⟩ := List.mem_iff_getElem.mp hd
    by_cases hip : position = i
    · subst hip
      rw [hpg] at hdm
      rw [hmono] at hdm
      cases hdm
    · have hi2 : i < (s.communities.set position
          { c with monolithic := true }).length := by
        rw [List.length_set]
        exact hi
      have h3 : (s.communities.set position
          { c with monolithic := true })[i] = s.communities[i] :=
        List.getElem_set_ne hip hi2
      rw [← h3]
      exact List.getElem_mem hi2
  · rw [hcomm]
    have hp2 : position < (s.communities.set position
        { c with monolithic := true }).length := by
      rw [List.length_set]
      exact hpos
    have h4 : (s.communities.set position
        { c with monolithic := true })[position] =
        { c with monolithic := true } := List.getElem_set_self hp2
    have h5 := List.getElem_mem hp2
    rw [h4] at h5
    exact h5

theorem sizes_len_ok_congr (s t : Improver) (hns : t.node_sizes = s.node_sizes)
    (hlen : t.membership.length = s.membership.length)
    (h : sizes_len_ok s) : sizes_len_ok t := by
  rw [sizes_len_ok.eq_def] at h ⊢
  rw [hns, hlen]
  exact h

theorem pow3_sum_perm (l l' : List Community) (h : l.Perm l') :
    pow3_sum l = pow3_sum l' := by
  rw [pow3_sum, pow3_sum]
  exact (h.map _).sum_eq

theorem not_mem_eraseIdx_of_nodup (l : List Community) (pos : Nat) (c : Community)
    (hget : l.get? pos = some c)
    (hnodup : (l.map (fun d => d.index)).Nodup) :
    c ∉ l.eraseIdx pos := by
  intro hcon
  have hperm : l.Perm (c :: l.eraseIdx pos) :=
    perm_cons_eraseIdx l pos c (by rw [← List.get?_eq_getElem?]; exact hget)
  have h2 : ((c :: l.eraseIdx pos).map (fun d => d.index)).Nodup :=
    ((hperm.map (fun d => d.index)).nodup_iff).mp hnodup
  rw [List.map_cons] at h2
  exact (List.nodup_cons.mp h2).1 (List.mem_map.mpr ⟨c, hcon, rfl⟩)

/-- The master lemma for the splitting branch of `split_large`: the invariant,
community nonemptiness and the configuration are preserved, the oracle call is
logged, both termination measures strictly decrease, and monolithic
communities survive. -/
theorem split_step_spec (oracle : Oracle) (s : Improver) (position : Nat)
    (c : Community) (hget : s.communities.get? position = some c)
    (hmono : c.monolithic = false)
    (hk : ¬ list_max (oracle s.oracle_calls c.nodes) + 1 = 1)
    (hI : Inv s) (hN : NonemptyComms s) (hO : OracleOK oracle) :
    Inv (s.split_step oracle position c) ∧
    NonemptyComms (s.split_step oracle position c) ∧
    SameBounds s (s.split_step oracle position c) ∧
    (s.split_step oracle position c).split_attempts = s.split_attempts ++
      [{ call := s.oracle_calls, index := c.index, nodes := c.nodes }] ∧
    total_measure (s.split_step oracle position c) < total_measure s ∧
    split_measure (s.split_step oracle position c) position <
      split_measure s position ∧
    (∀ d ∈ s.communities, d.monolithic = true →
      d ∈ (s.split_step oracle position c).communities) := by
  rw [Improver.split_step]
  set A := oracle s.oracle_calls c.nodes with hA
  set s0 : Improver := { s with
    oracle_calls := s.oracle_calls + 1
    split_attempts := s.split_attempts ++
      [{ call := s.oracle_calls, index := c.index, nodes := c.nodes }] } with hs0
  set T1 := s0.remove_at position with hT1def
  set mem1 := assign_masked T1.membership c.mask
    (A.map (fun a => a + T1.next_community_index)) with hmem1
  set T2 : Improver := { T1 with membership := mem1 } with hT2def
  set k := list_max A + 1 with hkdef
  have hcmem : c ∈ s.communities := List.get?_mem hget
  obtain ⟨hpos, hpg'⟩ := List.get?_eq_some.mp hget
  have hpg : s.communities[position] = c := hpg'
  have hAlen : A.length = c.nodes := (hO s.oracle_calls c.nodes).1
  have hAdc : ∀ i v, v ∈ A → i ≤ v → i ∈ A := (hO s.oracle_calls c.nodes).2
  have hcn1 : 0 < c.nodes := hN c hcmem
  have hAne : A ≠ [] := by
    intro hcon
    rw [hcon] at hAlen
    simp at hAlen
    omega
  have hk2 : 2 ≤ k := by
    rw [hkdef]
    omega
  have hAin : ∀ i, i < k → i ∈ A := by
    intro i hi
    rw [hkdef] at hi
    exact hAdc i (list_max A) (list_max_mem A hAne) (by omega)
  have hvk : ∀ v ∈ A, v < k := by
    intro v hv
    have := list_max_le_of_mem A v hv
    rw [hkdef]
    omega
  obtain ⟨r1, r2, r3, r4, r5⟩ := remove_at_spec s0 position c hget
  obtain ⟨q1, q2, q3, q4, q5, q6, q7, q8, q9, q10⟩ := r5
  have hcmask : c.mask = mask_of s.membership c.index := hI.mask_eq c hcmem
  have hccnt : s.membership.count c.index = c.nodes := by
    rw [← count_true_mask_of, ← hcmask, ← hI.nodes_eq c hcmem]
  have hT1mem : T1.membership = s.membership := q1
  have hT1next : T1.next_community_index = s.next_community_index := q8
  rw [hT1mem, hT1next] at hmem1
  obtain ⟨am1, am2, am3, am4⟩ := assign_masked_spec c.index s.membership
    (A.map (fun a => a + s.next_community_index))
    (by rw [List.length_map, hAlen, hccnt])
  rw [← hcmask, ← hmem1] at am1 am2 am3 am4
  have hvb : ∀ v ∈ s.membership, v < s.next_community_index :=
    fun v hv => mem_values_lt s hI v hv
  have hvals : ∀ v ∈ A.map (fun a => a + s.next_community_index),
      s.next_community_index ≤ v ∧ v < s.next_community_index + k := by
    intro v hv
    obtain ⟨a, ha, rfl⟩ := List.mem_map.mp hv
    have := list_max_le_of_mem A a ha
    rw [hkdef]
    omega
  have hcnotin := not_mem_eraseIdx_of_nodup s.communities position c hget
    hI.index_nodup
  have hT1comm : T1.communities = s.communities.eraseIdx position := r1
  have hperm : s.communities.Perm (c :: s.communities.eraseIdx position) :=
    perm_cons_eraseIdx s.communities position c
      (by rw [← List.get?_eq_getElem?]; exact hget)
  have hsub : List.Sublist (s.communities.eraseIdx position) s.communities :=
    List.eraseIdx_sublist _ _
  have hsubset : ∀ d ∈ s.communities.eraseIdx position, d ∈ s.communities :=
    fun d hd => hsub.subset hd
  have hidxne : ∀ d ∈ s.communities.eraseIdx position, d.index ≠ c.index := by
    intro d hd hcon
    have hdc : d = c := index_nodup_inj s.communities hI.index_nodup d c
      (hsubset d hd) hcmem hcon
    subst hdc
    exact hcnotin hd
  have hmaskpre : ∀ d ∈ s.communities.eraseIdx position,
      mask_of mem1 d.index = mask_of s.membership d.index := by
    intro d hd
    apply am2
    · exact hidxne d hd
    · intro hcon
      have h1 := (hvals _ hcon).1
      have h2 := hI.index_lt d (hsubset d hd)
      omega
  have hT2comm : T2.communities = s.communities.eraseIdx position := hT1comm
  have hT2mem : T2.membership = mem1 := rfl
  have hT2ns : T2.node_sizes = s.node_sizes := q2
  have hT2next : T2.next_community_index = s.next_community_index := q8
  have hT2few : T2.too_few = s.too_few - c.too_few := r2
  have hT2small : T2.too_small = s.too_small - c.too_small := r3
  have hT2large : T2.too_large = s.too_large - c.too_large := r4
  have hT2sa : T2.split_attempts = s.split_attempts ++
      [{ call := s.oracle_calls, index := c.index, nodes := c.nodes }] := q10
  have hT2tgt : T2.target_comm_size = s.target_comm_size := q3
  have hT2max : T2.max_comm_size = s.max_comm_size := q4
  have hT2min : T2.min_comm_size = s.min_comm_size := q5
  have hT2mn : T2.min_comm_nodes = s.min_comm_nodes := q6
  have hT2mcc : T2.must_complete_cover = s.must_complete_cover := q7
  have hsizecongr : ∀ m, T2.community_size m = s.community_size m := by
    intro m
    rw [Improver.community_size, Improver.community_size, hT2ns]
  have hfewsum : (s.communities.map (fun d => d.too_few)).sum =
      c.too_few +
        ((s.communities.eraseIdx position).map (fun d => d.too_few)).sum := by
    have h2 := (hperm.map (fun d => d.too_few)).sum_eq
    rw [List.map_cons, List.sum_cons] at h2
    exact h2
  have hsmallsum : (s.communities.map (fun d => d.too_small)).sum =
      c.too_small +
        ((s.communities.eraseIdx position).map (fun d => d.too_small)).sum := by
    have h2 := (hperm.map (fun d => d.too_small)).sum_eq
    rw [List.map_cons, List.sum_cons] at h2
    exact h2
  have hlargesum : (s.communities.map (fun d => d.too_large)).sum =
      c.too_large +
        ((s.communities.eraseIdx position).map (fun d => d.too_large)).sum := by
    have h2 := (hperm.map (fun d => d.too_large)).sum_eq
    rw [List.map_cons, List.sum_cons] at h2
    exact h2
  have hpre : PreInv T2 := by
    refine ⟨?_, ?_, ?_, ?_, ?_, ?_, ?_, ?_, ?_, ?_, ?_, ?_, ?_, ?_⟩
    · exact sizes_len_ok_congr s T2 hT2ns (by rw [hT2mem, am1]) hI.sizes_len
    · intro d hd
      rw [hT2comm] at hd
      rw [hT2mem, hmaskpre d hd]
      exact hI.mask_eq d (hsubset d hd)
    · intro d hd
      rw [hT2comm] at hd
      exact hI.nodes_eq d (hsubset d hd)
    · intro d hd
      rw [hT2comm] at hd
      rw [hsizecongr]
      exact hI.size_eq d (hsubset d hd)
    · intro d hd
      rw [hT2comm] at hd
      rw [hT2mn]
      exact hI.few_eq d (hsubset d hd)
    · intro d hd
      rw [hT2comm] at hd
      rw [hT2min]
      exact hI.small_eq d (hsubset d hd)
    · intro d hd
      rw [hT2comm] at hd
      rw [hT2max]
      exact hI.large_eq d (hsubset d hd)
    · intro d hd
      rw [hT2comm] at hd
      rw [hT2next]
      exact hI.index_lt d (hsubset d hd)
    · rw [hT2comm]
      exact hI.index_nodup.sublist (hsub.map _)
    · rw [hT2comm, hT2few]
      have h1 := hI.few_total
      omega
    · rw [hT2comm, hT2small]
      have h1 := hI.small_total
      omega
    · rw [hT2comm, hT2large]
      have h1 := hI.large_total
      omega
    · intro a ha
      rw [hT2sa] at ha
      rw [hT2next]
      rcases List.mem_append.mp ha with ha' | ha'
      · exact hI.attempts_lt a ha'
      · have ha2 : a = SplitAttempt.mk s.oracle_calls c.index c.nodes := by
          simpa using ha'
        subst ha2
        exact hI.index_lt c hcmem
    · intro a ha d hd hdi
      rw [hT2sa] at ha
      rw [hT2comm] at hd
      rcases List.mem_append.mp ha with ha' | ha'
      · exact hI.attempts_mono a ha' d (hsubset d hd) hdi
      · have ha2 : a = SplitAttempt.mk s.oracle_calls c.index c.nodes := by
          simpa using ha'
        subst ha2
        exact absurd hdi (hidxne d hd)
  have hcover : ∀ v ∈ T2.membership,
      v ∈ T2.communities.map (fun d => d.index) ∨
        (T2.next_community_index ≤ v ∧ v < T2.next_community_index + k) := by
    intro v hv
    rw [hT2mem] at hv
    rcases am3 v hv with h1 | ⟨h1, h2⟩
    · right
      rw [hT2next]
      exact hvals v h1
    · left
      rw [hT2comm]
      have h3 := hI.cover v h1
      have h4 : v ∈ (c :: s.communities.eraseIdx position).map
          (fun d => d.index) := (hperm.map (fun d => d.index)).mem_iff.mp h3
      rw [List.map_cons] at h4
      rcases List.mem_cons.mp h4 with h5 | h5
      · exact absurd h5 h2
      · exact h5
  have hInvT := Inv_add_many T2 k hpre hcover
  have husedT : ∀ i, i < k → T2.next_community_index + i ∈ T2.membership := by
    intro i hi
    rw [hT2mem, hT2next]
    have h1 : mem1.count (s.next_community_index + i) =
        (A.map (fun a => a + s.next_community_index)).count
          (s.next_community_index + i) := by
      apply am4
      intro hcon
      have := hvb _ hcon
      omega
    rw [Nat.add_comm s.next_community_index i, count_map_add_right] at h1
    have h2 : 0 < A.count i := List.count_pos_iff.mpr (hAin i hi)
    rw [Nat.add_comm s.next_community_index i]
    apply List.count_pos_iff.mp
    omega
  have hNET := Nonempty_add_many T2 k
    (fun d hd => hN d (by rw [hT2comm] at hd; exact hsubset d hd)) husedT
  obtain ⟨ac, an, af, asm', al⟩ := add_many_spec k T2
  obtain ⟨am_1, am_2, am_3, am_4, am_5, am_6, am_7, am_8, am_9⟩ :=
    add_many_fixed T2 k
  have hfreshnodes : ∀ i, i < k →
      (T2.fresh_community (T2.next_community_index + i)).nodes = A.count i := by
    intro i hi
    have h0 : (T2.fresh_community (T2.next_community_index + i)).nodes =
        count_true (mask_of T2.membership (T2.next_community_index + i)) := rfl
    rw [h0, count_true_mask_of, hT2mem, hT2next]
    have h1 : mem1.count (s.next_community_index + i) =
        (A.map (fun a => a + s.next_community_index)).count
          (s.next_community_index + i) := by
      apply am4
      intro hcon
      have := hvb _ hcon
      omega
    rw [h1, Nat.add_comm s.next_community_index i, count_map_add_right]
  set F := (List.range k).map
    (fun i => T2.fresh_community (T2.next_community_index + i)) with hF
  have hFnodes : F.map (fun d => d.nodes) =
      (List.range k).map (fun i => A.count i) := by
    rw [hF, List.map_map]
    apply List.map_congr_left
    intro i hi
    simp only [Function.comp]
    exact hfreshnodes i (List.mem_range.mp hi)
  have hFsum : (F.map (fun d => d.nodes)).sum = c.nodes := by
    rw [hFnodes, sum_counts_eq_length A k hvk, hAlen]
  have hFpos : ∀ d ∈ F, 1 ≤ d.nodes := by
    intro d hd
    rw [hF] at hd
    obtain ⟨i, hi, rfl⟩ := List.mem_map.mp hd
    rw [hfreshnodes i (List.mem_range.mp hi)]
    exact List.count_pos_iff.mpr (hAin i (List.mem_range.mp hi))
  have hFlen : 2 ≤ F.length := by
    rw [hF, List.length_map, List.length_range]
    exact hk2
  have hFlt : pow3_sum F < 3 ^ c.nodes := by
    have h2 := pow3_sum_lt F hFpos hFlen
    rw [hFsum] at h2
    exact h2
  have hpowsum : pow3_sum s.communities =
      3 ^ c.nodes + pow3_sum (s.communities.eraseIdx position) := by
    have h2 : pow3_sum (c :: s.communities.eraseIdx position) =
        3 ^ c.nodes + pow3_sum (s.communities.eraseIdx position) := by
      rw [pow3_sum, pow3_sum, List.map_cons, List.sum_cons]
    rw [pow3_sum_perm _ _ hperm, h2]
  refine ⟨hInvT, hNET, ?_, ?_, ?_, ?_, ?_⟩
  · refine ⟨?_, ?_, ?_, ?_, ?_, ?_, ?_⟩
    · rw [am_2, hT2ns]
    · rw [am_3]
      exact hT2tgt
    · rw [am_4]
      exact hT2max
    · rw [am_5]
      exact hT2min
    · rw [am_6]
      exact hT2mn
    · rw [am_7]
      exact hT2mcc
    · rw [am_1, hT2mem, am1]
  · rw [am_9, hT2sa]
  · rw [total_measure, total_measure, ac, hT2comm, pow3_sum_append, hpowsum]
    omega
  · rw [split_measure, split_measure, ac, hT2comm]
    have hlt : (s.communities.take position).length = position := by
      rw [List.length_take]
      omega
    have hdropapp : (s.communities.eraseIdx position ++ F).drop position =
        s.communities.drop (position + 1) ++ F := by
      rw [List.eraseIdx_eq_take_drop_succ, List.append_assoc]
      rw [List.drop_left' hlt]
    rw [hdropapp, pow3_sum_append]
    have hdrop : s.communities.drop position =
        c :: s.communities.drop (position + 1) := by
      rw [List.drop_eq_getElem_cons hpos, hpg]
    rw [hdrop]
    have h2 : pow3_sum (c :: s.communities.drop (position + 1)) =
        3 ^ c.nodes + pow3_sum (s.communities.drop (position + 1)) := by
      rw [pow3_sum, pow3_sum, List.map_cons, List.sum_cons]
    rw [h2]
    omega
  · intro d hd hdm
    rw [ac, hT2comm]
    refine List.mem_append.mpr (Or.inl ?_)
    have h4 : d ∈ c :: s.communities.eraseIdx position := hperm.mem_iff.mp hd
    rcases List.mem_cons.mp h4 with rfl | h5
    · rw [hmono] at hdm
      cases hdm
    · exact h5

theorem split_large_go_none_eq (oracle : Oracle) (fuel : Nat) (s : Improver)
    (position : Nat) (d : Bool)
    (hgp : s.communities.get? position = none) :
    Improver.split_large_go oracle (fuel + 1) s position d = some (d, s) := by
  rw [split_large_go_succ, hgp]

theorem split_large_go_skip_eq (oracle : Oracle) (fuel : Nat) (s : Improver)
    (position : Nat) (d : Bool) (c : Community)
    (hgp : s.communities.get? position = some c)
    (hskip : (c.too_large == 0 || c.monolithic) = true) :
    Improver.split_large_go oracle (fuel + 1) s position d =
      Improver.split_large_go oracle fuel s (position + 1) d := by
  rw [split_large_go_succ, hgp]
  show (if c.too_large == 0 || c.monolithic then
      Improver.split_large_go oracle fuel s (position + 1) d
    else if list_max (oracle s.oracle_calls c.nodes) + 1 == 1 then
      Improver.split_large_go oracle fuel (s.mono_step position c)
        (position + 1) d
    else Improver.split_large_go oracle fuel (s.split_step oracle position c)
      position true) = Improver.split_large_go oracle fuel s (position + 1) d
  rw [if_pos hskip]

theorem split_large_go_one_eq (oracle : Oracle) (fuel : Nat) (s : Improver)
    (position : Nat) (d : Bool) (c : Community)
    (hgp : s.communities.get? position = some c)
    (hskip : (c.too_large == 0 || c.monolithic) = false)
    (hone : (list_max (oracle s.oracle_calls c.nodes) + 1 == 1) = true) :
    Improver.split_large_go oracle (fuel + 1) s position d =
      Improver.split_large_go oracle fuel (s.mono_step position c)
        (position + 1) d := by
  rw [split_large_go_succ, hgp]
  show (if c.too_large == 0 || c.monolithic then
      Improver.split_large_go oracle fuel s (position + 1) d
    else if list_max (oracle s.oracle_calls c.nodes) + 1 == 1 then
      Improver.split_large_go oracle fuel (s.mono_step position c)
        (position + 1) d
    else Improver.split_large_go oracle fuel (s.split_step oracle position c)
      position true) =
    Improver.split_large_go oracle fuel (s.mono_step position c)
      (position + 1) d
  rw [if_neg (by rw [hskip]; simp), if_pos hone]

theorem split_large_go_split_eq (oracle : Oracle) (fuel : Nat) (s : Improver)
    (position : Nat) (d : Bool) (c : Community)
    (hgp : s.communities.get? position = some c)
    (hskip : (c.too_large == 0 || c.monolithic) = false)
    (hone : (list_max (oracle s.oracle_calls c.nodes) + 1 == 1) = false) :
    Improver.split_large_go oracle (fuel + 1) s position d =
      Improver.split_large_go oracle fuel (s.split_step oracle position c)
        position true := by
  rw [split_large_go_succ, hgp]
  show (if c.too_large == 0 || c.monolithic then
      Improver.split_large_go oracle fuel s (position + 1) d
    else if list_max (oracle s.oracle_calls c.nodes) + 1 == 1 then
      Improver.split_large_go oracle fuel (s.mono_step position c)
        (position + 1) d
    else Improver.split_large_go oracle fuel (s.split_step oracle position c)
      position true) =
    Improver.split_large_go oracle fuel (s.split_step oracle position c)
      position true
  rw [if_neg (by rw [hskip]; simp), if_neg (by rw [hone]; simp)]

theorem split_large_go_mono (oracle : Oracle) :
    ∀ fuel fuel' (s : Improver) (position : Nat) (d : Bool) (r : Bool × Improver),
      fuel ≤ fuel' →
      Improver.split_large_go oracle fuel s position d = some r →
      Improver.split_large_go oracle fuel' s position d = some r := by
  intro fuel
  induction fuel with
  | zero =>
    intro fuel' s pos d r _ h
    have h0 : Improver.split_large_go oracle 0 s pos d = none := rfl
    rw [h0] at h
    cases h
  | succ n ih =>
    intro fuel' s pos d r hle h
    obtain ⟨m, rfl⟩ : ∃ m, fuel' = m + 1 := ⟨fuel' - 1, by omega⟩
    cases hgp : s.communities.get? pos with
    | none =>
      rw [split_large_go_none_eq oracle n s pos d hgp] at h
      rw [split_large_go_none_eq oracle m s pos d hgp]
      exact h
    | some c =>
      by_cases hskip : (c.too_large == 0 || c.monolithic) = true
      · rw [split_large_go_skip_eq oracle n s pos d c hgp hskip] at h
        rw [split_large_go_skip_eq oracle m s pos d c hgp hskip]
        exact ih m s (pos + 1) d r (by omega) h
      · have hskipf := Bool.eq_false_of_ne_true hskip
        by_cases hone : (list_max (oracle s.oracle_calls c.nodes) + 1 == 1) = true
        · rw [split_large_go_one_eq oracle n s pos d c hgp hskipf hone] at h
          rw [split_large_go_one_eq oracle m s pos d c hgp hskipf hone]
          exact ih m (s.mono_step pos c) (pos + 1) d r (by omega) h
        · have honef := Bool.eq_false_of_ne_true hone
          rw [split_large_go_split_eq oracle n s pos d c hgp hskipf honef] at h
          rw [split_large_go_split_eq oracle m s pos d c hgp hskipf honef]
          exact ih m (s.split_step oracle pos c) pos true r (by omega) h

theorem take_set_eq {A : Type} (l : List A) (n : Nat) (a : A) :
    (l.set n a).take n = l.take n := by
  apply List.ext_getElem?
  intro i
  by_cases hi : i < n
  · rw [List.getElem?_take_of_lt hi, List.getElem?_take_of_lt hi,
      List.getElem?_set_ne (by omega)]
  · rw [List.getElem?_take_eq_none (by omega),
      List.getElem?_take_eq_none (by omega)]

theorem getElem?_eq_of_take_succ_eq {A : Type} (l₁ l₂ : List A) (pos : Nat)
    (h : l₁.take (pos + 1) = l₂.take (pos + 1)) : l₁[pos]? = l₂[pos]? := by
  have h2 : (l₁.take (pos + 1))[pos]? = (l₂.take (pos + 1))[pos]? := by rw [h]
  rw [List.getElem?_take_of_lt (Nat.lt_succ_self pos),
    List.getElem?_take_of_lt (Nat.lt_succ_self pos)] at h2
  exact h2

theorem take_eq_of_take_succ_eq {A : Type} (l₁ l₂ : List A) (pos : Nat)
    (h : l₁.take (pos + 1) = l₂.take (pos + 1)) : l₁.take pos = l₂.take pos := by
  have h2 : (l₁.take (pos + 1)).take pos = (l₂.take (pos + 1)).take pos := by
    rw [h]
  rw [List.take_take, List.take_take, Nat.min_eq_left (Nat.le_succ pos)] at h2
  exact h2

/-- The scan of `split_large` preserves the invariant, nonemptiness and the
configuration, extends the ghost log by attempts whose single-community
results leave a live monolithic community carrying the attempted index, keeps
monolithic communities, keeps logged indices distinct, never increases the
total measure (strictly decreasing it whenever it newly reports a split),
only ever raises the `did_split` flag, and when it reports no split it leaves
the already-scanned prefix untouched and every remaining too-large community
monolithic. -/
theorem split_large_go_props (oracle : Oracle) (hO : OracleOK oracle) :
    ∀ (fuel : Nat) (s : Improver) (position : Nat) (d b : Bool) (t : Improver),
      Inv s → NonemptyComms s →
      Improver.split_large_go oracle fuel s position d = some (b, t) →
      Inv t ∧ NonemptyComms t ∧ SameBounds s t ∧
      (∃ new, t.split_attempts = s.split_attempts ++ new ∧
        (∀ a ∈ new, list_max (oracle a.call a.nodes) + 1 = 1 →
          ∃ e ∈ t.communities, e.index = a.index ∧ e.monolithic = true ∧
            e.nodes = a.nodes)) ∧
      (∀ e ∈ s.communities, e.monolithic = true → e ∈ t.communities) ∧
      ((s.split_attempts.map (fun a => a.index)).Nodup →
        (t.split_attempts.map (fun a => a.index)).Nodup) ∧
      total_measure t ≤ total_measure s ∧
      (d = false → b = true → total_measure t < total_measure s) ∧
      (d = true → b = true) ∧
      (b = false → t.communities.length = s.communities.length ∧
        t.communities.take position = s.communities.take position ∧
        ∀ e ∈ t.communities.drop position, e.too_large ≠ 0 →
          e.monolithic = true) := by
  intro fuel
  induction fuel with
  | zero =>
    intro s pos d b t _ _ hrun
    have h0 : Improver.split_large_go oracle 0 s pos d = none := rfl
    rw [h0] at hrun
    cases hrun
  | succ n ih =>
    intro s pos d b t hI hN hrun
    cases hgp : s.communities.get? pos with
    | none =>
      rw [split_large_go_none_eq oracle n s pos d hgp] at hrun
      injection hrun with h2
      injection h2 with h3 h4
      subst h3
      subst h4
      refine ⟨hI, hN, SameBounds_rfl s, ⟨[], by simp, by simp⟩,
        fun e he _ => he, fun h => h, le_refl _, ?_, fun h => h, ?_⟩
      · intro h1 h2
        rw [h1] at h2
        cases h2
      · intro _
        refine ⟨rfl, rfl, ?_⟩
        intro e he
        rw [List.drop_eq_nil_iff.mpr (List.get?_eq_none.mp hgp)] at he
        cases he
    | some c =>
      obtain ⟨hpos, hpg'⟩ := List.get?_eq_some.mp hgp
      have hpg : s.communities[pos] = c := hpg'
      by_cases hskip : (c.too_large == 0 || c.monolithic) = true
      · rw [split_large_go_skip_eq oracle n s pos d c hgp hskip] at hrun
        obtain ⟨p1, p2, p3, p4, p5, p6, p7, p8, p9, p10⟩ :=
          ih s (pos + 1) d b t hI hN hrun
        refine ⟨p1, p2, p3, p4, p5, p6, p7, p8, p9, ?_⟩
        intro hb
        obtain ⟨w1, w2, w3⟩ := p10 hb
        refine ⟨w1, take_eq_of_take_succ_eq _ _ pos w2, ?_⟩
        intro e he
        have hpos_t : pos < t.communities.length := by
          rw [w1]
          exact hpos
        have hgt : t.communities[pos]? = s.communities[pos]? :=
          getElem?_eq_of_take_succ_eq _ _ pos w2
        have hgt2 : t.communities[pos] = c := by
          rw [List.getElem?_eq_getElem hpos_t,
            List.getElem?_eq_getElem hpos, hpg] at hgt
          injection hgt
        have hdropt : t.communities.drop pos = c :: t.communities.drop (pos + 1) := by
          rw [List.drop_eq_getElem_cons hpos_t, hgt2]
        rw [hdropt] at he
        simp only [Bool.or_eq_true, beq_iff_eq] at hskip
        rcases List.mem_cons.mp he with rfl | he'
        · intro hne
          rcases hskip with h | h
          · exact absurd h hne
          · exact h
        · exact w3 e he'
      · have hskipf := Bool.eq_false_of_ne_true hskip
        obtain ⟨hlf, hcmono⟩ : (c.too_large == 0) = false ∧ c.monolithic = false :=
          Bool.or_eq_false_iff.mp hskipf
        by_cases hone : (list_max (oracle s.oracle_calls c.nodes) + 1 == 1) = true
        · rw [split_large_go_one_eq oracle n s pos d c hgp hskipf hone] at hrun
          obtain ⟨mInv, mNE, mSB, mTot, mSpl, mPres, mFlag⟩ :=
            mono_step_spec s pos c hgp hcmono hI hN
          obtain ⟨_, _, _, _, _, mComm, mLog, _⟩ := mono_step_fixed s pos c
          obtain ⟨p1, p2, p3, p4, p5, p6, p7, p8, p9, p10⟩ :=
            ih (s.mono_step pos c) (pos + 1) d b t mInv mNE hrun
          obtain ⟨new', hnew', hnewp'⟩ := p4
          have hfresh : c.index ∉ s.split_attempts.map (fun a => a.index) :=
            attempt_index_fresh s hI c (List.get?_mem hgp) hcmono
          refine ⟨p1, p2, SameBounds_trans mSB p3, ?_, ?_, ?_, ?_, ?_, p9, ?_⟩
          · refine ⟨[SplitAttempt.mk s.oracle_calls c.index c.nodes] ++ new',
              ?_, ?_⟩
            · rw [hnew', mLog, List.append_assoc]
            · intro a ha hone2
              rcases List.mem_append.mp ha with ha' | ha'
              · have ha2 : a = SplitAttempt.mk s.oracle_calls c.index c.nodes := by
                  simpa using ha'
                subst ha2
                refine ⟨{ c with monolithic := true }, ?_, rfl, rfl, rfl⟩
                exact p5 _ mFlag rfl
              · exact hnewp' a ha' hone2
          · intro e he hm
            exact p5 e (mPres e he hm) hm
          · intro hnd
            apply p6
            rw [mLog, List.map_append, List.nodup_append]
            refine ⟨hnd, by simp, ?_⟩
            intro x hx hx2
            have hx3 : x = c.index := by simpa using hx2
            subst hx3
            exact hfresh hx
          · exact le_trans p7 (le_of_eq mTot)
          · intro h1 h2
            have h3 := p8 h1 h2
            rw [mTot] at h3
            exact h3
          · intro hb
            obtain ⟨w1, w2, w3⟩ := p10 hb
            have hm1 : (s.mono_step pos c).communities.length =
                s.communities.length := by
              rw [mComm, List.length_set]
            refine ⟨w1.trans hm1, ?_, ?_⟩
            · have w2' := take_eq_of_take_succ_eq _ _ pos w2
              rw [w2', mComm, take_set_eq]
            · intro e he
              have hpos_t : pos < t.communities.length := by
                rw [w1, hm1]
                exact hpos
              have hgt : t.communities[pos]? =
                  (s.mono_step pos c).communities[pos]? :=
                getElem?_eq_of_take_succ_eq _ _ pos w2
              have hset : (s.mono_step pos c).communities[pos]? =
                  some { c with monolithic := true } := by
                rw [mComm]
                exact List.getElem?_set_self hpos
              have hgt2 : t.communities[pos] = { c with monolithic := true } := by
                rw [List.getElem?_eq_getElem hpos_t, hset] at hgt
                injection hgt
              have hdropt : t.communities.drop pos =
                  { c with monolithic := true } :: t.communities.drop (pos + 1) := by
                rw [List.drop_eq_getElem_cons hpos_t, hgt2]
              rw [hdropt] at he
              rcases List.mem_cons.mp he with rfl | he'
              · intro _
                rfl
              · exact w3 e he'
        · have honef := Bool.eq_false_of_ne_true hone
          rw [split_large_go_split_eq oracle n s pos d c hgp hskipf honef] at hrun
          have hkne : ¬ list_max (oracle s.oracle_calls c.nodes) + 1 = 1 :=
            beq_eq_false_iff_ne.mp honef
          obtain ⟨sInv, sNE, sSB, sLog, sTot, sSpl, sPres⟩ :=
            split_step_spec oracle s pos c hgp hcmono hkne hI hN hO
          obtain ⟨p1, p2, p3, p4, p5, p6, p7, p8, p9, p10⟩ :=
            ih (s.split_step oracle pos c) pos true b t sInv sNE hrun
          obtain ⟨new', hnew', hnewp'⟩ := p4
          have hfresh : c.index ∉ s.split_attempts.map (fun a => a.index) :=
            attempt_index_fresh s hI c (List.get?_mem hgp) hcmono
          have hb : b = true := p9 rfl
          refine ⟨p1, p2, SameBounds_trans sSB p3, ?_, ?_, ?_, ?_, ?_, fun _ => hb, ?_⟩
          · refine ⟨[SplitAttempt.mk s.oracle_calls c.index c.nodes] ++ new',
              ?_, ?_⟩
            · rw [hnew', sLog, List.append_assoc]
            · intro a ha hone2
              rcases List.mem_append.mp ha with ha' | ha'
              · have ha2 : a = SplitAttempt.mk s.oracle_calls c.index c.nodes := by
                  simpa using ha'
                subst ha2
                exact absurd hone2 hkne
              · exact hnewp' a ha' hone2
          · intro e he hm
            exact p5 e (sPres e he hm) hm
          · intro hnd
            apply p6
            rw [sLog, List.map_append, List.nodup_append]
            refine ⟨hnd, by simp, ?_⟩
            intro x hx hx2
            have hx3 : x = c.index := by simpa using hx2
            subst hx3
            exact hfresh hx
          · exact le_trans p7 (le_of_lt sTot)
          · intro _ _
            exact lt_of_le_of_lt p7 sTot
          · intro hbf
            rw [hbf] at hb
            cases hb

/-- Enough fuel always makes the `split_large` scan return: every step
strictly decreases the measure of the unscanned suffix. -/
theorem split_large_go_exists (oracle : Oracle) (hO : OracleOK oracle) :
    ∀ (n : Nat) (s : Improver) (position : Nat) (d : Bool),
      split_measure s position = n → Inv s → NonemptyComms s →
      ∃ fuel r, Improver.split_large_go oracle fuel s position d = some r := by
  intro n
  induction n using Nat.strong_induction_on with
  | _ n ih =>
  intro s pos d hn hI hN
  cases hgp : s.communities.get? pos with
  | none => exact ⟨1, (d, s), split_large_go_none_eq oracle 0 s pos d hgp⟩
  | some c =>
    obtain ⟨hpos, hpg'⟩ := List.get?_eq_some.mp hgp
    have hpg : s.communities[pos] = c := hpg'
    have hdrop : s.communities.drop pos = c :: s.communities.drop (pos + 1) := by
      rw [List.drop_eq_getElem_cons hpos, hpg]
    have h2 : pow3_sum (c :: s.communities.drop (pos + 1)) =
        3 ^ c.nodes + pow3_sum (s.communities.drop (pos + 1)) := by
      rw [pow3_sum, pow3_sum, List.map_cons, List.sum_cons]
    have h3 : 0 < 3 ^ c.nodes := pow_pos (by norm_num) c.nodes
    have hmdrop : split_measure s (pos + 1) < split_measure s pos := by
      rw [split_measure, split_measure, hdrop, h2]
      omega
    by_cases hskip : (c.too_large == 0 || c.monolithic) = true
    · obtain ⟨fuel, r, hr⟩ := ih (split_measure s (pos + 1)) (by omega) s
        (pos + 1) d rfl hI hN
      exact ⟨fuel + 1, r,
        by rw [split_large_go_skip_eq oracle fuel s pos d c hgp hskip]; exact hr⟩
    · have hskipf := Bool.eq_false_of_ne_true hskip
      obtain ⟨hlf, hcmono⟩ := Bool.or_eq_false_iff.mp hskipf
      by_cases hone : (list_max (oracle s.oracle_calls c.nodes) + 1 == 1) = true
      · obtain ⟨mInv, mNE, _, _, mSpl, _, _⟩ :=
          mono_step_spec s pos c hgp hcmono hI hN
        have hlt : split_measure (s.mono_step pos c) (pos + 1) < n := by
          rw [mSpl]
          omega
        obtain ⟨fuel, r, hr⟩ := ih (split_measure (s.mono_step pos c) (pos + 1))
          hlt (s.mono_step pos c) (pos + 1) d rfl mInv mNE
        exact ⟨fuel + 1, r,
          by rw [split_large_go_one_eq oracle fuel s pos d c hgp hskipf hone]
             exact hr⟩
      · have honef := Bool.eq_false_of_ne_true hone
        have hkne : ¬ list_max (oracle s.oracle_calls c.nodes) + 1 = 1 :=
          beq_eq_false_iff_ne.mp honef
        obtain ⟨sInv, sNE, _, _, _, sSpl, _⟩ :=
          split_step_spec oracle s pos c hgp hcmono hkne hI hN hO
        have hlt : split_measure (s.split_step oracle pos c) pos < n := by
          omega
        obtain ⟨fuel, r, hr⟩ := ih (split_measure (s.split_step oracle pos c) pos)
          hlt (s.split_step oracle pos c) pos true rfl sInv sNE
        exact ⟨fuel + 1, r,
          by rw [split_large_go_split_eq oracle fuel s pos d c hgp hskipf honef]
             exact hr⟩

/-- Unfolding of the split loop at nonzero fuel. -/
theorem split_loop_succ (oracle : Oracle) (fuel : Nat) (s : Improver) (d : Bool) :
    Improver.split_loop oracle (fuel + 1) s d =
      if s.too_large > 0 then
        (Improver.split_large oracle fuel s).bind fun r =>
          if r.1 then Improver.split_loop oracle fuel r.2 true
          else some (d, r.2)
      else some (d, s) := rfl

theorem split_loop_mono (oracle : Oracle) :
    ∀ fuel fuel' (s : Improver) (d : Bool) (r : Bool × Improver), fuel ≤ fuel' →
      Improver.split_loop oracle fuel s d = some r →
      Improver.split_loop oracle fuel' s d = some r := by
  intro fuel
  induction fuel with
  | zero =>
    intro fuel' s d r _ h
    have h0 : Improver.split_loop oracle 0 s d = none := rfl
    rw [h0] at h
    cases h
  | succ n ih =>
    intro fuel' s d r hle h
    obtain ⟨m, rfl⟩ : ∃ m, fuel' = m + 1 := ⟨fuel' - 1, by omega⟩
    rw [split_loop_succ] at h ⊢
    by_cases hc : s.too_large > 0
    · rw [if_pos hc] at h ⊢
      cases hsl : Improver.split_large oracle n s with
      | none =>
        rw [hsl] at h
        simp at h
      | some rr =>
        rw [hsl] at h
        have hsl' : Improver.split_large oracle m s = some rr :=
          split_large_go_mono oracle n m s 0 false rr (by omega) hsl
        rw [hsl']
        have h2 : (if rr.1 = true then Improver.split_loop oracle n rr.2 true
            else some (d, rr.2)) = some r := h
        show (if rr.1 = true then Improver.split_loop oracle m rr.2 true
          else some (d, rr.2)) = some r
        by_cases hrr : rr.1 = true
        · rw [if_pos hrr] at h2 ⊢
          exact ih m rr.2 true r (by omega) h2
        · rw [if_neg hrr] at h2 ⊢
          exact h2
    · rw [if_neg hc] at h ⊢
      exact h

/-- The split loop terminates: each pass that reports a split strictly
decreases the total measure. -/
theorem split_loop_exists (oracle : Oracle) (hO : OracleOK oracle) :
    ∀ (n : Nat) (s : Improver) (d : Bool), total_measure s = n → Inv s →
      NonemptyComms s →
      ∃ fuel r, Improver.split_loop oracle fuel s d = some r ∧ Inv r.2 ∧
        NonemptyComms r.2 ∧ SameBounds s r.2 := by
  intro n
  induction n using Nat.strong_induction_on with
  | _ n ih =>
  intro s d hn hI hN
  by_cases hc : s.too_large > 0
  · obtain ⟨fuel1, r1, hr1⟩ := split_large_go_exists oracle hO
      (split_measure s 0) s 0 false rfl hI hN
    obtain ⟨b1, t1⟩ := r1
    obtain ⟨p1, p2, p3, _, _, _, _, p8, _, _⟩ :=
      split_large_go_props oracle hO fuel1 s 0 false b1 t1 hI hN hr1
    by_cases hb1 : b1 = true
    · have hlt : total_measure t1 < n := by
        have := p8 rfl hb1
        omega
      obtain ⟨fuel2, r2, hr2, q1, q2, q3⟩ := ih (total_measure t1) hlt t1 true
        rfl p1 p2
      refine ⟨max fuel1 fuel2 + 1, r2, ?_, q1, q2, SameBounds_trans p3 q3⟩
      rw [split_loop_succ, if_pos hc]
      have hsl : Improver.split_large oracle (max fuel1 fuel2) s = some (b1, t1) :=
        split_large_go_mono oracle fuel1 (max fuel1 fuel2) s 0 false (b1, t1)
          (Nat.le_max_left _ _) hr1
      rw [hsl]
      show (if b1 = true then Improver.split_loop oracle (max fuel1 fuel2) t1 true
        else some (d, t1)) = some r2
      rw [if_pos hb1]
      exact split_loop_mono oracle fuel2 (max fuel1 fuel2) t1 true r2
        (Nat.le_max_right _ _) hr2
    · refine ⟨fuel1 + 1, (d, t1), ?_, p1, p2, p3⟩
      rw [split_loop_succ, if_pos hc]
      have hsl : Improver.split_large oracle fuel1 s = some (b1, t1) := hr1
      rw [hsl]
      show (if b1 = true then Improver.split_loop oracle fuel1 t1 true
        else some (d, t1)) = some (d, t1)
      rw [if_neg hb1]
  · exact ⟨1, (d, s), by rw [split_loop_succ, if_neg hc], hI, hN,
      SameBounds_rfl s⟩

theorem merge_loop_mono (oracle : Oracle) :
    ∀ fuel fuel' (s t : Improver), fuel ≤ fuel' →
      Improver.merge_loop oracle fuel s = some t →
      Improver.merge_loop oracle fuel' s = some t := by
  intro fuel
  induction fuel with
  | zero =>
    intro fuel' s t _ h
    have h0 : Improver.merge_loop oracle 0 s = none := rfl
    rw [h0] at h
    cases h
  | succ n ih =>
    intro fuel' s t hle h
    obtain ⟨m, rfl⟩ : ∃ m, fuel' = m + 1 := ⟨fuel' - 1, by omega⟩
    rw [merge_loop_succ] at h ⊢
    by_cases hc : (s.too_few > 0 || s.too_small > 0) = true
    · rw [if_pos hc] at h ⊢
      by_cases hr : (Improver.merge_few_or_small oracle s).1 = true
      · rw [if_pos hr] at h ⊢
        exact ih m _ t (by omega) h
      · rw [if_neg hr] at h ⊢
        exact h
    · rw [if_neg hc] at h ⊢
      exact h

/-- Unfolding of `improve_body`. -/
theorem improve_body_eq (oracle : Oracle) (fuel : Nat) (s : Improver) :
    Improver.improve_body oracle fuel s =
      match s.max_comm_size with
      | none => some s
      | some _ =>
        (Improver.split_loop oracle fuel s false).bind fun r =>
          if r.1 && s.min_comm_size.isSome then
            Improver.merge_loop oracle fuel r.2
          else some r.2 := rfl

theorem improve_body_mono (oracle : Oracle) (fuel fuel' : Nat) (s t : Improver)
    (hle : fuel ≤ fuel')
    (h : Improver.improve_body oracle fuel s = some t) :
    Improver.improve_body oracle fuel' s = some t := by
  cases hmax : s.max_comm_size with
  | none =>
    rw [improve_body_eq, hmax] at h ⊢
    exact h
  | some mx =>
    rw [improve_body_eq, hmax] at h
    rw [improve_body_eq, hmax]
    have h2 : (Improver.split_loop oracle fuel s false).bind
        (fun r => if r.1 && s.min_comm_size.isSome then
          Improver.merge_loop oracle fuel r.2 else some r.2) = some t := h
    show (Improver.split_loop oracle fuel' s false).bind
      (fun r => if r.1 && s.min_comm_size.isSome then
        Improver.merge_loop oracle fuel' r.2 else some r.2) = some t
    cases hsl : Improver.split_loop oracle fuel s false with
    | none =>
      rw [hsl] at h2
      simp at h2
    | some rr =>
      rw [hsl] at h2
      rw [split_loop_mono oracle fuel fuel' s false rr hle hsl]
      have h3 : (if (rr.1 && s.min_comm_size.isSome) = true then
          Improver.merge_loop oracle fuel rr.2 else some rr.2) = some t := h2
      show (if (rr.1 && s.min_comm_size.isSome) = true then
        Improver.merge_loop oracle fuel' rr.2 else some rr.2) = some t
      by_cases hcc : (rr.1 && s.min_comm_size.isSome) = true
      · rw [if_pos hcc] at h3 ⊢
        exact merge_loop_mono oracle fuel fuel' rr.2 t hle h3
      · rw [if_neg hcc] at h3 ⊢
        exact h3

theorem improve_body_exists (oracle : Oracle) (hO : OracleOK oracle)
    (s : Improver) (hI : Inv s) (hN : NonemptyComms s) :
    ∃ fuel t, Improver.improve_body oracle fuel s = some t ∧ Inv t ∧
      NonemptyComms t ∧ SameBounds s t := by
  cases hmax : s.max_comm_size with
  | none =>
    refine ⟨0, s, ?_, hI, hN, SameBounds_rfl s⟩
    rw [improve_body_eq, hmax]
  | some mx =>
    obtain ⟨fuel1, r, hr, q1, q2, q3⟩ := split_loop_exists oracle hO
      (total_measure s) s false rfl hI hN
    by_cases hcc : (r.1 && s.min_comm_size.isSome) = true
    · obtain ⟨fuel2, t, e1, e2, e3, _, _, e6, _⟩ := merge_loop_exists oracle hO
        r.2.too_few r.2.too_small r.2 rfl rfl q1 q2
      refine ⟨max fuel1 fuel2, t, ?_, e2, e3, SameBounds_trans q3 e6⟩
      rw [improve_body_eq, hmax]
      show (Improver.split_loop oracle (max fuel1 fuel2) s false).bind
        (fun r => if r.1 && s.min_comm_size.isSome then
          Improver.merge_loop oracle (max fuel1 fuel2) r.2 else some r.2) = some t
      rw [split_loop_mono oracle fuel1 (max fuel1 fuel2) s false r
        (Nat.le_max_left _ _) hr]
      show (if (r.1 && s.min_comm_size.isSome) = true then
        Improver.merge_loop oracle (max fuel1 fuel2) r.2 else some r.2) = some t
      rw [if_pos hcc]
      exact merge_loop_mono oracle fuel2 (max fuel1 fuel2) r.2 t
        (Nat.le_max_right _ _) e1
    · refine ⟨fuel1, r.2, ?_, q1, q2, q3⟩
      rw [improve_body_eq, hmax]
      show (Improver.split_loop oracle fuel1 s false).bind
        (fun r => if r.1 && s.min_comm_size.isSome then
          Improver.merge_loop oracle fuel1 r.2 else some r.2) = some r.2
      rw [hr]
      show (if (r.1 && s.min_comm_size.isSome) = true then
        Improver.merge_loop oracle fuel1 r.2 else some r.2) = some r.2
      rw [if_neg hcc]

/-- Unfolding of the outer penalty loop at nonzero fuel. -/
theorem improve_outer_succ (oracle : Oracle) (fuel : Nat) (s : Improver)
    (p : Nat × Nat) :
    Improver.improve_outer oracle (fuel + 1) s p =
      if pair_lt (s.too_few, s.too_small + s.too_large) p then
        (Improver.improve_body oracle fuel s).bind fun s1 =>
          Improver.improve_outer oracle fuel s1
            (s.too_few, s.too_small + s.too_large)
      else some s := rfl

theorem improve_outer_mono (oracle : Oracle) :
    ∀ fuel fuel' (s : Improver) (p : Nat × Nat) (t : Improver), fuel ≤ fuel' →
      Improver.improve_outer oracle fuel s p = some t →
      Improver.improve_outer oracle fuel' s p = some t := by
  intro fuel
  induction fuel with
  | zero =>
    intro fuel' s p t _ h
    have h0 : Improver.improve_outer oracle 0 s p = none := rfl
    rw [h0] at h
    cases h
  | succ n ih =>
    intro fuel' s p t hle h
    obtain ⟨m, rfl⟩ : ∃ m, fuel' = m + 1 := ⟨fuel' - 1, by omega⟩
    rw [improve_outer_succ] at h ⊢
    by_cases hg : pair_lt (s.too_few, s.too_small + s.too_large) p = true
    · rw [if_pos hg] at h ⊢
      cases hb : Improver.improve_body oracle n s with
      | none =>
        rw [hb] at h
        simp at h
      | some s1 =>
        rw [hb] at h
        rw [improve_body_mono oracle n m s s1 (by omega) hb]
        have h2 : Improver.improve_outer oracle n s1
            (s.too_few, s.too_small + s.too_large) = some t := h
        show Improver.improve_outer oracle m s1
          (s.too_few, s.too_small + s.too_large) = some t
        exact ih m s1 _ t (by omega) h2
    · rw [if_neg hg] at h ⊢
      exact h

/-- The outer penalty loop terminates: it recurses only when the
`(too_few, too_small + too_large)` pair got lexicographically smaller than
the stored penalty, which becomes the new stored penalty. -/
theorem improve_outer_exists (oracle : Oracle) (hO : OracleOK oracle) :
    ∀ (p1 p2 : Nat) (s : Improver), Inv s → NonemptyComms s →
      ∃ fuel t, Improver.improve_outer oracle fuel s (p1, p2) = some t ∧
        Inv t ∧ NonemptyComms t ∧ SameBounds s t := by
  intro p1
  induction p1 using Nat.strong_induction_on with
  | _ p1 ih1 =>
  intro p2
  induction p2 using Nat.strong_induction_on with
  | _ p2 ih2 =>
  intro s hI hN
  by_cases hg : pair_lt (s.too_few, s.too_small + s.too_large) (p1, p2) = true
  · obtain ⟨fuel1, s1, h1, b1, b2, b3⟩ := improve_body_exists oracle hO s hI hN
    rcases (pair_lt_iff _ _).mp hg with hlt | ⟨heq, hlt⟩
    · have hlt' : s.too_few < p1 := hlt
      obtain ⟨fuel2, t, h2, c1, c2, c3⟩ := ih1 s.too_few hlt'
        (s.too_small + s.too_large) s1 b1 b2
      refine ⟨max fuel1 fuel2 + 1, t, ?_, c1, c2, SameBounds_trans b3 c3⟩
      rw [improve_outer_succ, if_pos hg]
      rw [improve_body_mono oracle fuel1 (max fuel1 fuel2) s s1
        (Nat.le_max_left _ _) h1]
      show Improver.improve_outer oracle (max fuel1 fuel2) s1
        (s.too_few, s.too_small + s.too_large) = some t
      exact improve_outer_mono oracle fuel2 (max fuel1 fuel2) s1 _ t
        (Nat.le_max_right _ _) h2
    · have heq' : s.too_few = p1 := heq
      have hlt' : s.too_small + s.too_large < p2 := hlt
      obtain ⟨fuel2, t, h2, c1, c2, c3⟩ := ih2 (s.too_small + s.too_large)
        hlt' s1 b1 b2
      refine ⟨max fuel1 fuel2 + 1, t, ?_, c1, c2, SameBounds_trans b3 c3⟩
      rw [improve_outer_succ, if_pos hg]
      rw [improve_body_mono oracle fuel1 (max fuel1 fuel2) s s1
        (Nat.le_max_left _ _) h1]
      show Improver.improve_outer oracle (max fuel1 fuel2) s1
        (s.too_few, s.too_small + s.too_large) = some t
      rw [heq']
      exact improve_outer_mono oracle fuel2 (max fuel1 fuel2) s1 _ t
        (Nat.le_max_right _ _) h2
  · exact ⟨1, s, by rw [improve_outer_succ, if_neg hg], hI, hN,
      SameBounds_rfl s⟩

/-- `improve` terminates with the invariant, nonemptiness and bounds kept. -/
theorem improve_exists (oracle : Oracle) (hO : OracleOK oracle) (s : Improver)
    (hI : Inv s) (hN : NonemptyComms s) :
    ∃ fuel t, Improver.improve oracle fuel s = some t ∧ Inv t ∧
      NonemptyComms t ∧ SameBounds s t := by
  by_cases hmin : s.min_comm_size.isSome = true
  · obtain ⟨fuel1, s1, e1, e2, e3, _, _, e6, _⟩ := merge_loop_exists oracle hO
      s.too_few s.too_small s rfl rfl hI hN
    obtain ⟨fuel2, t, h2, c1, c2, c3⟩ := improve_outer_exists oracle hO
      s1.too_few (s1.too_small + s1.too_large + 1) s1 e2 e3
    refine ⟨max fuel1 fuel2, t, ?_, c1, c2, SameBounds_trans e6 c3⟩
    rw [Improver.improve, if_pos hmin]
    rw [merge_loop_mono oracle fuel1 (max fuel1 fuel2) s s1
      (Nat.le_max_left _ _) e1]
    show Improver.improve_outer oracle (max fuel1 fuel2) s1
      (s1.too_few, s1.too_small + s1.too_large + 1) = some t
    exact improve_outer_mono oracle fuel2 (max fuel1 fuel2) s1 _ t
      (Nat.le_max_right _ _) h2
  · obtain ⟨fuel2, t, h2, c1, c2, c3⟩ := improve_outer_exists oracle hO
      s.too_few (s.too_small + s.too_large + 1) s hI hN
    refine ⟨fuel2, t, ?_, c1, c2, c3⟩
    rw [Improver.improve, if_neg hmin]
    show Improver.improve_outer oracle fuel2 s
      (s.too_few, s.too_small + s.too_large + 1) = some t
    exact h2

/-! ## The invariant after construction -/

/-- `Improver.__init__` establishes the invariant whenever the configured node
sizes (if any) match the membership length. -/
theorem Inv_init (membership : List Nat) (node_sizes : Option (List Nat))
    (tgt : Nat) (mcc : Bool) (maxs mins minn : Option Nat) (oc : Nat)
    (hsl : match node_sizes with
           | none => True
           | some l => l.length = membership.length) :
    Inv (Improver.init membership node_sizes tgt mcc maxs mins minn oc) := by
  rw [Improver.init]
  apply Inv_add_many
  · refine ⟨hsl, ?_, ?_, ?_, ?_, ?_, ?_, ?_, List.nodup_nil, rfl, rfl, rfl,
      ?_, ?_⟩ <;>
      intro c hc <;> exact absurd hc (List.not_mem_nil c)
  · intro v hv
    right
    refine ⟨Nat.zero_le v, ?_⟩
    have := list_max_le_of_mem membership v hv
    omega

/-- With a nonempty membership satisfying the partitioner contract (downward
closed ids) every initial community is nonempty. -/
theorem Nonempty_init (membership : List Nat) (node_sizes : Option (List Nat))
    (tgt : Nat) (mcc : Bool) (maxs mins minn : Option Nat) (oc : Nat)
    (hne : membership ≠ [])
    (hdc : ∀ i v, v ∈ membership → i ≤ v → i ∈ membership) :
    NonemptyComms (Improver.init membership node_sizes tgt mcc maxs mins minn oc) := by
  rw [Improver.init]
  apply Nonempty_add_many
  · intro c hc
    exact absurd hc (List.not_mem_nil c)
  · intro i hi
    show 0 + i ∈ membership
    rw [Nat.zero_add]
    exact hdc i (list_max membership) (list_max_mem membership hne) (by omega)

/-! ## `pack` and `fill` preserve the invariant -/

theorem collect_selected_cons (sel : Community → Bool) (c : Community)
    (cs : List Community) :
    collect_selected sel (c :: cs) =
      if sel c then (c :: (collect_selected sel cs).1, (collect_selected sel cs).2)
      else ((collect_selected sel cs).1, c :: (collect_selected sel cs).2) := rfl

theorem collect_selected_spec (sel : Community → Bool) :
    ∀ l : List Community,
      collect_selected sel l = (l.filter sel, l.filter (fun c => !(sel c))) := by
  intro l
  induction l with
  | nil => rfl
  | cons c cs ih =>
    rw [collect_selected_cons, ih]
    by_cases h : sel c = true
    · rw [if_pos h, List.filter_cons_of_pos h,
        List.filter_cons_of_neg (by simp [h])]
    · rw [if_neg h, List.filter_cons_of_neg (by simpa using h),
        List.filter_cons_of_pos (by simp [Bool.eq_false_of_ne_true h])]

theorem bin_pack_length (sizes : List Nat) (target : Nat) :
    (bin_pack sizes target).length = sizes.length := by
  simp [bin_pack]

theorem bin_fill_length (vals : List Nat) (mn : Nat) :
    (bin_fill vals mn).length = vals.length := by
  simp [bin_fill]

theorem relabel_by_bins_cons (mem : List Nat) (i : Nat) (is' : List Nat)
    (b : Nat) (bs' : List Nat) (base : Nat) :
    relabel_by_bins mem (i :: is') (b :: bs') base =
      relabel_by_bins (relabel_one mem i (base + b)) is' bs' base := rfl

theorem relabel_by_bins_nil (mem : List Nat) (bs : List Nat) (base : Nat) :
    relabel_by_bins mem [] bs base = mem := rfl

/-- The member relabelling `pack` and `fill` perform: length is kept; the
mask of any surviving index (not relabelled, below the allocation counter) is
unchanged; every entry is an untouched old entry or `base + bin`. -/
theorem relabel_by_bins_spec :
    ∀ (is bs mem : List Nat) (base : Nat), bs.length = is.length →
      (∀ i ∈ is, i < base) →
      (relabel_by_bins mem is bs base).length = mem.length ∧
      (∀ w, w ∉ is → w < base →
        mask_of (relabel_by_bins mem is bs base) w = mask_of mem w) ∧
      (∀ x ∈ relabel_by_bins mem is bs base,
        (x ∈ mem ∧ x ∉ is) ∨ ∃ b ∈ bs, x = base + b) := by
  intro is
  induction is with
  | nil =>
    intro bs mem base _ _
    rw [relabel_by_bins_nil]
    exact ⟨rfl, fun w _ _ => rfl, fun x hx => Or.inl ⟨hx, by simp⟩⟩
  | cons i is' ih =>
    intro bs mem base hlen hlt
    cases bs with
    | nil => simp at hlen
    | cons b bs' =>
      rw [relabel_by_bins_cons]
      have hlen' : bs'.length = is'.length := by simpa using hlen
      have hlt' : ∀ j ∈ is', j < base :=
        fun j hj => hlt j (List.mem_cons_of_mem _ hj)
      have hib : i < base := hlt i (List.mem_cons_self _ _)
      obtain ⟨i1, i2, i3⟩ := ih bs' (relabel_one mem i (base + b)) base hlen' hlt'
      refine ⟨?_, ?_, ?_⟩
      · rw [i1, relabel_one_length]
      · intro w hw hwb
        have hwi : w ≠ i := fun h => hw (h ▸ List.mem_cons_self _ _)
        have hwis : w ∉ is' := fun h => hw (List.mem_cons_of_mem _ h)
        rw [i2 w hwis hwb, mask_of_relabel_one mem i (base + b) w hwi (by omega)]
      · intro x hx
        rcases i3 x hx with ⟨h1, h2⟩ | ⟨bb, hbb, rfl⟩
        · rcases relabel_one_mem mem i (base + b) x h1 with h3 | ⟨h3, h4⟩
          · exact Or.inr ⟨b, List.mem_cons_self _ _, h3⟩
          · refine Or.inl ⟨h3, ?_⟩
            intro hcon
            rcases List.mem_cons.mp hcon with h5 | h5
            · exact h4 h5
            · exact h2 h5
        · exact Or.inr ⟨bb, List.mem_cons_of_mem _ hbb, rfl⟩

theorem total_node_size_congr (s t : Improver) (h : SameBounds s t) :
    total_node_size t = total_node_size s := by
  obtain ⟨h1, _, _, _, _, _, h7⟩ := h
  rw [total_node_size.eq_def, total_node_size.eq_def, h1, h7]

/-- `pack` preserves the invariant, the configuration, and the ghost log. -/
theorem Inv_pack (s : Improver) (hI : Inv s) :
    Inv s.pack ∧ SameBounds s s.pack ∧
    s.pack.split_attempts = s.split_attempts := by
  rw [Improver.pack, collect_selected_spec few_or_small s.communities]
  dsimp only
  set R := s.communities.filter few_or_small with hR
  set K := s.communities.filter (fun c => !(few_or_small c)) with hK
  by_cases hrem : (R.length == 0) = true
  · rw [if_pos hrem]
    exact ⟨hI, SameBounds_rfl s, rfl⟩
  · rw [if_neg hrem]
    set bins := bin_pack (R.map (fun c => c.size)) s.target_comm_size with hbins
    set mem1 := relabel_by_bins s.membership (R.map (fun c => c.index)) bins
      s.next_community_index with hmem1
    set T2 : Improver := { s with
      membership := mem1
      communities := K
      too_few := s.too_few - (R.map (fun c => c.too_few)).sum
      too_small := s.too_small - (R.map (fun c => c.too_small)).sum
      too_large := s.too_large - (R.map (fun c => c.too_large)).sum } with hT2
    set bc := list_max bins + 1 with hbc
    have hperm : s.communities.Perm (R ++ K) :=
      (List.filter_append_perm few_or_small s.communities).symm
    have hKsub : List.Sublist K s.communities := List.filter_sublist _
    have hRsub : List.Sublist R s.communities := List.filter_sublist _
    have hKmem : ∀ d ∈ K, d ∈ s.communities := fun d hd => hKsub.subset hd
    have hRmem : ∀ d ∈ R, d ∈ s.communities := fun d hd => hRsub.subset hd
    have hnodupRK : (R.map (fun c => c.index) ++ K.map (fun c => c.index)).Nodup := by
      rw [← List.map_append]
      exact ((hperm.map (fun c => c.index)).nodup_iff).mp hI.index_nodup
    have hdisj : ∀ d ∈ K, d.index ∉ R.map (fun c => c.index) := by
      intro d hd hcon
      exact (List.nodup_append.mp hnodupRK).2.2 hcon
        (List.mem_map.mpr ⟨d, hd, rfl⟩)
    have hlenbins : bins.length = (R.map (fun c => c.index)).length := by
      rw [hbins, bin_pack_length, List.length_map, List.length_map]
    have hltbase : ∀ i ∈ R.map (fun c => c.index), i < s.next_community_index := by
      intro i hi
      obtain ⟨d, hd, rfl⟩ := List.mem_map.mp hi
      exact hI.index_lt d (hRmem d hd)
    obtain ⟨rb1, rb2, rb3⟩ := relabel_by_bins_spec (R.map (fun c => c.index))
      bins s.membership s.next_community_index hlenbins hltbase
    rw [← hmem1] at rb1 rb2 rb3
    have hsum : ∀ f : Community → Nat, (s.communities.map f).sum =
        (R.map f).sum + (K.map f).sum := by
      intro f
      have h2 := (hperm.map f).sum_eq
      rw [List.map_append, List.sum_append] at h2
      exact h2
    have hpre : PreInv T2 := by
      refine ⟨?_, ?_, ?_, ?_, ?_, ?_, ?_, ?_, ?_, ?_, ?_, ?_, ?_, ?_⟩
      · exact sizes_len_ok_congr s T2 rfl rb1 hI.sizes_len
      · intro d hd
        show d.mask = mask_of mem1 d.index
        rw [rb2 d.index (hdisj d hd) (hI.index_lt d (hKmem d hd))]
        exact hI.mask_eq d (hKmem d hd)
      · intro d hd
        exact hI.nodes_eq d (hKmem d hd)
      · intro d hd
        have hcs : ∀ m, T2.community_size m = s.community_size m := by
          intro m
          rw [Improver.community_size, Improver.community_size]
        rw [hcs]
        exact hI.size_eq d (hKmem d hd)
      · intro d hd
        exact hI.few_eq d (hKmem d hd)
      · intro d hd
        exact hI.small_eq d (hKmem d hd)
      · intro d hd
        exact hI.large_eq d (hKmem d hd)
      · intro d hd
        exact hI.index_lt d (hKmem d hd)
      · exact hI.index_nodup.sublist (hKsub.map _)
      · show s.too_few - (R.map (fun c => c.too_few)).sum =
          (K.map (fun c => c.too_few)).sum
        have h1 := hI.few_total
        have h2 := hsum (fun c => c.too_few)
        omega
      · show s.too_small - (R.map (fun c => c.too_small)).sum =
          (K.map (fun c => c.too_small)).sum
        have h1 := hI.small_total
        have h2 := hsum (fun c => c.too_small)
        omega
      · show s.too_large - (R.map (fun c => c.too_large)).sum =
          (K.map (fun c => c.too_large)).sum
        have h1 := hI.large_total
        have h2 := hsum (fun c => c.too_large)
        omega
      · intro a ha
        exact hI.attempts_lt a ha
      · intro a ha d hd hdi
        exact hI.attempts_mono a ha d (hKmem d hd) hdi
    have hcover : ∀ v ∈ T2.membership,
        v ∈ T2.communities.map (fun d => d.index) ∨
          (T2.next_community_index ≤ v ∧ v < T2.next_community_index + bc) := by
      intro v hv
      rcases rb3 v hv with ⟨h1, h2⟩ | ⟨b, hb, rfl⟩
      · left
        have h3 := hI.cover v h1
        have h4 : v ∈ R.map (fun c => c.index) ++ K.map (fun c => c.index) := by
          rw [← List.map_append]
          exact ((hperm.map (fun c => c.index)).mem_iff).mp h3
        rcases List.mem_append.mp h4 with h5 | h5
        · exact absurd h5 h2
        · exact h5
      · right
        have := list_max_le_of_mem bins b hb
        show s.next_community_index ≤ s.next_community_index + b ∧
          s.next_community_index + b < s.next_community_index + bc
        rw [hbc]
        omega
    have hInvT := Inv_add_many T2 bc hpre hcover
    obtain ⟨am_1, am_2, am_3, am_4, am_5, am_6, am_7, am_8, am_9⟩ :=
      add_many_fixed T2 bc
    refine ⟨hInvT, ⟨?_, ?_, ?_, ?_, ?_, ?_, ?_⟩, ?_⟩
    · rw [am_2]
    · rw [am_3]
    · rw [am_4]
    · rw [am_5]
    · rw [am_6]
    · rw [am_7]
    · rw [am_1]
      exact rb1
    · rw [am_9]

theorem borrow_go_sublist (mn : Nat) :
    ∀ (total : Nat) (l : List (Nat × Nat × Nat × Nat)),
      List.Sublist (borrow_go mn total l) l := by
  intro total l
  induction l generalizing total with
  | nil => exact List.Sublist.refl _
  | cons c cs ih =>
    have h0 : borrow_go mn total (c :: cs) =
        if mn ≤ total + c.1 then [c]
        else c :: borrow_go mn (total + c.1) cs := rfl
    rw [h0]
    by_cases h : mn ≤ total + c.1
    · rw [if_pos h]
      exact (List.nil_sublist cs).cons₂ c
    · rw [if_neg h]
      exact (ih (total + c.1)).cons₂ c

/-- `fill` preserves the invariant, the configuration, and the ghost log. -/
theorem Inv_fill (s : Improver) (hI : Inv s) :
    Inv s.fill ∧ SameBounds s s.fill ∧
    s.fill.split_attempts = s.split_attempts := by
  rw [Improver.fill.eq_def]
  cases hmn : s.min_comm_nodes with
  | none => exact ⟨hI, SameBounds_rfl s, rfl⟩
  | some mn =>
    rw [collect_selected_spec (fun c => c.too_few != 0) s.communities]
    dsimp only
    set R := s.communities.filter (fun c => c.too_few != 0) with hR
    set K := s.communities.filter (fun c => !(c.too_few != 0)) with hK
    by_cases hrem : (R.length == 0) = true
    · rw [if_pos hrem]
      exact ⟨hI, SameBounds_rfl s, rfl⟩
    · rw [if_neg hrem]
      set cands := (K.enum.filter (fun p => p.2.too_few == 0)).map
        (fun p => (p.2.nodes, p.2.size, p.1, p.2.index)) with hcands
      set taken :=
        if (s.must_complete_cover &&
            decide ((R.map (fun c => c.nodes)).sum < mn)) = true then
          borrow_go mn ((R.map (fun c => c.nodes)).sum)
            (List.insertionSort (fun a b => quad_le a b = true) cands)
        else ([] : List (Nat × Nat × Nat × Nat)) with htaken
      set s1 : Improver := {
        membership := s.membership
        node_sizes := s.node_sizes
        target_comm_size := s.target_comm_size
        max_comm_size := s.max_comm_size
        min_comm_size := s.min_comm_size
        min_comm_nodes := some mn
        communities := K
        too_few := s.too_few - (R.map (fun c => c.too_few)).sum
        too_small := s.too_small - (R.map (fun c => c.too_small)).sum
        too_large := s.too_large - (R.map (fun c => c.too_large)).sum
        next_community_index := s.next_community_index
        must_complete_cover := s.must_complete_cover
        oracle_calls := s.oracle_calls
        split_attempts := s.split_attempts } with hs1
      set P := (List.insertionSort (fun a b => a ≤ b)
        (taken.map (fun t => t.2.2.1))).reverse with hP
      set s2 := P.foldl (fun t position => t.remove_at position) s1 with hs2
      set FN := R.map (fun c => c.nodes) ++ taken.map (fun t => t.1) with hFN
      set FI := R.map (fun c => c.index) ++ taken.map (fun t => t.2.2.2) with hFI
      set bins := bin_fill FN mn with hbins
      set mem1 := relabel_by_bins s2.membership FI bins
        s2.next_community_index with hmem1
      set T2 : Improver := { s2 with membership := mem1 } with hT2
      set bc := list_max bins + 1 with hbc
      have hKsub : List.Sublist K s.communities := List.filter_sublist _
      have hRsub : List.Sublist R s.communities := List.filter_sublist _
      have hKmem : ∀ d ∈ K, d ∈ s.communities := fun d hd => hKsub.subset hd
      have hRmem : ∀ d ∈ R, d ∈ s.communities := fun d hd => hRsub.subset hd
      have hperm : s.communities.Perm (R ++ K) :=
        (List.filter_append_perm (fun c => c.too_few != 0) s.communities).symm
      have hnodupRK : (R.map (fun c => c.index) ++
          K.map (fun c => c.index)).Nodup := by
        rw [← List.map_append]
        exact ((hperm.map (fun c => c.index)).nodup_iff).mp hI.index_nodup
      have htk : ∀ t ∈ taken, ∃ e, K.get? t.2.2.1 = some e ∧
          e.index = t.2.2.2 := by
        intro t ht
        rw [htaken] at ht
        by_cases hcond : (s.must_complete_cover &&
            decide ((R.map (fun c => c.nodes)).sum < mn)) = true
        · rw [if_pos hcond] at ht
          have h1 : t ∈ List.insertionSort (fun a b => quad_le a b = true) cands :=
            (borrow_go_sublist mn _ _).subset ht
          have h2 : t ∈ cands := (List.perm_insertionSort _ cands).subset h1
          rw [hcands] at h2
          obtain ⟨p, hp, rfl⟩ := List.mem_map.mp h2
          exact ⟨p.2, enum_filter_get K (fun c => c.too_few == 0) p hp, rfl⟩
        · rw [if_neg hcond] at ht
          cases ht
      have htkpos : ∀ t ∈ taken, t.2.2.1 < K.length := by
        intro t ht
        obtain ⟨e, he, _⟩ := htk t ht
        exact (List.get?_eq_some.mp he).1
      have hposnodup : (taken.map (fun t => t.2.2.1)).Nodup := by
        have hcnodup : (cands.map (fun t => t.2.2.1)).Nodup := by
          rw [hcands, List.map_map]
          have heq : ((fun t : Nat × Nat × Nat × Nat => t.2.2.1) ∘
              (fun p : Nat × Community =>
                (p.2.nodes, p.2.size, p.1, p.2.index))) =
              (fun p : Nat × Community => p.1) := rfl
          rw [heq]
          have hsub2 : List.Sublist
              ((K.enum.filter (fun p => p.2.too_few == 0)).map
                (fun p => p.1))
              (K.enum.map (fun p => p.1)) :=
            (List.filter_sublist _).map _
          have hrange : K.enum.map (fun p : Nat × Community => p.1) =
              List.range K.length := List.enum_map_fst K
          exact ((hrange ▸ hsub2) : _).nodup (List.nodup_range _)
        by_cases hcond : (s.must_complete_cover &&
            decide ((R.map (fun c => c.nodes)).sum < mn)) = true
        · rw [htaken, if_pos hcond]
          have hsub3 : List.Sublist
              ((borrow_go mn ((R.map (fun c => c.nodes)).sum)
                (List.insertionSort (fun a b => quad_le a b = true)
                  cands)).map (fun t => t.2.2.1))
              ((List.insertionSort (fun a b => quad_le a b = true)
                cands).map (fun t => t.2.2.1)) :=
            (borrow_go_sublist mn _ _).map _
          have hpm : ((List.insertionSort (fun a b => quad_le a b = true)
              cands).map (fun t => t.2.2.1)).Nodup :=
            (((List.perm_insertionSort _ cands).map _).nodup_iff).mpr hcnodup
          exact hsub3.nodup hpm
        · rw [htaken, if_neg hcond]
          simp
      have hPmem : ∀ p, p ∈ P ↔ p ∈ taken.map (fun t => t.2.2.1) := by
        intro p
        rw [hP, List.mem_reverse]
        exact (List.perm_insertionSort _ _).mem_iff
      have hPdesc : P.Pairwise (fun a b => b < a) := by
        rw [hP, List.pairwise_reverse]
        have hsorted : (List.insertionSort (fun a b => a ≤ b)
            (taken.map (fun t => t.2.2.1))).Pairwise (fun a b => a ≤ b) :=
          List.sorted_insertionSort _ _
        have hnd : (List.insertionSort (fun a b => a ≤ b)
            (taken.map (fun t => t.2.2.1))).Nodup :=
          ((List.perm_insertionSort _ _).nodup_iff).mpr hposnodup
        exact (hsorted.and hnd).imp (fun h => lt_of_le_of_ne h.1 h.2)
      have hPvalid : ∀ p ∈ P, p < s1.communities.length := by
        intro p hp
        obtain ⟨t, ht, rfl⟩ := List.mem_map.mp ((hPmem p).mp hp)
        exact htkpos t ht
      obtain ⟨rd1, rd2, rd3, rd4, rd5, rd6⟩ := remove_desc_spec P s1 hPdesc hPvalid
      rw [← hs2] at rd1 rd2 rd3 rd4 rd5 rd6
      obtain ⟨q1, q2, q3, q4, q5, q6, q7, q8, q9, q10⟩ := rd6
      have hs2mem : s2.membership = s.membership := q1
      have hs2ns : s2.node_sizes = s.node_sizes := q2
      have hs2next : s2.next_community_index = s.next_community_index := q8
      have hs2sa : s2.split_attempts = s.split_attempts := q10
      have hgrabidx : ∀ e ∈ grab s1.communities P,
          e.index ∈ taken.map (fun t => t.2.2.2) := by
        intro e he
        obtain ⟨p, hp, hpe⟩ := List.mem_filterMap.mp he
        obtain ⟨t, ht, rfl⟩ := List.mem_map.mp ((hPmem p).mp hp)
        obtain ⟨e', he', hei⟩ := htk t ht
        have hee : e = e' := by
          have : some e = some e' := by rw [← hpe, ← he']
          injection this
        subst hee
        exact List.mem_map.mpr ⟨t, ht, hei.symm⟩
      have hKsplit : (K.map (fun c => c.index)).Nodup :=
        hI.index_nodup.sublist (hKsub.map _)
      have hgsnodup : ((grab s1.communities P).map (fun c => c.index) ++
          s2.communities.map (fun c => c.index)).Nodup := by
        rw [← List.map_append]
        exact ((rd2.map (fun c => c.index)).nodup_iff).mp hKsplit
      have hsurvsub : List.Sublist s2.communities K := rd1
      have hsurvmem : ∀ d ∈ s2.communities, d ∈ s.communities :=
        fun d hd => hKmem d (hsurvsub.subset hd)
      have hsurvFI : ∀ d ∈ s2.communities, d.index ∉ FI := by
        intro d hd hcon
        rcases List.mem_append.mp hcon with h1 | h1
        · exact (List.nodup_append.mp hnodupRK).2.2 h1
            (List.mem_map.mpr ⟨d, hsurvsub.subset hd, rfl⟩)
        · obtain ⟨t, ht, hti⟩ := List.mem_map.mp h1
          obtain ⟨e, he, hei⟩ := htk t ht
          have heg : e ∈ grab s1.communities P := by
            apply List.mem_filterMap.mpr
            refine ⟨t.2.2.1, (hPmem _).mpr (List.mem_map.mpr ⟨t, ht, rfl⟩), he⟩
          exact (List.nodup_append.mp hgsnodup).2.2
            (List.mem_map.mpr ⟨e, heg, by rw [hei, hti]⟩)
            (List.mem_map.mpr ⟨d, hd, rfl⟩)
      have hlenbins : bins.length = FI.length := by
        rw [hbins, bin_fill_length, hFN, hFI]
        rw [List.length_append, List.length_append, List.length_map,
          List.length_map, List.length_map, List.length_map]
      have hFIlt : ∀ i ∈ FI, i < s.next_community_index := by
        intro i hi
        rcases List.mem_append.mp hi with h1 | h1
        · obtain ⟨d, hd, rfl⟩ := List.mem_map.mp h1
          exact hI.index_lt d (hRmem d hd)
        · obtain ⟨t, ht, rfl⟩ := List.mem_map.mp h1
          obtain ⟨e, he, hei⟩ := htk t ht
          rw [← hei]
          exact hI.index_lt e (hKmem e (List.get?_mem he))
      rw [hs2mem, hs2next] at hmem1
      obtain ⟨rb1, rb2, rb3⟩ := relabel_by_bins_spec FI bins s.membership
        s.next_community_index hlenbins hFIlt
      rw [← hmem1] at rb1 rb2 rb3
      have hsum : ∀ f : Community → Nat, (s.communities.map f).sum =
          (R.map f).sum + (K.map f).sum := by
        intro f
        have h2 := (hperm.map f).sum_eq
        rw [List.map_append, List.sum_append] at h2
        exact h2
      have hsumK : ∀ f : Community → Nat, (K.map f).sum =
          ((grab s1.communities P).map f).sum +
            (s2.communities.map f).sum := by
        intro f
        have h2 := (rd2.map f).sum_eq
        rw [List.map_append, List.sum_append] at h2
        exact h2
      have hT2comm : T2.communities = s2.communities := rfl
      have hT2mem : T2.membership = mem1 := rfl
      have hT2ns : T2.node_sizes = s.node_sizes := hs2ns
      have hT2next : T2.next_community_index = s.next_community_index := hs2next
      have hT2sa : T2.split_attempts = s.split_attempts := hs2sa
      have hT2tgt : T2.target_comm_size = s.target_comm_size := q3
      have hT2max : T2.max_comm_size = s.max_comm_size := q4
      have hT2min : T2.min_comm_size = s.min_comm_size := q5
      have hT2mn : T2.min_comm_nodes = some mn := q6
      have hT2mcc : T2.must_complete_cover = s.must_complete_cover := q7
      have hT2few : T2.too_few = s.too_few - (R.map (fun c => c.too_few)).sum -
          ((grab s1.communities P).map (fun c => c.too_few)).sum := rd3
      have hT2small : T2.too_small = s.too_small -
          (R.map (fun c => c.too_small)).sum -
          ((grab s1.communities P).map (fun c => c.too_small)).sum := rd4
      have hT2large : T2.too_large = s.too_large -
          (R.map (fun c => c.too_large)).sum -
          ((grab s1.communities P).map (fun c => c.too_large)).sum := rd5
      have hfewle : ∀ f : Community → Nat, (R.map f).sum ≤ (s.communities.map f).sum := by
        intro f
        rw [hsum f]
        omega
      have hpre : PreInv T2 := by
        refine ⟨?_, ?_, ?_, ?_, ?_, ?_, ?_, ?_, ?_, ?_, ?_, ?_, ?_, ?_⟩
        · exact sizes_len_ok_congr s T2 hT2ns (by rw [hT2mem, rb1]) hI.sizes_len
        · intro d hd
          rw [hT2comm] at hd
          show d.mask = mask_of mem1 d.index
          rw [rb2 d.index (hsurvFI d hd) (hI.index_lt d (hsurvmem d hd))]
          exact hI.mask_eq d (hsurvmem d hd)
        · intro d hd
          rw [hT2comm] at hd
          exact hI.nodes_eq d (hsurvmem d hd)
        · intro d hd
          rw [hT2comm] at hd
          have hcs : ∀ m, T2.community_size m = s.community_size m := by
            intro m
            rw [Improver.community_size, Improver.community_size, hT2ns]
          rw [hcs]
          exact hI.size_eq d (hsurvmem d hd)
        · intro d hd
          rw [hT2comm] at hd
          rw [show T2.min_comm_nodes = s.min_comm_nodes from hT2mn.trans hmn.symm]
          exact hI.few_eq d (hsurvmem d hd)
        · intro d hd
          rw [hT2comm] at hd
          rw [hT2min]
          exact hI.small_eq d (hsurvmem d hd)
        · intro d hd
          rw [hT2comm] at hd
          rw [hT2max]
          exact hI.large_eq d (hsurvmem d hd)
        · intro d hd
          rw [hT2comm] at hd
          rw [hT2next]
          exact hI.index_lt d (hsurvmem d hd)
        · rw [hT2comm]
          exact hKsplit.sublist (hsurvsub.map _)
        · rw [hT2comm, hT2few]
          have h1 := hI.few_total
          have h2 := hsum (fun c => c.too_few)
          have h3 := hsumK (fun c => c.too_few)
          omega
        · rw [hT2comm, hT2small]
          have h1 := hI.small_total
          have h2 := hsum (fun c => c.too_small)
          have h3 := hsumK (fun c => c.too_small)
          omega
        · rw [hT2comm, hT2large]
          have h1 := hI.large_total
          have h2 := hsum (fun c => c.too_large)
          have h3 := hsumK (fun c => c.too_large)
          omega
        · intro a ha
          rw [hT2sa] at ha
          rw [hT2next]
          exact hI.attempts_lt a ha
        · intro a ha d hd hdi
          rw [hT2sa] at ha
          rw [hT2comm] at hd
          exact hI.attempts_mono a ha d (hsurvmem d hd) hdi
      have hcover : ∀ v ∈ T2.membership,
          v ∈ T2.communities.map (fun d => d.index) ∨
            (T2.next_community_index ≤ v ∧ v < T2.next_community_index + bc) := by
        intro v hv
        rcases rb3 v hv with ⟨h1, h2⟩ | ⟨b, hb, rfl⟩
        · left
          have h3 := hI.cover v h1
          have h4 : v ∈ R.map (fun c => c.index) ++ K.map (fun c => c.index) := by
            rw [← List.map_append]
            exact ((hperm.map (fun c => c.index)).mem_iff).mp h3
          rcases List.mem_append.mp h4 with h5 | h5
          · exact absurd (List.mem_append.mpr (Or.inl h5)) h2
          · have h6 : v ∈ (grab s1.communities P).map (fun c => c.index) ++
                s2.communities.map (fun c => c.index) := by
              rw [← List.map_append]
              exact ((rd2.map (fun c => c.index)).mem_iff).mp h5
            rcases List.mem_append.mp h6 with h7 | h7
            · obtain ⟨e, he, rfl⟩ := List.mem_map.mp h7
              exact absurd (List.mem_append.mpr (Or.inr (hgrabidx e he))) h2
            · exact h7
        · right
          have := list_max_le_of_mem bins b hb
          rw [hT2next]
          show s.next_community_index ≤ s.next_community_index + b ∧
            s.next_community_index + b < s.next_community_index + bc
          rw [hbc]
          omega
      have hInvT := Inv_add_many T2 bc hpre hcover
      obtain ⟨am_1, am_2, am_3, am_4, am_5, am_6, am_7, am_8, am_9⟩ :=
        add_many_fixed T2 bc
      refine ⟨hInvT, ⟨?_, ?_, ?_, ?_, ?_, ?_, ?_⟩, ?_⟩
      · rw [am_2, hT2ns]
      · rw [am_3]
        exact hT2tgt
      · rw [am_4]
        exact hT2max
      · rw [am_5]
        exact hT2min
      · rw [am_6]
        exact hT2mn.trans hmn.symm
      · rw [am_7]
        exact hT2mcc
      · rw [am_1, hT2mem, rb1]
      · rw [am_9]
        exact hT2sa

/-! ## Lemmas about `scatter` -/

theorem scatter_length (idxs : List Nat) (vals : List Int) (acc : List Int) :
    (scatter acc idxs vals).length = acc.length := by
  induction idxs generalizing acc vals with
  | nil => cases vals <;> rfl
  | cons i is' ih =>
    cases vals with
    | nil => rfl
    | cons v vs => simpa [scatter] using ih vs (acc.set i v)

theorem scatter_getD_of_not_mem (idxs : List Nat) (vals : List Int) (acc : List Int)
    (i : Nat) (hi : i ∉ idxs) : (scatter acc idxs vals).getD i 0 = acc.getD i 0 := by
  induction idxs generalizing acc vals with
  | nil => cases vals <;> rfl
  | cons j js ih =>
    cases vals with
    | nil => rfl
    | cons v vs =>
      rw [scatter, ih vs _ (fun h => hi (List.mem_cons_of_mem _ h))]
      have hij : i ≠ j := fun h => hi (h ▸ List.mem_cons_self _ _)
      simp [List.getD, List.getElem?_set_ne (Ne.symm hij)]

theorem scatter_getD_of_mem (idxs : List Nat) (vals : List Int) (acc : List Int)
    (i : Nat) (v : Int) (hmem : (i, v) ∈ idxs.zip vals) (hnodup : idxs.Nodup)
    (hlt : i < acc.length) : (scatter acc idxs vals).getD i 0 = v := by
  induction idxs generalizing acc vals with
  | nil => simp [List.zip] at hmem
  | cons j js ih =>
    cases vals with
    | nil => simp [List.zip] at hmem
    | cons w ws =>
      rw [List.zip_cons_cons, List.mem_cons] at hmem
      rw [scatter]
      rcases hmem with h | h
      · injection h with h1 h2
        subst h1; subst h2
        rw [scatter_getD_of_not_mem _ _ _ _ (List.nodup_cons.mp hnodup).1]
        simp [List.getD, List.getElem?_set_self hlt]
      · exact ih ws (acc.set j w) h (List.nodup_cons.mp hnodup).2 (by simpa using hlt)

/-! ## Claim C1 -/

/-- C1: when per-pile partial results are merged into the global accumulator,
the claim says local ids are remapped by a running counter updated in
pile-index order so that cells in different piles in different local metacells
get distinct global ids.  The code violates this: `_collect_piles_results`
discards the updated count returned by `_collect_pile_results`, so every pile
is offset by 0.  With two piles of one cell each, both cells having local
metacell id 0, both receive global id 0 and the returned count is 0; threading
the returned count as `_collect_pile_results` supports (second conjunct) would
give the distinct ids 0 and 1. -/
theorem C1_pile_id_collision :
    collect_piles_results [-1, -1] [⟨[0], [0]⟩, ⟨[1], [0]⟩] = ([0, 0], 0) ∧
    (let r0 := collect_pile_results [-1, -1] ⟨[0], [0]⟩ 0
     let r1 := collect_pile_results r0.1 ⟨[1], [0]⟩ r0.2
     r1.1 = [0, 1] ∧ r1.2 = 2) := by
  refine ⟨rfl, rfl, rfl⟩

/-! ## Claim C6 -/

/-- C6: when pile results (`_collect_pile_results`) or outlier-recursion
results (`_collect_outliers_results`) are spliced into the accumulator, only
entries with a non-negative local id are offset by the running counter, and
every entry with a negative sentinel is written back unchanged. -/
theorem C6_negative_sentinels_never_offset (acc : List Int) (r : PileResult)
    (cnt : Int) (i : Nat) (v : Int) (hmem : (i, v) ∈ r.cell_indices.zip r.metacell)
    (hnodup : r.cell_indices.Nodup) (hlt : i < acc.length) :
    (v < 0 → (collect_pile_results acc r cnt).1.getD i 0 = v ∧
      (collect_outliers_results acc r cnt).getD i 0 = v) ∧
    (0 ≤ v → (collect_pile_results acc r cnt).1.getD i 0 = v + cnt ∧
      (collect_outliers_results acc r cnt).getD i 0 = v + cnt) := by
  have hmem' : (i, if 0 ≤ v then v + cnt else v) ∈
      r.cell_indices.zip (offset_nonneg r.metacell cnt) := by
    rw [offset_nonneg, List.zip_map_right, List.mem_map]
    exact ⟨(i, v), hmem, rfl⟩
  have hpile : (scatter acc r.cell_indices (offset_nonneg r.metacell cnt)).getD i 0 =
      if 0 ≤ v then v + cnt else v :=
    scatter_getD_of_mem _ _ _ _ _ hmem' hnodup hlt
  constructor
  · intro hv
    have : ¬ (0 ≤ v) := by omega
    constructor
    · simpa [collect_pile_results, this] using hpile
    · simpa [collect_outliers_results, this] using hpile
  · intro hv
    constructor
    · simpa [collect_pile_results, hv] using hpile
    · simpa [collect_outliers_results, hv] using hpile

/-- Witness for C6 at a concrete input: accumulator `[-7, -7]`, one pile with
cells `[0, 1]` and local ids `[-1, 3]`, counter 5: the `-1` is written back
unchanged. -/
theorem C6_negative_sentinels_never_offset_witness :
    ((-1 : Int) < 0 → (collect_pile_results [-7, -7] ⟨[0, 1], [-1, 3]⟩ 5).1.getD 0 0 = -1 ∧
      (collect_outliers_results [-7, -7] ⟨[0, 1], [-1, 3]⟩ 5).getD 0 0 = -1) ∧
    (0 ≤ (-1 : Int) → (collect_pile_results [-7, -7] ⟨[0, 1], [-1, 3]⟩ 5).1.getD 0 0 = -1 + 5 ∧
      (collect_outliers_results [-7, -7] ⟨[0, 1], [-1, 3]⟩ 5).getD 0 0 = -1 + 5) :=
  C6_negative_sentinels_never_offset [-7, -7] ⟨[0, 1], [-1, 3]⟩ 5 0 (-1)
    (by decide) (by decide) (by decide)

/-! ## Claim C9 -/

/-- C9 counterexample: the claim says each pile's direct-clustering invocation
uses a sub-seed derived as `seed + pile_index`; the code passes the run's seed
unchanged (`random_seed=random_seed` in `_compute_pile_metacells`), so with
seed 7 pile 1 receives 7, not 8, and piles 0 and 1 receive the same seed. -/
theorem C9_sub_seed_counterexample :
    (compute_pile_direct_args 7 1).random_seed = 7 ∧
    spec_pile_sub_seed 7 1 = 8 ∧
    (compute_pile_direct_args 7 1).random_seed ≠ spec_pile_sub_seed 7 1 ∧
    (compute_pile_direct_args 7 0).random_seed =
      (compute_pile_direct_args 7 1).random_seed := by
  refine ⟨rfl, rfl, by decide, rfl⟩

/-- C9 (amended): each pile's direct-clustering invocation receives the run's
single seed unchanged (so all piles share one seed rather than deriving
distinct sub-seeds), together with `must_complete_cover = False`. -/
theorem C9_pile_seed_passed_unchanged (seed pile_index : Nat) :
    (compute_pile_direct_args seed pile_index).random_seed = seed ∧
    (compute_pile_direct_args seed pile_index).must_complete_cover = false :=
  ⟨rfl, rfl⟩

/-! ## Claim C8 -/

/-- C8: an empty input set makes the pipeline entry raise a fatal error rather
than return an empty result, and `compute_candidate_metacells` validates its
size parameters before any clustering work: a non-positive target size, or a
merge factor not strictly below a given split factor, make it fail for every
oracle and every input — in particular the failure does not depend on the
partition method at all. -/
theorem C8_empty_input_and_validation :
    (∀ clean_of : Nat → Nat,
      divide_and_conquer_entry clean_of 0 = Except.error "Empty clean data, giving up") ∧
    (∀ (oracle : Oracle) (fuel : Nat) (p : CcmParams) (n : Nat)
      (node_sizes : Option (List Nat)), p.target_metacell_size ≤ 0 →
      compute_candidate_metacells oracle fuel p n node_sizes = none) ∧
    (∀ (oracle : Oracle) (fuel : Nat) (p : CcmParams) (n : Nat)
      (node_sizes : Option (List Nat)) (fs fm : ℚ),
      p.min_split_size_factor = some fs → p.max_merge_size_factor = some fm →
      fs ≤ fm →
      compute_candidate_metacells oracle fuel p n node_sizes = none) := by
  refine ⟨?_, ?_, ?_⟩
  · intro clean_of
    simp [divide_and_conquer_entry, extract_clean_data]
  · intro oracle fuel p n node_sizes htarget
    have hchecks : ccm_checks p = false := by
      unfold ccm_checks
      simp [decide_eq_false_iff_not.mpr (by omega : ¬ (0 : Int) < p.target_metacell_size)]
    simp [compute_candidate_metacells, hchecks]
  · intro oracle fuel p n node_sizes fs fm hs hm hle
    have hchecks : ccm_checks p = false := by
      unfold ccm_checks
      rw [hs, hm]
      simp [decide_eq_false_iff_not.mpr (by exact not_lt.mpr hle : ¬ fm < fs)]
    simp [compute_candidate_metacells, hchecks]

/-- Witness for C8 at concrete inputs: a zero-size input, a zero target size,
and equal split and merge factors each make the respective entry fail. -/
theorem C8_empty_input_and_validation_witness :
    divide_and_conquer_entry (fun n => n) 0 = Except.error "Empty clean data, giving up" ∧
    compute_candidate_metacells (fun _ k => List.range k) 9
      { target_metacell_size := 0, min_split_size_factor := none,
        max_merge_size_factor := none, min_metacell_cells := none,
        must_complete_cover := false } 3 none = none ∧
    compute_candidate_metacells (fun _ k => List.range k) 9
      { target_metacell_size := 5, min_split_size_factor := some 1,
        max_merge_size_factor := some 1, min_metacell_cells := none,
        must_complete_cover := false } 3 none = none :=
  ⟨C8_empty_input_and_validation.1 (fun n => n),
   C8_empty_input_and_validation.2.1 (fun _ k => List.range k) 9 _ 3 none (by decide),
   C8_empty_input_and_validation.2.2 (fun _ k => List.range k) 9 _ 3 none 1 1
     rfl rfl (by norm_num)⟩

/-! ## Claim C10 -/

/-- C10: when `min_metacell_cells` is specified but both size factors are
`None`, `compute_candidate_metacells` performs no refinement at all: for every
oracle, fuel, input and node sizes the returned membership is exactly the raw
partition-method result (the `Improver` branch, and hence `fill`, is never
entered), regardless of `min_metacell_cells`. -/
theorem C10_no_refinement_without_factors (oracle : Oracle) (fuel : Nat)
    (p : CcmParams) (n : Nat) (node_sizes : Option (List Nat))
    (hsplit : p.min_split_size_factor = none)
    (hmerge : p.max_merge_size_factor = none)
    (htarget : 0 < p.target_metacell_size) :
    compute_candidate_metacells oracle fuel p n node_sizes = some (oracle 0 n) := by
  have hchecks : ccm_checks p = true := by
    unfold ccm_checks
    rw [hsplit, hmerge]
    simp [htarget]
  simp [compute_candidate_metacells, hchecks, hsplit, hmerge]

/-- Witness for C10 at a concrete input: target 5, only `min_metacell_cells`
set, 3 cells; the raw partition `[0, 1, 2]` is returned unchanged even though
every community violates the minimum cell count 2. -/
theorem C10_no_refinement_without_factors_witness :
    compute_candidate_metacells (fun _ k => List.range k) 9
      { target_metacell_size := 5, min_split_size_factor := none,
        max_merge_size_factor := none, min_metacell_cells := some 2,
        must_complete_cover := false } 3 none = some [0, 1, 2] := by
  have h := C10_no_refinement_without_factors (fun _ k => List.range k) 9
    { target_metacell_size := 5, min_split_size_factor := none,
      max_merge_size_factor := none, min_metacell_cells := some 2,
      must_complete_cover := false } 3 none rfl rfl (by decide)
  simpa using h

/-- C2: for every invariant-respecting input state (any membership vector,
node sizes and configured bounds, as produced by `Improver.__init__`) the
`improve()` loop terminates — some finite fuel makes every loop return — and
structurally: the outer loop stops as soon as the penalty pair
`(too_few, too_small + too_large)` fails to decrease lexicographically below
the stored penalty, the merge loop stops on the first non-improving
`merge_few_or_small` attempt, and the split loop stops on the first pass that
splits nothing. -/
theorem C2_improve_terminates (oracle : Oracle) (s : Improver)
    (hI : Inv s) (hN : NonemptyComms s) (hO : OracleOK oracle) :
    (∃ fuel t, Improver.improve oracle fuel s = some t) ∧
    (∀ fuel (u : Improver) (p : Nat × Nat),
      pair_lt (u.too_few, u.too_small + u.too_large) p = false →
      Improver.improve_outer oracle (fuel + 1) u p = some u) ∧
    (∀ fuel (u : Improver),
      (Improver.merge_few_or_small oracle u).1 = false →
      (u.too_few > 0 || u.too_small > 0) = true →
      Improver.merge_loop oracle (fuel + 1) u =
        some (Improver.merge_few_or_small oracle u).2) ∧
    (∀ fuel (u : Improver) (d : Bool) (v : Improver),
      Improver.split_large oracle fuel u = some (false, v) → u.too_large > 0 →
      Improver.split_loop oracle (fuel + 1) u d = some (d, v)) := by
  refine ⟨?_, ?_, ?_, ?_⟩
  · obtain ⟨fuel, t, h, _⟩ := improve_exists oracle hO s hI hN
    exact ⟨fuel, t, h⟩
  · intro fuel u p hguard
    rw [improve_outer_succ, if_neg (by rw [hguard]; simp)]
  · intro fuel u hflag hcond
    rw [merge_loop_succ, if_pos hcond, if_neg (by rw [hflag]; simp)]
  · intro fuel u d v hsl hlarge
    rw [split_loop_succ, if_pos hlarge, hsl]
    simp

theorem C2_improve_terminates_witness :
    ∃ fuel t, Improver.improve (fun _ k => List.range k) fuel
      (Improver.init [0, 0] none 1 false (some 2) (some 1) none 1) = some t :=
  (C2_improve_terminates (fun _ k => List.range k)
    (Improver.init [0, 0] none 1 false (some 2) (some 1) none 1)
    (Inv_init [0, 0] none 1 false (some 2) (some 1) none 1 trivial)
    (Nonempty_init [0, 0] none 1 false (some 2) (some 1) none 1 (by simp)
      (fun i v hv hle => by
        simp at hv ⊢
        omega))
    (fun c k => ⟨List.length_range k,
      fun i v hv hle =>
        List.mem_range.mpr (lt_of_le_of_lt hle (List.mem_range.mp hv))⟩)).1

/-- C3: the sum of the cached community sizes equals the total node size (the
node count when sizes are absent, their sum otherwise) in every
invariant-respecting state, after construction, after `merge_few_or_small`,
after a `split_large` pass, after `pack`, after `fill`, and at return from
the refinement (`improve` followed by `pack` and `fill`). -/
theorem C3_size_conservation (oracle : Oracle) (s : Improver)
    (hI : Inv s) (hN : NonemptyComms s) (hO : OracleOK oracle) :
    ((s.communities.map (fun c => c.size)).sum = total_node_size s) ∧
    (∀ (membership : List Nat) (node_sizes : Option (List Nat)) (tgt : Nat)
      (mcc : Bool) (maxs mins minn : Option Nat) (oc : Nat),
      (match node_sizes with
       | none => True
       | some l => l.length = membership.length) →
      ((Improver.init membership node_sizes tgt mcc maxs mins minn
          oc).communities.map (fun c => c.size)).sum =
        total_node_size (Improver.init membership node_sizes tgt mcc maxs mins
          minn oc)) ∧
    (((Improver.merge_few_or_small oracle s).2.communities.map
      (fun c => c.size)).sum = total_node_size s) ∧
    (∀ fuel b t, Improver.split_large oracle fuel s = some (b, t) →
      (t.communities.map (fun c => c.size)).sum = total_node_size s) ∧
    ((s.pack.communities.map (fun c => c.size)).sum = total_node_size s) ∧
    ((s.fill.communities.map (fun c => c.size)).sum = total_node_size s) ∧
    (∃ fuel t, Improver.improve oracle fuel s = some t ∧
      ((t.pack.fill.communities.map (fun c => c.size)).sum =
        total_node_size s)) := by
  refine ⟨Inv_sum_sizes s hI, ?_, ?_, ?_, ?_, ?_, ?_⟩
  · intro mem ns tgt mcc maxs mins minn oc hsl
    exact Inv_sum_sizes _ (Inv_init mem ns tgt mcc maxs mins minn oc hsl)
  · obtain ⟨m1, _, _, _, m5, _, _⟩ := merge_few_or_small_spec oracle s hI hN hO
    rw [Inv_sum_sizes _ m1, total_node_size_congr s _ m5]
  · intro fuel b t hrun
    obtain ⟨p1, _, p3, _⟩ :=
      split_large_go_props oracle hO fuel s 0 false b t hI hN hrun
    rw [Inv_sum_sizes t p1, total_node_size_congr s t p3]
  · obtain ⟨hp, hpb, _⟩ := Inv_pack s hI
    rw [Inv_sum_sizes _ hp, total_node_size_congr s _ hpb]
  · obtain ⟨hf, hfb, _⟩ := Inv_fill s hI
    rw [Inv_sum_sizes _ hf, total_node_size_congr s _ hfb]
  · obtain ⟨fuel, t, hrun, tI, tN, tSB⟩ := improve_exists oracle hO s hI hN
    obtain ⟨hp, hpb, _⟩ := Inv_pack t tI
    obtain ⟨hpf, hpfb, _⟩ := Inv_fill t.pack hp
    refine ⟨fuel, t, hrun, ?_⟩
    rw [Inv_sum_sizes _ hpf, total_node_size_congr t.pack _ hpfb,
      total_node_size_congr t _ hpb, total_node_size_congr s t tSB]

theorem C3_size_conservation_witness :
    (((Improver.init [0, 1] (some [2, 3]) 4 false (some 5) (some 2) none
      1).communities.map (fun c => c.size)).sum =
      total_node_size (Improver.init [0, 1] (some [2, 3]) 4 false (some 5)
        (some 2) none 1)) :=
  (C3_size_conservation (fun _ k => List.range k)
    (Improver.init [0, 1] (some [2, 3]) 4 false (some 5) (some 2) none 1)
    (Inv_init [0, 1] (some [2, 3]) 4 false (some 5) (some 2) none 1 rfl)
    (Nonempty_init [0, 1] (some [2, 3]) 4 false (some 5) (some 2) none 1
      (by simp)
      (fun i v hv hle => by
        simp at hv ⊢
        omega))
    (fun c k => ⟨List.length_range k,
      fun i v hv hle =>
        List.mem_range.mpr (lt_of_le_of_lt hle (List.mem_range.mp hv))⟩)).1

/-- C4: `merge_few_or_small` reports improvement exactly when the
`(too_few, too_small)` totals are both non-increasing and at least one
strictly decreases (under the invariant both are always non-increasing, so
this coincides with the Python tuple comparison the code performs), and with
fewer than two violating communities it reports no improvement and returns
the state unchanged. -/
theorem C4_merge_improvement_iff (oracle : Oracle) (s : Improver)
    (hI : Inv s) (hN : NonemptyComms s) (hO : OracleOK oracle) :
    ((Improver.merge_few_or_small oracle s).1 = true ↔
      (((Improver.merge_few_or_small oracle s).2.too_few ≤ s.too_few ∧
        (Improver.merge_few_or_small oracle s).2.too_small ≤ s.too_small) ∧
       ((Improver.merge_few_or_small oracle s).2.too_few < s.too_few ∨
        (Improver.merge_few_or_small oracle s).2.too_small < s.too_small))) ∧
    ((s.communities.filter few_or_small).length < 2 →
      Improver.merge_few_or_small oracle s = (false, s)) := by
  obtain ⟨m1, m2, m3, m4, m5, m6, m7⟩ := merge_few_or_small_spec oracle s hI hN hO
  constructor
  · rw [m7]
    constructor
    · intro h
      rcases h with h | ⟨he, hs2⟩
      · exact ⟨⟨m3, m4⟩, Or.inl h⟩
      · exact ⟨⟨m3, m4⟩, Or.inr hs2⟩
    · rintro ⟨⟨hle1, hle2⟩, h | h⟩
      · exact Or.inl h
      · rcases Nat.eq_or_lt_of_le hle1 with he | hlt
        · exact Or.inr ⟨he, h⟩
        · exact Or.inl hlt
  · intro hlen
    have h3 := enum_filter_snd s.communities few_or_small
    have h4 := congrArg List.length h3
    rw [List.length_map] at h4
    rw [merge_few_or_small_eq, if_pos (by omega)]

theorem C4_merge_improvement_iff_witness :
    Improver.merge_few_or_small (fun _ k => List.range k)
      (Improver.init [0] none 5 false none (some 3) none 1) =
      (false, Improver.init [0] none 5 false none (some 3) none 1) :=
  (C4_merge_improvement_iff (fun _ k => List.range k)
    (Improver.init [0] none 5 false none (some 3) none 1)
    (Inv_init [0] none 5 false none (some 3) none 1 trivial)
    (Nonempty_init [0] none 5 false none (some 3) none 1 (by simp)
      (fun i v hv hle => by
        simp at hv ⊢
        omega))
    (fun c k => ⟨List.length_range k,
      fun i v hv hle =>
        List.mem_range.mpr (lt_of_le_of_lt hle (List.mem_range.mp hv))⟩)).2
    (by decide)

/-- C5 counterexample: three complete refinement runs (partitioner = one
community per node, fuel ample) whose final state after `pack` and `fill`
violates each of the claim's three guarantees.  With node sizes `[5, 5]`,
target 10, maximum size 9 and minimum size 6, `pack` bins both communities
into one of size 10 > 9 that is not monolithic.  With a single node of size
5, target 10 and minimum size 6, the packed community keeps size 5 < 6.
With a single node and minimum node count 5, `fill` leaves a community with
1 < 5 nodes. -/
theorem C5_bound_violations_counterexample :
    ((Improver.improve (fun _ k => List.range k) 20
        (Improver.init (List.range 2) (some [5, 5]) 10 false (some 9) (some 6)
          none 1)).map (fun t => (t.pack.fill.max_comm_size,
          t.pack.fill.communities.any
            (fun c => decide (9 < c.size) && !c.monolithic))) =
      some (some 9, true)) ∧
    ((Improver.improve (fun _ k => List.range k) 20
        (Improver.init (List.range 1) (some [5]) 10 false (some 9) (some 6)
          none 1)).map (fun t => (t.pack.fill.min_comm_size,
          t.pack.fill.communities.any (fun c => decide (c.size < 6)))) =
      some (some 6, true)) ∧
    ((Improver.improve (fun _ k => List.range k) 20
        (Improver.init (List.range 1) none 10 false (some 9) none (some 5)
          1)).map (fun t => (t.fill.min_comm_nodes,
          t.fill.communities.any (fun c => decide (c.nodes < 5)))) =
      some (some 5, true)) :=
  ⟨by decide, by decide, by decide⟩

/-- C5 (amended): after `pack` and `fill` the state still satisfies the
representation invariant — in particular the membership is a cover by live
communities and the total community size equals the total node size — but
the configured bounds themselves are not guaranteed (see the
counterexample). -/
theorem C5_pack_fill_invariant (s : Improver) (hI : Inv s) :
    Inv s.pack.fill ∧
    total_node_size s.pack.fill = total_node_size s ∧
    ((s.pack.fill.communities.map (fun c => c.size)).sum =
      total_node_size s) ∧
    (∀ v ∈ s.pack.fill.membership,
      v ∈ s.pack.fill.communities.map (fun c => c.index)) := by
  obtain ⟨hp, hpb, _⟩ := Inv_pack s hI
  obtain ⟨hpf, hpfb, _⟩ := Inv_fill s.pack hp
  have ht : total_node_size s.pack.fill = total_node_size s :=
    (total_node_size_congr s.pack s.pack.fill hpfb).trans
      (total_node_size_congr s s.pack hpb)
  exact ⟨hpf, ht, by rw [Inv_sum_sizes _ hpf, ht], hpf.cover⟩

theorem C5_pack_fill_invariant_witness :
    ((Improver.init [0, 1] (some [2, 3]) 4 false (some 5) (some 2) none
      1).pack.fill.communities.map (fun c => c.size)).sum =
      total_node_size (Improver.init [0, 1] (some [2, 3]) 4 false (some 5)
        (some 2) none 1) :=
  (C5_pack_fill_invariant
    (Improver.init [0, 1] (some [2, 3]) 4 false (some 5) (some 2) none 1)
    (Inv_init [0, 1] (some [2, 3]) 4 false (some 5) (some 2) none 1
      rfl)).2.2.1

/-- C7: along any `split_large` scan from an invariant-respecting state,
every logged partition attempt whose result had a single community leaves a
live monolithic community with the attempted index (and node count); the
logged indices remain pairwise distinct, so no community is ever passed to
the partition method for splitting twice; any live community whose index was
ever attempted is monolithic; and when the scan reports no split, every
remaining too-large community is monolithic — the flag is the only mechanism
that exempts a too-large community from splitting. -/
theorem C7_monolithic_flagging (oracle : Oracle) (fuel : Nat) (s : Improver)
    (position : Nat) (d b : Bool) (t : Improver)
    (hI : Inv s) (hN : NonemptyComms s) (hO : OracleOK oracle)
    (hnodup : (s.split_attempts.map (fun a => a.index)).Nodup)
    (hrun : Improver.split_large_go oracle fuel s position d = some (b, t)) :
    (∃ new, t.split_attempts = s.split_attempts ++ new ∧
      ∀ a ∈ new, list_max (oracle a.call a.nodes) + 1 = 1 →
        ∃ e ∈ t.communities, e.index = a.index ∧ e.monolithic = true ∧
          e.nodes = a.nodes) ∧
    (t.split_attempts.map (fun a => a.index)).Nodup ∧
    (∀ a ∈ t.split_attempts, ∀ e ∈ t.communities, e.index = a.index →
      e.monolithic = true) ∧
    (b = false → ∀ e ∈ t.communities.drop position, e.too_large ≠ 0 →
      e.monolithic = true) := by
  obtain ⟨p1, _, _, p4, _, p6, _, _, _, p10⟩ :=
    split_large_go_props oracle hO fuel s position d b t hI hN hrun
  exact ⟨p4, p6 hnodup, p1.attempts_mono, fun hb => (p10 hb).2.2⟩

theorem C7_monolithic_flagging_witness :
    ((Improver.init (List.range 1) (some [5]) 10 false (some 9) (some 6) none
      1).split_attempts.map (fun a => a.index)).Nodup :=
  (C7_monolithic_flagging (fun _ k => List.range k) 2
    (Improver.init (List.range 1) (some [5]) 10 false (some 9) (some 6) none 1)
    0 false false
    (Improver.init (List.range 1) (some [5]) 10 false (some 9) (some 6) none 1)
    (Inv_init (List.range 1) (some [5]) 10 false (some 9) (some 6) none 1 rfl)
    (Nonempty_init (List.range 1) (some [5]) 10 false (some 9) (some 6) none 1
      (by simp)
      (fun i v hv hle => by
        simp at hv ⊢
        omega))
    (fun c k => ⟨List.length_range k,
      fun i v hv hle =>
        List.mem_range.mpr (lt_of_le_of_lt hle (List.mem_range.mp hv))⟩)
    (by decide) rfl).2.1

end Metacells
